import Mathlib

/-!
# Elishama Populi: the blind-signature voting core

A shallow embedding of the JavaScript sources

* `server/utils/rsaMath.js`, `src/utils/rsaMath.js` (modular arithmetic on BigInt),
* `src/services/BlindVoter.js` (the voter's blinding and unblinding arithmetic),
* `server/routes/censo.js` (the Census: blind signing),
* `server/routes/urna.js`, `server/services/urn/server.js` (the Urn: anonymous deposit),
* `server/services/ScrutinyEngine.js` (Merkle tree, inclusion proofs, tally, verification),

followed by the theorems that settle the claims made about them.

Conventions. A BigInt is an `Int`; `/` and `%` on BigInt truncate towards zero
(`Int.tdiv`, `Int.tmod`) and throw a RangeError on a zero divisor. A function that can
throw returns an `Option`, `none` standing for the exception. A JavaScript string is a
`String`; array sorting compares strings by UTF-16 code units. Loops are written with a
fuel argument that the caller sets to a bound on the number of iterations.
-/

namespace Elishama

/-! ## JavaScript values as they arrive in a JSON request body -/

/-- A JSON primitive. `undefined` stands for a field that is absent. A number is kept as
the text that `String(n)` gives for it, so zero is `"0"`. -/
inductive JsPrim where
  | undefined
  | null
  | bool (b : Bool)
  | num (text : String)
  | str (s : String)
  deriving DecidableEq, Repr

/-- A JSON value: a primitive, an array of primitives, or an object whose own properties
(listed in the order JavaScript enumerates them) hold primitives. -/
inductive JsVal where
  | prim (p : JsPrim)
  | arr (items : List JsPrim)
  | obj (props : List (String × JsPrim))
  deriving DecidableEq, Repr

/-- Truthiness of a primitive, as `!x` sees it. -/
def JsPrim.truthy : JsPrim → Bool
  | .undefined => false
  | .null => false
  | .bool b => b
  | .num t => t != "0"
  | .str s => s != ""

/-- Truthiness of a value: every array and every object is truthy. -/
def JsVal.truthy : JsVal → Bool
  | .prim p => p.truthy
  | .arr _ => true
  | .obj _ => true

/-- The string conversion of a primitive (`String(x)`, also used for property keys). -/
def JsPrim.toStr : JsPrim → String
  | .undefined => "undefined"
  | .null => "null"
  | .bool b => if b then "true" else "false"
  | .num t => t
  | .str s => s

/-- An array element inside `Array.prototype.join`: `undefined` and `null` give the empty
string. -/
def JsPrim.joinStr : JsPrim → String
  | .undefined => ""
  | .null => ""
  | p => p.toStr

/-- The string that `'0x' + v` appends for `v`. `none` is the TypeError thrown for an
object whose own `toString` property (a JSON value, hence not callable) hides
`Object.prototype.toString`. -/
def JsVal.toStr : JsVal → Option String
  | .prim p => some p.toStr
  | .arr items => some (",".intercalate (items.map JsPrim.joinStr))
  | .obj props => if props.any (fun kv => kv.1 == "toString") then none else some "[object Object]"

/-- Whether the value is a string: only then do `.substring(..)` and
`crypto.createHash(..).update(..)` accept it, otherwise they throw a TypeError. -/
def JsVal.isString : JsVal → Bool
  | .prim (.str _) => true
  | _ => false

/-- Equality as `Set.prototype.has` decides it (SameValueZero). Arrays and objects are
compared by identity, and every request body is parsed afresh, so an array or object of a
request is never the same as a stored one. -/
def JsVal.sameValueZero : JsVal → JsVal → Bool
  | .prim p, .prim q => p == q
  | _, _ => false

/-- `set.has(v)` for a `Set` kept as the list of its elements in insertion order. -/
def setHas (set : List JsVal) (v : JsVal) : Bool :=
  set.any (fun u => JsVal.sameValueZero u v)

/-- `set.add(v)`. -/
def setAdd (set : List JsVal) (v : JsVal) : List JsVal :=
  if setHas set v then set else set ++ [v]

/-! ## BigInt parsing and printing -/

/-- White space that `BigInt(string)` strips (WhiteSpace and LineTerminator code points). -/
def isJsWhiteSpace (c : Char) : Bool :=
  c.toNat ∈ [0x9, 0xA, 0xB, 0xC, 0xD, 0x20, 0xA0, 0x1680, 0x2000, 0x2001, 0x2002, 0x2003,
    0x2004, 0x2005, 0x2006, 0x2007, 0x2008, 0x2009, 0x200A, 0x2028, 0x2029, 0x202F, 0x205F,
    0x3000, 0xFEFF]

/-- Value of a hexadecimal digit, either case. -/
def hexDigitValue (c : Char) : Option Nat :=
  if '0' ≤ c ∧ c ≤ '9' then some (c.toNat - '0'.toNat)
  else if 'a' ≤ c ∧ c ≤ 'f' then some (c.toNat - 'a'.toNat + 10)
  else if 'A' ≤ c ∧ c ≤ 'F' then some (c.toNat - 'A'.toNat + 10)
  else none

/-- One step of reading hexadecimal digits, most significant first. -/
def hexStep (acc : Option Nat) (c : Char) : Option Nat :=
  match acc, hexDigitValue c with
  | some a, some d => some (16 * a + d)
  | _, _ => none

/-- The value of `BigInt('0x' + s)` for a string `s`: one or more hexadecimal digits,
optionally followed by white space. `none` is the SyntaxError. -/
def parseBigIntHex (s : String) : Option Nat :=
  let digits := (s.toList.reverse.dropWhile isJsWhiteSpace).reverse
  if digits.isEmpty then none else digits.foldl hexStep (some 0)

/-- The value of `BigInt('0x' + v)` for a JSON value `v`; `none` when the concatenation or the
conversion throws. -/
def bigIntOfHex (v : JsVal) : Option Int :=
  match v.toStr with
  | none => none
  | some s =>
    match parseBigIntHex s with
    | none => none
    | some n => some (n : Int)

/-- The text of `x.toString(16)` for a BigInt `x`. -/
def bigIntToHex (x : Int) : String :=
  if x < 0 then "-" ++ String.mk (Nat.toDigits 16 x.natAbs)
  else String.mk (Nat.toDigits 16 x.toNat)

/-! ## SHA-256 and JSON text (the platform functions the handlers call) -/

/-- The round constants of SHA-256 (FIPS 180-4). -/
def sha256K : List Nat := [
  0x428a2f98, 0x71374491, 0xb5c0fbcf, 0xe9b5dba5, 0x3956c25b, 0x59f111f1, 0x923f82a4, 0xab1c5ed5,
  0xd807aa98, 0x12835b01, 0x243185be, 0x550c7dc3, 0x72be5d74, 0x80deb1fe, 0x9bdc06a7, 0xc19bf174,
  0xe49b69c1, 0xefbe4786, 0x0fc19dc6, 0x240ca1cc, 0x2de92c6f, 0x4a7484aa, 0x5cb0a9dc, 0x76f988da,
  0x983e5152, 0xa831c66d, 0xb00327c8, 0xbf597fc7, 0xc6e00bf3, 0xd5a79147, 0x06ca6351, 0x14292967,
  0x27b70a85, 0x2e1b2138, 0x4d2c6dfc, 0x53380d13, 0x650a7354, 0x766a0abb, 0x81c2c92e, 0x92722c85,
  0xa2bfe8a1, 0xa81a664b, 0xc24b8b70, 0xc76c51a3, 0xd192e819, 0xd6990624, 0xf40e3585, 0x106aa070,
  0x19a4c116, 0x1e376c08, 0x2748774c, 0x34b0bcb5, 0x391c0cb3, 0x4ed8aa4a, 0x5b9cca4f, 0x682e6ff3,
  0x748f82ee, 0x78a5636f, 0x84c87814, 0x8cc70208, 0x90befffa, 0xa4506ceb, 0xbef9a3f7, 0xc67178f2]

/-- Two to the thirty-second: SHA-256 words are taken modulo this. -/
def word32 : Nat := 4294967296

/-- Rotation of a 32-bit word to the right. -/
def rotr (x n : Nat) : Nat := (x >>> n) ||| ((x <<< (32 - n)) % word32)

/-- The UTF-8 bytes of a character. -/
def utf8Bytes (c : Char) : List Nat :=
  let n := c.toNat
  if n < 0x80 then [n]
  else if n < 0x800 then [0xC0 + n / 64, 0x80 + n % 64]
  else if n < 0x10000 then [0xE0 + n / 4096, 0x80 + n / 64 % 64, 0x80 + n % 64]
  else [0xF0 + n / 262144, 0x80 + n / 4096 % 64, 0x80 + n / 64 % 64, 0x80 + n % 64]

/-- The message followed by the SHA-256 padding: a one bit, zeros, the bit length in 64
bits. -/
def shaPad (msg : List Nat) : List Nat :=
  let bits := msg.length * 8
  msg ++ [0x80] ++ List.replicate ((119 - msg.length % 64) % 64) 0 ++
    [bits / 2 ^ 56 % 256, bits / 2 ^ 48 % 256, bits / 2 ^ 40 % 256, bits / 2 ^ 32 % 256,
     bits / 2 ^ 24 % 256, bits / 2 ^ 16 % 256, bits / 2 ^ 8 % 256, bits % 256]

/-- Big-endian 32-bit words of a byte list. -/
def shaWords : List Nat → List Nat
  | a :: b :: c :: d :: rest => (((a * 256 + b) * 256 + c) * 256 + d) :: shaWords rest
  | _ => []

/-- Small sigma 0. -/
def ssig0 (x : Nat) : Nat := rotr x 7 ^^^ rotr x 18 ^^^ (x >>> 3)

/-- Small sigma 1. -/
def ssig1 (x : Nat) : Nat := rotr x 17 ^^^ rotr x 19 ^^^ (x >>> 10)

/-- Big sigma 0. -/
def bsig0 (x : Nat) : Nat := rotr x 2 ^^^ rotr x 13 ^^^ rotr x 22

/-- Big sigma 1. -/
def bsig1 (x : Nat) : Nat := rotr x 6 ^^^ rotr x 11 ^^^ rotr x 25

/-- The choice function. -/
def shaCh (x y z : Nat) : Nat := (x &&& y) ^^^ ((word32 - 1 - x) &&& z)

/-- The majority function. -/
def shaMaj (x y z : Nat) : Nat := (x &&& y) ^^^ (x &&& z) ^^^ (y &&& z)

/-- Extends the message schedule by `n` words; `rev` holds the words so far, the latest
first. -/
def shaSchedule : Nat → List Nat → List Nat
  | 0, rev => rev
  | n + 1, rev =>
    match rev with
    | _ :: w2 :: _ :: _ :: _ :: _ :: w7 :: _ :: _ :: _ :: _ :: _ :: _ :: _ :: w15 :: w16 :: _ =>
      shaSchedule n (((ssig1 w2 + w7 + ssig0 w15 + w16) % word32) :: rev)
    | _ => rev

/-- The eight working variables of SHA-256. -/
structure ShaState where
  a : Nat
  b : Nat
  c : Nat
  d : Nat
  e : Nat
  f : Nat
  g : Nat
  h : Nat

/-- One round, for a pair of round constant and schedule word. -/
def shaRound (s : ShaState) (kw : Nat × Nat) : ShaState :=
  let t1 := (s.h + bsig1 s.e + shaCh s.e s.f s.g + kw.1 + kw.2) % word32
  let t2 := (bsig0 s.a + shaMaj s.a s.b s.c) % word32
  ⟨(t1 + t2) % word32, s.a, s.b, s.c, (s.d + t1) % word32, s.e, s.f, s.g⟩

/-- The compression of one 64-byte block into the hash state. -/
def shaCompress (s : ShaState) (block : List Nat) : ShaState :=
  let w := (shaSchedule 48 (shaWords block).reverse).reverse
  let r := (List.zip sha256K w).foldl shaRound s
  ⟨(s.a + r.a) % word32, (s.b + r.b) % word32, (s.c + r.c) % word32, (s.d + r.d) % word32,
   (s.e + r.e) % word32, (s.f + r.f) % word32, (s.g + r.g) % word32, (s.h + r.h) % word32⟩

/-- The first `n` blocks of 64 bytes. -/
def shaBlocks : Nat → List Nat → List (List Nat)
  | 0, _ => []
  | n + 1, bytes => bytes.take 64 :: shaBlocks n (bytes.drop 64)

/-- The initial hash state. -/
def shaInit : ShaState :=
  ⟨0x6a09e667, 0xbb67ae85, 0x3c6ef372, 0xa54ff53a, 0x510e527f, 0x9b05688c, 0x1f83d9ab,
   0x5be0cd19⟩

/-- Eight lowercase hexadecimal digits of a 32-bit word. -/
def hex8 (x : Nat) : List Char :=
  [Nat.digitChar (x / 2 ^ 28 % 16), Nat.digitChar (x / 2 ^ 24 % 16),
   Nat.digitChar (x / 2 ^ 20 % 16), Nat.digitChar (x / 2 ^ 16 % 16),
   Nat.digitChar (x / 2 ^ 12 % 16), Nat.digitChar (x / 2 ^ 8 % 16),
   Nat.digitChar (x / 2 ^ 4 % 16), Nat.digitChar (x % 16)]

/-- The function `sha256(data)` of the sources,
`crypto.createHash('sha256').update(data).digest('hex')` for a string `data`: the SHA-256
digest of its UTF-8 bytes in lowercase hexadecimal. -/
def sha256 (data : String) : String :=
  let bytes := shaPad (data.toList.flatMap utf8Bytes)
  let r := (shaBlocks (bytes.length / 64) bytes).foldl shaCompress shaInit
  String.mk (hex8 r.a ++ hex8 r.b ++ hex8 r.c ++ hex8 r.d ++ hex8 r.e ++ hex8 r.f ++
    hex8 r.g ++ hex8 r.h)

/-- One character inside a JSON string literal, escaped as `JSON.stringify` does. -/
def jsonEscapeChar (c : Char) : String :=
  let n := c.toNat
  if n = 34 then String.mk [Char.ofNat 92, Char.ofNat 34]
  else if n = 92 then String.mk [Char.ofNat 92, Char.ofNat 92]
  else if n = 8 then String.mk [Char.ofNat 92, 'b']
  else if n = 12 then String.mk [Char.ofNat 92, 'f']
  else if n = 10 then String.mk [Char.ofNat 92, 'n']
  else if n = 13 then String.mk [Char.ofNat 92, 'r']
  else if n = 9 then String.mk [Char.ofNat 92, 't']
  else if n < 32 then
    String.mk [Char.ofNat 92, 'u', '0', '0', Nat.digitChar (n / 16), Nat.digitChar (n % 16)]
  else String.singleton c

/-- The JSON string literal for a string. -/
def jsonQuote (s : String) : String :=
  String.singleton (Char.ofNat 34) ++ String.join (s.toList.map jsonEscapeChar) ++
    String.singleton (Char.ofNat 34)

/-- JSON text of a primitive inside an array or object. -/
def JsPrim.json : JsPrim → String
  | .undefined => "null"
  | .null => "null"
  | .bool b => if b then "true" else "false"
  | .num t => t
  | .str s => jsonQuote s

/-- The text of one object member, absent when the value is `undefined`. -/
def jsonMember (kv : String × JsPrim) : Option String :=
  if kv.2 = JsPrim.undefined then none else some (jsonQuote kv.1 ++ ":" ++ kv.2.json)

/-- The result of `JSON.stringify(v)`; `none` stands for the value `undefined` that it
returns for `undefined`. -/
def JsVal.jsonStringify : JsVal → Option String
  | .prim .undefined => none
  | .prim p => some p.json
  | .arr items => some ("[" ++ ",".intercalate (items.map JsPrim.json) ++ "]")
  | .obj props => some ("\x7b" ++ ",".intercalate (props.filterMap jsonMember) ++ "\x7d")

/-! ## rsaMath.js -/

/-- The `while (exp > 0n)` loop of `modPow`, on the variables `result`, `base`, `exp`.
Every iteration halves `exp`, so `exp` iterations of fuel are never used up. -/
def modPowLoop : Nat → Int → Int → Int → Int → Int
  | 0, result, _, _, _ => result
  | fuel + 1, result, base, exp, mod =>
    if exp > 0 then
      modPowLoop fuel
        (if Int.tmod exp 2 = 1 then Int.tmod (result * base) mod else result)
        (Int.tmod (base * base) mod) (Int.tdiv exp 2) mod
    else result

/-- The function `modPow(base, exp, mod)`. `none` is the RangeError of `base % mod` for
`mod = 0n`. -/
def modPow (base exp mod : Int) : Option Int :=
  if mod = 0 then none
  else
    let base := Int.tmod base mod
    if base = 0 then some 0
    else some (modPowLoop exp.toNat 1 base exp mod)

/-- The `while (a > 1n)` loop of `modInverse`, on the variables `a`, `m`, `x`, `y`; the
result is the final `x`. `none` is the RangeError of `a / m` for `m = 0n`. The absolute
value of `m` decreases in every iteration, so fuel `|m|` is never used up. -/
def modInverseLoop : Nat → Int → Int → Int → Int → Option Int
  | fuel, a, m, x, y =>
    if a > 1 then
      if m = 0 then none
      else
        match fuel with
        | 0 => none
        | fuel + 1 => modInverseLoop fuel m (Int.tmod a m) y (x - Int.tdiv a m * y)
    else some x

/-- The function `modInverse(a, m)`. -/
def modInverse (a m : Int) : Option Int :=
  if m = 1 then some 0
  else
    match modInverseLoop m.natAbs a m 1 0 with
    | none => none
    | some x => some (if x < 0 then x + m else x)

/-! ## BlindVoter.js: the arithmetic of blinding and unblinding -/

/-- The value `blindedMessage` of `createBlindedToken`, for the fields `this.N`, `this.e`
of the voter, the token `originalToken` and the blinding factor `r` drawn in the method.
The method starts with the guard `if (!this.N || !this.e) throw ...`, which the BigInt `0n`
fails as `null` does; then `rPowE = modPow(r, e, N)` and the value is
`(originalToken * rPowE) % N`. -/
def blindedMessage (originalToken r e N : Int) : Option Int :=
  if N = 0 ∨ e = 0 then none
  else
    match modPow r e N with
    | none => none
    | some rPowE => some (Int.tmod (originalToken * rPowE) N)

/-- The value `signature` of `unblindSignature`, for the blind signature `sPrime` and the
fields `this.r`, `this.originalToken`, `this.N` of the voter. The method starts with the
guard `if (!this.r || !this.originalToken) throw ...`, which the BigInt `0n` fails as `null`
does; then `rInverse = modInverse(r, N)` and the value is `(sPrime * rInverse) % N`. -/
def unblindedSignature (sPrime r originalToken N : Int) : Option Int :=
  if r = 0 ∨ originalToken = 0 then none
  else
    match modInverse r N with
    | none => none
    | some rInverse => if N = 0 then none else some (Int.tmod (sPrime * rInverse) N)

/-! ## censo.js: the Census -/

/-- The modulus both services fall back to when `RSA_PUBLIC_MODULUS_HEX` is not set. -/
def defaultModulus : Int :=
  0xd7f2ab1c3e5f7a9b0d1e3f5a7b9c0d2e4f6a8b0c2d4e6f8a0b2c4d6e8f0a1b3c5d7e9f1a3b5c7d9e1f3a5b7c9d1e3f5a7b9c0d2e4f6a8b0c2d4e6f8a0b2c4d6e8

/-- The private exponent the Census falls back to when `RSA_PRIVATE_EXPONENT_HEX` is not
set. -/
def defaultPrivateExponent : Int :=
  0x3a1b4c2d5e6f7a8b9c0d1e2f3a4b5c6d7e8f9a0b1c2d3e4f5a6b7c8d9e0f1a2b3c4d5e6f7a8b9c0d1e2f3a4b5c6d7e8f9a0b1c2d3e4f5a6b7c8d9e0f1a2b3c4d5

/-- The shape of `CENSUS_KEY`. -/
structure CensusKey where
  N : Int
  e : Int
  d : Int

/-- The constant `CENSUS_KEY` of `censo.js` with no environment override. -/
def CENSUS_KEY : CensusKey := ⟨defaultModulus, 65537, defaultPrivateExponent⟩

/-- The body of an authorize-ballot request. -/
structure AuthorizeBody where
  blindedTokenHex : JsVal
  voterId : JsVal

/-- What authorize-ballot answers. -/
inductive CensusResponse where
  | ok (blindedSignature : String)
  | badRequest
  | alreadyVoted
  | internalError
  deriving DecidableEq, Repr

/-- The HTTP status of an answer. -/
def CensusResponse.status : CensusResponse → Nat
  | .ok _ => 200
  | .badRequest => 400
  | .alreadyVoted => 403
  | .internalError => 500

/-- Outcome of one authorize-ballot request: the new `votedRegistry`, the answer, and the
value `sPrime` when the handler got as far as computing it. -/
structure AuthorizeResult where
  votedRegistry : List JsVal
  response : CensusResponse
  sPrime : Option Int

/-- The handler of `POST /authorize-ballot`, on the `Set` `votedRegistry`. An exception
inside `try` is caught and answered with status 500. -/
def authorizeBallot (key : CensusKey) (votedRegistry : List JsVal) (body : AuthorizeBody) :
    AuthorizeResult :=
  if !body.blindedTokenHex.truthy || !body.voterId.truthy then
    ⟨votedRegistry, .badRequest, none⟩
  else if setHas votedRegistry body.voterId then
    ⟨votedRegistry, .alreadyVoted, none⟩
  else
    match bigIntOfHex body.blindedTokenHex with
    | none => ⟨votedRegistry, .internalError, none⟩
    | some mPrime =>
      match modPow mPrime key.d key.N with
      | none => ⟨votedRegistry, .internalError, none⟩
      | some sPrime =>
        -- votedRegistry.add(voterId), then the log line calls voterId.substring(0, 8)
        if body.voterId.isString then
          ⟨setAdd votedRegistry body.voterId, .ok (bigIntToHex sPrime), some sPrime⟩
        else
          ⟨setAdd votedRegistry body.voterId, .internalError, some sPrime⟩

/-- The Census serving a sequence of requests: the outcomes, in order. -/
def runCensus (key : CensusKey) : List JsVal → List AuthorizeBody → List AuthorizeResult
  | _, [] => []
  | reg, body :: rest =>
    authorizeBallot key reg body :: runCensus key (authorizeBallot key reg body).votedRegistry rest

/-- Whether an outcome returned a blind signature. -/
def AuthorizeResult.issued (r : AuthorizeResult) : Bool :=
  match r.response with
  | .ok _ => true
  | _ => false

/-- The registry after a sequence of requests. -/
def censusRegistryAfter (key : CensusKey) : List JsVal → List AuthorizeBody → List JsVal
  | reg, [] => reg
  | reg, body :: rest => censusRegistryAfter key (authorizeBallot key reg body).votedRegistry rest

/-- The number of requests of a run that carry the voter `v` and return a blind
signature. -/
def issuedCount (key : CensusKey) (v : JsVal) : List JsVal → List AuthorizeBody → Nat
  | _, [] => 0
  | reg, body :: rest =>
    (if body.voterId = v ∧ (authorizeBallot key reg body).issued = true then 1 else 0) +
      issuedCount key v (authorizeBallot key reg body).votedRegistry rest

/-! ## urna.js: the Urn -/

/-- The shape of `CENSUS_PUBLIC_KEY`. -/
structure PublicKey where
  N : Int
  e : Int

/-- The constant `CENSUS_PUBLIC_KEY` of `urna.js` with no environment override. -/
def CENSUS_PUBLIC_KEY : PublicKey := ⟨defaultModulus, 65537⟩

/-- A record of `votesDB`. The microservice stores no `tokenFingerprint`. -/
structure VoteRecord where
  hash_recibo : String
  eleccion : JsPrim
  tokenFingerprint : Option String
  timestamp : Nat
  deriving DecidableEq, Repr

/-- The two stores of the Urn. -/
structure UrnState where
  usedTokensDB : List JsVal
  votesDB : List VoteRecord
  deriving DecidableEq, Repr

/-- The Urn before any request. -/
def UrnState.empty : UrnState := ⟨[], []⟩

/-- The body of a submit-vote request. -/
structure SubmitVoteBody where
  voteContent : JsVal
  ballotTokenHex : JsVal
  censusSignatureHex : JsVal

/-- What submit-vote answers. -/
inductive UrnResponse where
  | ok (receipt : String) (voteNumber : Nat)
  | badRequest
  | tokenAlreadyUsed
  | invalidSignature
  | internalError
  deriving DecidableEq, Repr

/-- The HTTP status of an answer. -/
def UrnResponse.status : UrnResponse → Nat
  | .ok _ _ => 200
  | .badRequest => 400
  | .tokenAlreadyUsed => 409
  | .invalidSignature => 403
  | .internalError => 500

/-- Whether the request was accepted. -/
def UrnResponse.accepted : UrnResponse → Bool
  | .ok _ _ => true
  | _ => false

/-- The expression `typeof voteContent === 'object' ? voteContent.choice : voteContent`;
`none` is the TypeError of reading a property of `null`. -/
def eleccionOf : JsVal → Option JsPrim
  | .prim .null => none
  | .prim p => some p
  | .arr _ => some .undefined
  | .obj props => some ((props.lookup "choice").getD .undefined)

/-- The first `n` characters: `s.substring(0, n)`. -/
def substring0 (s : String) (n : Nat) : String := String.mk (s.toList.take n)

/-- The handler of `POST /submit-vote` in `routes/urna.js`; `now` is `Date.now()`. An
exception inside `try` is caught and answered with status 500, the stores staying as they
are at that moment. -/
def submitVote (key : PublicKey) (now : Nat) (st : UrnState) (body : SubmitVoteBody) :
    UrnState × UrnResponse :=
  if !body.voteContent.truthy || !body.ballotTokenHex.truthy ||
      !body.censusSignatureHex.truthy then
    (st, .badRequest)
  else if setHas st.usedTokensDB body.ballotTokenHex then
    -- the warning calls ballotTokenHex.substring(0, 16)
    if body.ballotTokenHex.isString then (st, .tokenAlreadyUsed) else (st, .internalError)
  else
    match bigIntOfHex body.censusSignatureHex with
    | none => (st, .internalError)
    | some s =>
      match bigIntOfHex body.ballotTokenHex with
      | none => (st, .internalError)
      | some m =>
        match modPow s key.e key.N with
        | none => (st, .internalError)
        | some verification =>
          if verification ≠ m then
            -- the error line calls ballotTokenHex.substring(0, 16)
            if body.ballotTokenHex.isString then (st, .invalidSignature)
            else (st, .internalError)
          else
            let burned := setAdd st.usedTokensDB body.ballotTokenHex
            match body.voteContent.jsonStringify, eleccionOf body.voteContent,
              body.ballotTokenHex with
            | some json, some eleccion, .prim (.str token) =>
              let voteHash := sha256 json
              let voteRecord : VoteRecord :=
                ⟨voteHash, eleccion, some (substring0 (sha256 token) 16), now⟩
              (⟨burned, st.votesDB ++ [voteRecord]⟩, .ok voteHash (st.votesDB.length + 1))
            | _, _, _ => (⟨burned, st.votesDB⟩, .internalError)

/-- The handler of `POST /api/urna/submit-vote` in `services/urn/server.js`: the same
steps without the `tokenFingerprint` field. -/
def submitVoteService (key : PublicKey) (now : Nat) (st : UrnState) (body : SubmitVoteBody) :
    UrnState × UrnResponse :=
  if !body.voteContent.truthy || !body.ballotTokenHex.truthy ||
      !body.censusSignatureHex.truthy then
    (st, .badRequest)
  else if setHas st.usedTokensDB body.ballotTokenHex then
    if body.ballotTokenHex.isString then (st, .tokenAlreadyUsed) else (st, .internalError)
  else
    match bigIntOfHex body.censusSignatureHex with
    | none => (st, .internalError)
    | some s =>
      match bigIntOfHex body.ballotTokenHex with
      | none => (st, .internalError)
      | some m =>
        match modPow s key.e key.N with
        | none => (st, .internalError)
        | some verification =>
          if verification ≠ m then
            if body.ballotTokenHex.isString then (st, .invalidSignature)
            else (st, .internalError)
          else
            let burned := setAdd st.usedTokensDB body.ballotTokenHex
            match body.voteContent.jsonStringify, eleccionOf body.voteContent with
            | some json, some eleccion =>
              let voteHash := sha256 json
              (⟨burned, st.votesDB ++ [⟨voteHash, eleccion, none, now⟩]⟩,
                .ok voteHash (st.votesDB.length + 1))
            | _, _ => (⟨burned, st.votesDB⟩, .internalError)

/-- The Urn serving a sequence of requests, each with its `Date.now()`: the state reached and
the answers in order. -/
def runUrn (handler : Nat → UrnState → SubmitVoteBody → UrnState × UrnResponse) :
    UrnState → List (Nat × SubmitVoteBody) → UrnState × List UrnResponse
  | st, [] => (st, [])
  | st, (now, body) :: rest =>
    let step := handler now st body
    let tail := runUrn handler step.1 rest
    (tail.1, step.2 :: tail.2)

/-! ## ScrutinyEngine.js -/

/-- The UTF-16 code units of a character. -/
def utf16Units (c : Char) : List Nat :=
  if c.toNat < 0x10000 then [c.toNat]
  else [0xD800 + (c.toNat - 0x10000) / 0x400, 0xDC00 + (c.toNat - 0x10000) % 0x400]

/-- The UTF-16 code units of a string: what JavaScript compares strings by. -/
def codeUnits (s : String) : List Nat := s.toList.flatMap utf16Units

/-- The order the default comparison of `Array.prototype.sort` puts strings in. -/
def jsStringLe (a b : String) : Prop := codeUnits a ≤ codeUnits b

instance jsStringLeDecidable : DecidableRel jsStringLe :=
  fun a b => inferInstanceAs (Decidable (codeUnits a ≤ codeUnits b))

/-- The array `[...xs].sort()` for an array of strings. -/
def jsSort (xs : List String) : List String := xs.insertionSort jsStringLe

/-- What `buildMerkleTree` returns; `root` is `none` for `null`. -/
structure MerkleTree where
  root : Option String
  tree : List (List String)
  leaves : List String
  deriving DecidableEq, Repr

/-- The `for (let i = 0; i < currentLevel.length; i += 2)` loop: adjacent nodes are hashed in
pairs and a last node without partner is hashed with itself. -/
def nextLevel : List String → List String
  | [] => []
  | [a] => [sha256 (a ++ a)]
  | a :: b :: rest => sha256 (a ++ b) :: nextLevel rest

/-- The levels that the `while (currentLevel.length > 1)` loop pushes after
`currentLevel`. A level is shorter than the one before, so fuel `currentLevel.length` is
never used up. -/
def merkleLevels : Nat → List String → List (List String)
  | 0, _ => []
  | fuel + 1, currentLevel =>
    if currentLevel.length > 1 then
      nextLevel currentLevel :: merkleLevels fuel (nextLevel currentLevel)
    else []

/-- The function `buildMerkleTree(leaves)`. -/
def buildMerkleTree (leaves : List String) : MerkleTree :=
  if leaves.length = 0 then ⟨none, [], []⟩
  else
    let currentLevel := jsSort leaves
    let tree := currentLevel :: merkleLevels currentLevel.length currentLevel
    ⟨tree.getLast?.bind List.head?, tree, jsSort leaves⟩

/-- The side of a sibling in an inclusion proof. -/
inductive Position where
  | left
  | right
  deriving DecidableEq, Repr

/-- One entry of an inclusion proof. -/
structure ProofStep where
  hash : String
  position : Position
  deriving DecidableEq, Repr

/-- The `for (let level = 0; level < tree.length - 1; level++)` loop of `getMerkleProof`
over the levels it visits, from `index`. -/
def proofLoop : List (List String) → Nat → List ProofStep
  | [], _ => []
  | currentLevel :: rest, index =>
    let isRightNode := index % 2 = 1
    let siblingIndex := if isRightNode then index - 1 else index + 1
    let entry :=
      match currentLevel.get? siblingIndex with
      | some sibling => [ProofStep.mk sibling (if isRightNode then .left else .right)]
      | none => []
    entry ++ proofLoop rest (index / 2)

/-- The function `getMerkleProof(receiptHash, leaves)`; `none` is `null`. -/
def getMerkleProof (receiptHash : String) (leaves : List String) : Option (List ProofStep) :=
  let sortedLeaves := jsSort leaves
  let index := sortedLeaves.indexOf receiptHash
  if index = sortedLeaves.length then none
  else some (proofLoop (buildMerkleTree leaves).tree.dropLast index)

/-- The verifier's fold over an inclusion proof, as the claims state it: from `cur`, an
entry on the left gives `sha256(entry.hash + cur)`, one on the right
`sha256(cur + entry.hash)`. -/
def foldProof (cur : String) (proof : List ProofStep) : String :=
  proof.foldl (fun acc entry =>
    match entry.position with
    | .left => sha256 (entry.hash ++ acc)
    | .right => sha256 (acc ++ entry.hash)) cur

/-! ## JavaScript numbers that are not counts -/

/-- A Number value, as a double: `mantissa * 2 ^ exponent` for the finite ones (with
`|mantissa| < 2 ^ 53` and `-1074 ≤ exponent ≤ 971`), the two infinities, and NaN. The two
zeros are one value here, `mantissa = 0`: they add, compare with `===` and print alike. -/
inductive JsFloat where
  | finite (mantissa : Int) (exponent : Int)
  | infinity (negative : Bool)
  | nan
  deriving DecidableEq, Repr

/-- The integer `⌊log2 n⌋` for positive `n`: the loop halves `n` until it is below 2, which
fuel `n` is enough for. -/
def log2Loop : Nat → Nat → Nat
  | 0, _ => 0
  | fuel + 1, n => if n < 2 then 0 else log2Loop fuel (n / 2) + 1

/-- The integer `⌊log2 (p / q)⌋` for positive `p` and `q`. -/
def floorLog2 (p q : Nat) : Int :=
  let b : Int := (log2Loop p p : Int) - (log2Loop q q : Int)
  if (if 0 ≤ b then decide (q * 2 ^ b.toNat ≤ p) else decide (q ≤ p * 2 ^ (-b).toNat)) then b
  else b - 1

/-- The integer nearest to `num / den`, the even one of two equally near. -/
def roundHalfEven (num den : Nat) : Nat :=
  let quot := num / den
  let rem := num % den
  if den < 2 * rem ∨ (2 * rem = den ∧ quot % 2 = 1) then quot + 1 else quot

/-- The double nearest to the positive rational `p / q`, ties going to the even mantissa
(the rounding of IEEE 754 that the Number operations apply): `some (m, e)` is the double
`m * 2 ^ e`, with `e = max (⌊log2 (p / q)⌋ - 52) (-1074)` unless the mantissa is rounded up
to `2 ^ 53`; `none` is the overflow to infinity. -/
def roundToDouble (p q : Nat) : Option (Nat × Int) :=
  let e : Int := max (floorLog2 p q - 52) (-1074)
  let m :=
    if 0 ≤ e then roundHalfEven p (q * 2 ^ e.toNat) else roundHalfEven (p * 2 ^ (-e).toNat) q
  if m = 2 ^ 53 then (if 970 < e then none else some (2 ^ 52, e + 1))
  else if 971 < e then none
  else some (m, e)

/-- The Number value for the rational `± p / q`. -/
def JsFloat.ofRat (negative : Bool) (p q : Nat) : JsFloat :=
  if p = 0 then .finite 0 0
  else
    match roundToDouble p q with
    | none => .infinity negative
    | some (m, e) => .finite (if negative then -(m : Int) else (m : Int)) e

/-- The sum of two Numbers: the exact sum of two finite ones, rounded. -/
def JsFloat.add : JsFloat → JsFloat → JsFloat
  | .finite m1 e1, .finite m2 e2 =>
    let e := min e1 e2
    let z := m1 * 2 ^ (e1 - e).toNat + m2 * 2 ^ (e2 - e).toNat
    if 0 ≤ e then .ofRat (decide (z < 0)) (z.natAbs * 2 ^ e.toNat) 1
    else .ofRat (decide (z < 0)) z.natAbs (2 ^ (-e).toNat)
  | .finite _ _, .infinity b => .infinity b
  | .infinity a, .finite _ _ => .infinity a
  | .infinity a, .infinity b => if a = b then .infinity a else .nan
  | .nan, _ => .nan
  | _, .nan => .nan

/-- The integer `n` with `10 ^ (n - 1) ≤ p / q < 10 ^ n` when `p / q < 1`, counted down from
0: the loop multiplies `p` by 10 until it reaches `q`. -/
def decimalExponentBelowOne : Nat → Nat → Nat → Int
  | 0, _, _ => 0
  | fuel + 1, p, q => if q ≤ p * 10 then 0 else decimalExponentBelowOne fuel (p * 10) q - 1

/-- The integer `n` with `10 ^ (n - 1) ≤ p / q < 10 ^ n`, for positive `p` and `q`. -/
def decimalExponent (p q : Nat) : Int :=
  if q ≤ p then ((Nat.toDigits 10 (p / q)).length : Int)
  else decimalExponentBelowOne q p q

/-- Whether the decimal `s * 10 ^ t` has the Number value `m * 2 ^ e`. -/
def roundsTo (s : Nat) (t : Int) (m : Nat) (e : Int) : Bool :=
  match (if 0 ≤ t then roundToDouble (s * 10 ^ t.toNat) 1
    else roundToDouble s (10 ^ (-t).toNat)) with
  | none => false
  | some (m', e') =>
    decide (m' * 2 ^ (e' - min e e').toNat = m * 2 ^ (e - min e e').toNat)

/-- The digits of `Number::toString` for the positive double `m * 2 ^ e`: the pair `(s, n)`
with the fewest digits `k` of `s` for which `s * 10 ^ (n - k)` has the Number value
`m * 2 ^ e`, and among these the `s` nearest to it (the even one of two equally near). The
search tries `k`, `k + 1`, ... up to 17 digits, which every double is reached with. -/
def shortestDigits : Nat → Nat → Nat → Int → Nat × Int
  | 0, k, m, e =>
    let p := if 0 ≤ e then m * 2 ^ e.toNat else m
    let q := if 0 ≤ e then 1 else 2 ^ (-e).toNat
    let n := decimalExponent p q
    (if 0 ≤ (k : Int) - n then p * 10 ^ ((k : Int) - n).toNat / q
      else p / (q * 10 ^ (n - (k : Int)).toNat), n)
  | fuel + 1, k, m, e =>
    let p := if 0 ≤ e then m * 2 ^ e.toNat else m
    let q := if 0 ≤ e then 1 else 2 ^ (-e).toNat
    let n := decimalExponent p q
    let num := if 0 ≤ (k : Int) - n then p * 10 ^ ((k : Int) - n).toNat else p
    let den := if 0 ≤ (k : Int) - n then q else q * 10 ^ (n - (k : Int)).toNat
    let lo := num / den
    let rem := num % den
    let loFits := roundsTo lo (n - (k : Int)) m e
    let hiFits := roundsTo (lo + 1) (n - (k : Int)) m e
    let takeHi := hiFits && (!loFits || decide (den < 2 * rem) ||
      (decide (2 * rem = den) && decide (lo % 2 = 1)))
    if takeHi then
      (if lo + 1 = 10 ^ k then (10 ^ (k - 1), n + 1) else (lo + 1, n))
    else if loFits then (lo, n)
    else shortestDigits fuel (k + 1) m e

/-- The text `Number::toString` builds from the digits `s` and the exponent `n`. -/
def formatDigits (s : Nat) (n : Int) : String :=
  let digits := Nat.toDigits 10 s
  let k : Int := digits.length
  if k ≤ n ∧ n ≤ 21 then
    String.mk (digits ++ List.replicate (n - k).toNat '0')
  else if 0 < n ∧ n ≤ 21 then
    String.mk (digits.take n.toNat ++ '.' :: digits.drop n.toNat)
  else if -6 < n ∧ n ≤ 0 then
    String.mk ('0' :: '.' :: List.replicate (-n).toNat '0' ++ digits)
  else
    String.mk (digits.take 1 ++ (if k = 1 then [] else '.' :: digits.drop 1) ++
      'e' :: (if n - 1 < 0 then '-' else '+') :: Nat.toDigits 10 (n - 1).natAbs)

/-- The string conversion of a Number (`Number::toString` with radix 10). -/
def JsFloat.toStr : JsFloat → String
  | .nan => "NaN"
  | .infinity negative => if negative then "-Infinity" else "Infinity"
  | .finite m e =>
    if m = 0 then "0"
    else
      let sn := shortestDigits 17 1 m.natAbs e
      (if m < 0 then "-" else "") ++ formatDigits sn.1 sn.2

/-- Whether a Number is truthy: every one but zero and NaN. -/
def JsFloat.truthy : JsFloat → Bool
  | .finite m _ => decide (m ≠ 0)
  | .infinity _ => true
  | .nan => false

/-- A value held by the `tally` object, or by the `results` of a record that was downloaded:
a count (a Number that is a non-negative integer), any other Number, or a string. -/
inductive TallyVal where
  | num (n : Nat)
  | str (s : String)
  | float (x : JsFloat)
  deriving DecidableEq, Repr

/-- The tally value for an integer: a count when it is not negative. -/
def TallyVal.ofInt (z : Int) : TallyVal :=
  if 0 ≤ z then .num z.toNat else .float (.finite z 0)

/-- The tally value for a Number: a count when the Number is a non-negative integer, so
that `===` between Numbers is equality of tally values on what `+` returns. -/
def TallyVal.ofFloat : JsFloat → TallyVal
  | .finite m e =>
    if 0 ≤ e then TallyVal.ofInt (m * 2 ^ e.toNat)
    else if m % 2 ^ (-e).toNat = 0 then TallyVal.ofInt (m / 2 ^ (-e).toNat)
    else .float (.finite m e)
  | .infinity negative => .float (.infinity negative)
  | .nan => .float .nan

/-- The own properties of the `tally` object, in creation order. -/
abbrev JsObject := List (String × TallyVal)

/-- The methods every object inherits from `Object.prototype`, each with the name its
function carries. -/
def objectPrototypeMethods : List (String × String) :=
  [("constructor", "Object"), ("__defineGetter__", "__defineGetter__"),
   ("__defineSetter__", "__defineSetter__"), ("hasOwnProperty", "hasOwnProperty"),
   ("__lookupGetter__", "__lookupGetter__"), ("__lookupSetter__", "__lookupSetter__"),
   ("isPrototypeOf", "isPrototypeOf"), ("propertyIsEnumerable", "propertyIsEnumerable"),
   ("toString", "toString"), ("valueOf", "valueOf"), ("toLocaleString", "toLocaleString")]

/-- The string conversion of what `\x7b\x7d[key]` reads from `Object.prototype` when the object
has no own property `key`: the source text of a native method, `[object Object]` for the
`__proto__` accessor; `none` when nothing is inherited (the read gives `undefined`). -/
def inheritedText (key : String) : Option String :=
  if key = "__proto__" then some "[object Object]"
  else
    match objectPrototypeMethods.lookup key with
    | some name => some ("function " ++ name ++ "() \x7b [native code] \x7d")
    | none => none

/-- Whether a key names a property of `Object.prototype`. -/
def isPrototypeKey (key : String) : Bool := (inheritedText key).isSome

/-- The value of `(tally[opcion] || 0) + 1`. -/
def tallyIncrement (tally : JsObject) (opcion : String) : TallyVal :=
  match tally.lookup opcion with
  | some (.num n) => .num (n + 1)
  | some (.str s) => if s = "" then .num 1 else .str (s ++ "1")
  | some (.float x) =>
    if x.truthy then TallyVal.ofFloat (x.add (.finite 1 0)) else .num 1
  | none =>
    match inheritedText opcion with
    | some text => .str (text ++ "1")
    | none => .num 1

/-- Writing an own property: in place when it exists, appended otherwise. -/
def objectUpsert : JsObject → String → TallyVal → JsObject
  | [], key, v => [(key, v)]
  | (k, w) :: rest, key, v =>
    if k = key then (key, v) :: rest else (k, w) :: objectUpsert rest key v

/-- The assignment `tally[opcion] = v` for a number or string `v`: the `__proto__` setter
ignores a value that is not an object. -/
def objectSet (tally : JsObject) (opcion : String) (v : TallyVal) : JsObject :=
  if opcion = "__proto__" then tally else objectUpsert tally opcion v

/-- The tally loop of `closeElection`. -/
def tallyVotes (rawVotes : List VoteRecord) : JsObject :=
  rawVotes.foldl
    (fun tally vote => objectSet tally vote.eleccion.toStr (tallyIncrement tally vote.eleccion.toStr))
    []

/-- The array index a property key denotes, if any: a canonical decimal numeral below
`2^32 - 1`. -/
def arrayIndexOf (key : String) : Option Nat :=
  let cs := key.toList
  if cs.isEmpty || !cs.all Char.isDigit || (decide (cs.length > 1) && cs.head? == some '0') then
    none
  else
    let n := cs.foldl (fun acc c => 10 * acc + (c.toNat - 48)) 0
    if n < 4294967295 then some n else none

/-- The own properties in the order JavaScript enumerates them: array indices ascending, then
the other keys in creation order. -/
def ownEntries (o : JsObject) : JsObject :=
  ((o.filterMap (fun kv => (arrayIndexOf kv.1).map (fun n => (n, kv)))).insertionSort
      (fun a b => a.1 ≤ b.1)).map Prod.snd ++
    o.filter (fun kv => (arrayIndexOf kv.1).isNone)

/-- `Object.values(o)`. -/
def objectValues (o : JsObject) : List TallyVal := (ownEntries o).map Prod.snd

/-- The operator `+` on numbers and strings: concatenation when one side is a string, the
rounded sum of two Numbers otherwise. The sum of two counts is written without rounding: the
counts of a record add up to the length of an array, far below `2 ^ 53`. -/
def jsAdd : TallyVal → TallyVal → TallyVal
  | .num a, .num b => .num (a + b)
  | .num a, .str t => .str (toString a ++ t)
  | .str s, .num b => .str (s ++ toString b)
  | .str s, .str t => .str (s ++ t)
  | .float x, .str t => .str (x.toStr ++ t)
  | .str s, .float y => .str (s ++ y.toStr)
  | .num a, .float y => TallyVal.ofFloat ((JsFloat.finite a 0).add y)
  | .float x, .num b => TallyVal.ofFloat (x.add (.finite b 0))
  | .float x, .float y => TallyVal.ofFloat (x.add y)

/-- JSON text of a tally value; a Number that is not finite is written `null`. -/
def TallyVal.json : TallyVal → String
  | .num n => toString n
  | .str s => jsonQuote s
  | .float (.finite m e) => (JsFloat.finite m e).toStr
  | .float _ => "null"

/-- The public record (acta). -/
structure PublicRecord where
  electionId : String
  timestampClosed : String
  totalVotes : Nat
  results : JsObject
  merkleRoot : Option String
  allReceipts : List String
  actaHash : String
  deriving DecidableEq, Repr

/-- The text `JSON.stringify(\x7belectionId, totalVotes, results, merkleRoot\x7d)`. -/
def actaJson (electionId : String) (totalVotes : Nat) (results : JsObject)
    (merkleRoot : Option String) : String :=
  "\x7b" ++ jsonQuote "electionId" ++ ":" ++ jsonQuote electionId ++ "," ++
    jsonQuote "totalVotes" ++ ":" ++ toString totalVotes ++ "," ++
    jsonQuote "results" ++ ":\x7b" ++
    ",".intercalate ((ownEntries results).map (fun kv => jsonQuote kv.1 ++ ":" ++ kv.2.json)) ++
    "\x7d," ++ jsonQuote "merkleRoot" ++ ":" ++
    (match merkleRoot with
     | none => "null"
     | some r => jsonQuote r) ++ "\x7d"

/-- The function `closeElection(rawVotes, electionId)`; `now` is
`new Date().toISOString()`. -/
def closeElection (rawVotes : List VoteRecord) (electionId : String) (now : String) :
    PublicRecord :=
  let tally := tallyVotes rawVotes
  let voteHashes := rawVotes.map VoteRecord.hash_recibo
  let merkleData := buildMerkleTree voteHashes
  ⟨electionId, now, rawVotes.length, tally, merkleData.root, merkleData.leaves,
    sha256 (actaJson electionId rawVotes.length tally merkleData.root)⟩

/-- What `verifyElectionResults` returns. -/
structure Verification where
  valid : Bool
  merkleRootValid : Bool
  totalVotesValid : Bool
  tallyConsistent : Bool
  recalculatedRoot : Option String
  publishedRoot : Option String
  deriving DecidableEq, Repr

/-- The value `tallySum`: `Object.values(results).reduce((a, b) => a + b, 0)`. -/
def tallySum (results : JsObject) : TallyVal :=
  (objectValues results).foldl jsAdd (.num 0)

/-- The function `verifyElectionResults(publicRecord)`. -/
def verifyElectionResults (publicRecord : PublicRecord) : Verification :=
  let recalculated := buildMerkleTree publicRecord.allReceipts
  let rootMatches := decide (recalculated.root = publicRecord.merkleRoot)
  let totalMatches := decide (publicRecord.allReceipts.length = publicRecord.totalVotes)
  let tallyMatches := decide (tallySum publicRecord.results = .num publicRecord.totalVotes)
  ⟨rootMatches && totalMatches && tallyMatches, rootMatches, totalMatches, tallyMatches,
    recalculated.root, publicRecord.merkleRoot⟩

/-! ## What the statements about the Merkle tree and the tally speak of -/

/-- The strings one level passes to `sha256`: the concatenations of the pairs, and of a last
node without partner with itself. -/
def pairInputs : List String → List String
  | [] => []
  | [a] => [a ++ a]
  | a :: b :: rest => (a ++ b) :: pairInputs rest

/-- All the strings the `while` loop of `buildMerkleTree` hashes from `currentLevel` on. -/
def merkleInputs : Nat → List String → List String
  | 0, _ => []
  | fuel + 1, currentLevel =>
    if currentLevel.length > 1 then
      pairInputs currentLevel ++ merkleInputs fuel (nextLevel currentLevel)
    else []

/-- All the strings `buildMerkleTree(leaves)` hashes. -/
def hashedStrings (leaves : List String) : List String :=
  merkleInputs (jsSort leaves).length (jsSort leaves)

/-- No string hashed for the first tree and different string hashed for the second have the
same digest: `sha256` has no collision on the strings involved. -/
def NoCollision (first second : List String) : Prop :=
  ∀ x ∈ hashedStrings first, ∀ y ∈ hashedStrings second, sha256 x = sha256 y → x = y

instance noCollisionDecidable (first second : List String) :
    Decidable (NoCollision first second) := by
  unfold NoCollision
  infer_instance

/-- The root the `while` loop reaches from `currentLevel`: the value `tree[tree.length - 1][0]`. -/
def rootFrom (fuel : Nat) (currentLevel : List String) : Option String :=
  (currentLevel :: merkleLevels fuel currentLevel).getLast?.bind List.head?

/-- Whether a tally value is a count. -/
def TallyVal.isNumber : TallyVal → Bool
  | .num _ => true
  | .str _ => false
  | .float _ => false

/-- The count a tally value holds, zero for a string and for a Number that is no count. -/
def TallyVal.number : TallyVal → Nat
  | .num n => n
  | .str _ => 0
  | .float _ => 0

/-- The sum of the counts among the own properties of a tally object. -/
def numberSum : JsObject → Nat
  | [] => 0
  | kv :: rest => kv.2.number + numberSum rest

/-- Whether every own property of a tally object holds a count. -/
def allNumbers (o : JsObject) : Bool := o.all (fun kv => kv.2.isNumber)

/-- The record with `merkleRoot` changed. -/
def PublicRecord.withMerkleRoot (r : PublicRecord) (root : Option String) : PublicRecord :=
  ⟨r.electionId, r.timestampClosed, r.totalVotes, r.results, root, r.allReceipts, r.actaHash⟩

/-- The record with entry `i` of `allReceipts` replaced. -/
def PublicRecord.withReceipt (r : PublicRecord) (i : Nat) (receipt : String) : PublicRecord :=
  ⟨r.electionId, r.timestampClosed, r.totalVotes, r.results, r.merkleRoot,
    r.allReceipts.set i receipt, r.actaHash⟩

/-- The record with the value of the option `key` in `results` set to `v`. -/
def PublicRecord.withResult (r : PublicRecord) (key : String) (v : TallyVal) : PublicRecord :=
  ⟨r.electionId, r.timestampClosed, r.totalVotes, objectUpsert r.results key v,
    r.merkleRoot, r.allReceipts, r.actaHash⟩

/-- Whether the Number `x` is at most the integer `u`. -/
def JsFloat.leInt : JsFloat → Int → Bool
  | .finite m e, u =>
    if 0 ≤ e then decide (m * 2 ^ e.toNat ≤ u) else decide (m ≤ u * 2 ^ (-e).toNat)
  | .infinity negative, _ => negative
  | .nan, _ => false

/-- Whether a tally value is a Number that is at most the integer `u`. -/
def TallyVal.leInt : TallyVal → Int → Bool
  | .num n, u => decide ((n : Int) ≤ u)
  | .float x, u => x.leInt u
  | .str _, _ => false

/-- An integer that a tally value is at most of, when the value is a count or a negative
Number: the count itself, and `-1`. -/
def TallyVal.upperBound : TallyVal → Int
  | .num n => (n : Int)
  | .str _ => -1
  | .float _ => -1

/-! ## rsaMath.js (browser): the sampler of the blinding factor -/

/-- The text `b.toString(16).padStart(2, '0')` of a byte. -/
def byteHex (b : Nat) : String :=
  let s := String.mk (Nat.toDigits 16 b)
  String.mk (List.replicate (2 - s.length) '0') ++ s

/-- What `window.crypto.getRandomValues(new Uint8Array(32))` can fill in: 32 bytes. -/
def IsRandomDraw (bytes : List Nat) : Prop := bytes.length = 32 ∧ ∀ b ∈ bytes, b < 256

instance isRandomDrawDecidable (bytes : List Nat) : Decidable (IsRandomDraw bytes) := by
  unfold IsRandomDraw
  infer_instance

/-- The function `randomBigInt(max)` for the draw `bytes` of the 32 random bytes: the bytes
are written as hexadecimal text, read as one BigInt and reduced by `% max`. `none` is the
RangeError of `% 0n`. -/
def randomBigInt (bytes : List Nat) (max : Int) : Option Int :=
  let hex := String.join (bytes.map byteHex)
  match parseBigIntHex hex with
  | none => none
  | some n => if max = 0 then none else some (Int.tmod (n : Int) max)

/-- The number that 32 bytes written as hexadecimal text denote: the bytes as base-256
digits, most significant first. -/
def bigEndian (bytes : List Nat) : Nat := bytes.foldl (fun acc b => 256 * acc + b) 0

/-- The `k` base-256 digits of `v`, most significant first. -/
def bytesOf : Nat → Nat → List Nat
  | 0, _ => []
  | k + 1, v => bytesOf k (v / 256) ++ [v % 256]

/-! ### A sample key above `2 ^ 256`

The two Mersenne primes `2 ^ 127 - 1` and `2 ^ 521 - 1` with the public exponent 65537 of the
Urn's key: a key with a 648-bit modulus, on which the blinding of `createBlindedToken` is
evaluated. -/

/-- The prime `2 ^ 127 - 1`. -/
def sampleLargeP : Nat := 2 ^ 127 - 1

/-- The prime `2 ^ 521 - 1`. -/
def sampleLargeQ : Nat := 2 ^ 521 - 1

/-- The private exponent of the sample key: the inverse of 65537 modulo
`lcm (sampleLargeP - 1) (sampleLargeQ - 1)`. -/
def sampleLargeD : Nat :=
  193900767558032071937636487021452117448910287312278971207800283425644781136078887330150457137153435273259066364624685827854923748501752122182388647400968388233585136878839649485385373845435689473

/-- The blinding factor below `sampleLargeP * sampleLargeQ` with which the token 5 has the
blinded message of the token 3 blinded with the factor 7. -/
def sampleLargeR : Nat :=
  507131227826210149637123274608903000932334728837320466567749346852185597319840442043503002554044000760285692562121569117576063868079062905422553594155664826648697432436088965325697749852474759232

/-! ## urna.js: closing the election -/

/-- The body of a close-election request. The route hands `electionId` on as it comes; here
it is a string or absent. The field `adminKey` is read and never used. -/
structure CloseElectionBody where
  electionId : Option String

/-- What close-election answers: `success: true` with the record and its verification, or
status 500 from the `catch`. -/
inductive CloseResponse where
  | ok (publicRecord : PublicRecord) (verification : Verification)
  | internalError
  deriving DecidableEq, Repr

/-- The HTTP status of an answer. -/
def CloseResponse.status : CloseResponse → Nat
  | .ok _ _ => 200
  | .internalError => 500

/-- The record an answer publishes, if any. -/
def CloseResponse.published : CloseResponse → Option PublicRecord
  | .ok publicRecord _ => some publicRecord
  | .internalError => none

/-- The handler of `POST /close-election` in `routes/urna.js`; `now` is
`new Date().toISOString()`. It reads `votesDB` and writes nothing: the Urn keeps no mark of
an election that was closed. -/
def closeElectionRoute (now : String) (st : UrnState) (body : CloseElectionBody) :
    UrnState × CloseResponse :=
  let electionId :=
    match body.electionId with
    | some s => if s = "" then "PLEBISCITO_2026" else s
    | none => "PLEBISCITO_2026"
  let publicRecord := closeElection st.votesDB electionId now
  let verification := verifyElectionResults publicRecord
  (st, .ok publicRecord verification)

/-! ## AuditChain.js: the audit chain -/

/-- The object `blockData` of `addBlock`, its properties in creation order. Numbers are
non-negative integers; a byte array (`Array.from(new Uint8Array(..))`) is a list of numbers;
`evidenceVault` and `iv` are `null` when there is no shadow record. -/
structure BlockData where
  index : Nat
  timestamp : Nat
  action : JsVal
  keyId : JsVal
  payloadHash : String
  previousHash : String
  evidenceVault : Option (List Nat)
  iv : Option (List Nat)
  deriving DecidableEq, Repr

/-- A block of the object store `blocks`: the properties of `blockData`, then `signature`,
then `hash`. The last property, `synced`, is the flag that `getChainStats` reads and
`AuditSyncService.markBlocksAsSynced` writes; `addBlock` stores a block without it. -/
structure AuditBlock extends BlockData where
  signature : List Nat
  hash : String
  synced : Option Bool
  deriving DecidableEq, Repr

/-- JSON text of an array of numbers. -/
def jsonNumbers (l : List Nat) : String :=
  "[" ++ ",".intercalate (l.map toString) ++ "]"

/-- JSON text of a byte array that may be `null`. -/
def jsonBytesOrNull : Option (List Nat) → String
  | none => "null"
  | some l => jsonNumbers l

/-- The text of one member of an object for a JSON value, absent when the value is
`undefined`. -/
def jsonField (key : String) (v : JsVal) : Option String :=
  match v.jsonStringify with
  | none => none
  | some text => some (jsonQuote key ++ ":" ++ text)

/-- JSON text of an object with the given members. -/
def jsonObject (members : List String) : String :=
  "\x7b" ++ ",".intercalate members ++ "\x7d"

/-- The members of `JSON.stringify(blockData)`. -/
def blockDataMembers (d : BlockData) : List String :=
  [jsonQuote "index" ++ ":" ++ toString d.index,
    jsonQuote "timestamp" ++ ":" ++ toString d.timestamp] ++
  (jsonField "action" d.action).toList ++ (jsonField "keyId" d.keyId).toList ++
  [jsonQuote "payloadHash" ++ ":" ++ jsonQuote d.payloadHash,
    jsonQuote "previousHash" ++ ":" ++ jsonQuote d.previousHash,
    jsonQuote "evidenceVault" ++ ":" ++ jsonBytesOrNull d.evidenceVault,
    jsonQuote "iv" ++ ":" ++ jsonBytesOrNull d.iv]

/-- The text `blockString = JSON.stringify(blockData)` that is signed. -/
def blockString (d : BlockData) : String := jsonObject (blockDataMembers d)

/-- The text `JSON.stringify` gives for a block that has no `hash` property: the object
`addBlock` hashes before it sets `hash`, and `blockWithoutHash` of `verifyChain`. -/
def blockWithoutHashJson (d : BlockData) (signature : List Nat) (synced : Option Bool) :
    String :=
  jsonObject (blockDataMembers d ++ [jsonQuote "signature" ++ ":" ++ jsonNumbers signature] ++
    (match synced with
     | none => []
     | some b => [jsonQuote "synced" ++ ":" ++ (if b then "true" else "false")]))

/-- The method `hashData(data)` for a JSON value: a string is hashed as it is, anything else
through `JSON.stringify`, and `undefined` as the empty text. -/
def hashData (data : JsVal) : String :=
  match data with
  | .prim (.str s) => sha256 s
  | v => sha256 ((v.jsonStringify).getD "")

/-- The method `hashData(block)` for the block object without its `hash` property. -/
def hashBlock (b : AuditBlock) : String :=
  sha256 (blockWithoutHashJson b.toBlockData b.signature b.synced)

/-- One call `addBlock(actionType, currentData, signingKeyId, previousState)` with what the
platform answers during it: `now` is `Date.now()`; `encryptSymmetric` is the vault method,
giving the bytes of `ciphertext` and `iv`; `sign` is `getPrivateKeyForSigning(signingKeyId)`
followed by `crypto.subtle.sign` on the encoded text. `none` stands for a thrown exception
(vault locked, key not found). -/
structure AddBlockCall where
  actionType : JsVal
  currentData : JsVal
  signingKeyId : JsVal
  previousState : JsVal
  now : Nat
  encryptSymmetric : String → Option (List Nat × List Nat)
  sign : String → Option (List Nat)

/-- The method `getLastBlock()`: the store is ordered by its key `index`, and the cursor
opened with `'prev'` starts at the highest key. -/
def getLastBlock (blocks : List AuditBlock) : Option AuditBlock := blocks.getLast?

/-- The call `db.put('blocks', block)` on the store kept in key order: the block takes the
place its `index` gives it and replaces a stored block with the same `index`. -/
def storePut (blocks : List AuditBlock) (block : AuditBlock) : List AuditBlock :=
  blocks.filter (fun b => b.index < block.index) ++ [block] ++
    blocks.filter (fun b => block.index < b.index)

/-- The method `addBlock`: the store after the call and the block returned. `none` is a
thrown exception; the store is then unchanged, `db.put` being the last step. -/
def addBlock (blocks : List AuditBlock) (call : AddBlockCall) :
    Option (List AuditBlock × AuditBlock) :=
  let lastBlock := getLastBlock blocks
  let previousHash :=
    match lastBlock with
    | some b => b.hash
    | none => String.mk (List.replicate 64 '0')
  let index :=
    match lastBlock with
    | some b => b.index + 1
    | none => 0
  let shadow : Option (Option (List Nat × List Nat)) :=
    if call.previousState.truthy then
      match call.encryptSymmetric ((call.previousState.jsonStringify).getD "") with
      | none => none
      | some encrypted => some (some encrypted)
    else some none
  match shadow with
  | none => none
  | some encryptedShadowRecord =>
    let blockData : BlockData :=
      ⟨index, call.now, call.actionType, call.signingKeyId, hashData call.currentData,
        previousHash, encryptedShadowRecord.map Prod.fst, encryptedShadowRecord.map Prod.snd⟩
    match call.sign (blockString blockData) with
    | none => none
    | some signature =>
      let block : AuditBlock :=
        ⟨blockData, signature, sha256 (blockWithoutHashJson blockData signature none), none⟩
      some (storePut blocks block, block)

/-- Successive `addBlock` calls, each awaited before the next; a call that throws leaves
the store as it was. -/
def addBlocks : List AuditBlock → List AddBlockCall → List AuditBlock
  | blocks, [] => blocks
  | blocks, call :: rest =>
    match addBlock blocks call with
    | none => addBlocks blocks rest
    | some (stored, _) => addBlocks stored rest

/-- An entry of `errors` in `verifyChain`, without its `message` text. -/
inductive ChainError where
  | chainBreak (blockIndex : Nat)
  | hashMismatch (blockIndex : Nat)
  deriving DecidableEq, Repr

/-- What `verifyChain` returns. -/
structure ChainVerification where
  valid : Bool
  blockCount : Nat
  errors : List ChainError
  deriving DecidableEq, Repr

/-- The `for` loop of `verifyChain` from position `i` on, `previous` being `blocks[i - 1]`
and the list holding `blocks[i]` and what follows: the errors pushed, in order. -/
def verifyChainLoop : Nat → AuditBlock → List AuditBlock → List ChainError
  | _, _, [] => []
  | i, previous, current :: rest =>
    (if current.previousHash ≠ previous.hash then [ChainError.chainBreak i] else []) ++
    (if current.hash ≠ hashBlock current then [ChainError.hashMismatch i] else []) ++
    verifyChainLoop (i + 1) current rest

/-- The method `verifyChain()` on the blocks `db.getAll('blocks')` returns. -/
def verifyChain (blocks : List AuditBlock) : ChainVerification :=
  match blocks with
  | [] => ⟨true, 0, []⟩
  | first :: rest =>
    let errors := verifyChainLoop 1 first rest
    ⟨errors.isEmpty, blocks.length, errors⟩

/-- Three `addBlock` calls to try the chain on: a vote, a deletion that backs up the previous
state, and a call whose signing key the vault does not hold. -/
def sampleAddBlockCalls : List AddBlockCall :=
  [⟨.prim (.str "VOTE_CAST"), .obj [("choice", .str "A")], .prim (.str "k1"), .prim .null,
      1700000000000, fun _ => none, fun _ => some [48, 69, 2, 33]⟩,
    ⟨.prim (.str "RECORD_DELETED"), .prim (.str "x"), .prim (.str "k1"),
      .obj [("choice", .str "A")], 1700000000500, fun _ => some ([1, 2, 3], [9, 9]),
      fun _ => some [48, 70]⟩,
    ⟨.prim (.str "VOTE_CAST"), .prim (.str "x"), .prim (.str "missing"), .prim .null,
      1700000000600, fun _ => none, fun _ => none⟩]

/-! ## AuditSyncService.js and changes made directly in the store -/

/-- The block with `synced` set: the assignment `block.synced = true`. -/
def AuditBlock.markSynced (b : AuditBlock) : AuditBlock :=
  ⟨b.toBlockData, b.signature, b.hash, some true⟩

/-- The method `markBlocksAsSynced(blocks)` of `AuditSyncService` on the store of the chain:
every block of the argument gets `synced = true` and is put back. -/
def markBlocksAsSynced (store : List AuditBlock) (blocks : List AuditBlock) : List AuditBlock :=
  blocks.foldl (fun stored block => storePut stored block.markSynced) store

/-- The blocks `synchronize` passes to `markBlocksAsSynced`: those without a truthy
`synced`. -/
def pendingBlocks (allBlocks : List AuditBlock) : List AuditBlock :=
  allBlocks.filter (fun block => !(block.synced.getD false))

/-- The block with its `payloadHash` replaced, as an edit of the stored object. -/
def AuditBlock.withPayloadHash (b : AuditBlock) (payloadHash : String) : AuditBlock :=
  ⟨⟨b.index, b.timestamp, b.action, b.keyId, payloadHash, b.previousHash, b.evidenceVault,
    b.iv⟩, b.signature, b.hash, b.synced⟩

/-- The block with its `timestamp` replaced, as an edit of the stored object. -/
def AuditBlock.withTimestamp (b : AuditBlock) (timestamp : Nat) : AuditBlock :=
  ⟨⟨b.index, timestamp, b.action, b.keyId, b.payloadHash, b.previousHash, b.evidenceVault,
    b.iv⟩, b.signature, b.hash, b.synced⟩

/-- The store with the block at position `i` edited in place. -/
def editStored (f : AuditBlock → AuditBlock) : Nat → List AuditBlock → List AuditBlock
  | _, [] => []
  | 0, b :: rest => f b :: rest
  | i + 1, b :: rest => b :: editStored f i rest

/-! ## routes/audit.js and cryptoValidator.js: the transparency server -/

/-- A JavaScript object of the server (a received block, a stored record): its own
properties in enumeration order, each holding a JSON value. -/
abbrev JsRecord := List (String × JsVal)

/-- Reading a property: `undefined` when the object has none of that name. -/
def JsRecord.get (o : JsRecord) (key : String) : JsVal :=
  (o.lookup key).getD (.prim .undefined)

/-- The text `JSON.stringify(o)` of an object. -/
def JsRecord.jsonStringify (o : JsRecord) : String :=
  jsonObject (o.filterMap (fun kv => jsonField kv.1 kv.2))

/-- The comparison `a === b` of two values read from different objects: primitives by
value, arrays and objects never (they are different objects). -/
def JsVal.strictEquals : JsVal → JsVal → Bool
  | .prim p, .prim q => p == q
  | _, _ => false

/-- A record of `publicKeysDB`, the `Map` from `keyId` to what register-key stored. -/
structure KeyRecord where
  key_id : JsVal
  public_key_jwk : JsVal
  status : String
  registered_at : Nat
  deriving DecidableEq, Repr

/-- The call `publicKeysDB.get(keyId)`. -/
def publicKeysGet (publicKeysDB : List KeyRecord) (keyId : JsVal) : Option KeyRecord :=
  publicKeysDB.find? (fun r => r.key_id.sameValueZero keyId)

/-- The two stores of `routes/audit.js`. -/
structure AuditServer where
  publicKeysDB : List KeyRecord
  auditBlocksDB : List JsRecord
  deriving DecidableEq, Repr

/-- The function `CryptoValidator.verifySignature(payload, signatureArray, publicKeyJwk)`.
The parameter `ecdsaVerify` stands for importing the key, `Buffer.from(signatureArray)` and
`crypto.verify` on the bytes of the text; it is `false` when one of them throws. -/
def CryptoValidator.verifySignature (ecdsaVerify : JsVal → String → JsVal → Bool)
    (payload : JsRecord) (signatureArray : JsVal) (publicKeyJwk : JsVal) : Bool :=
  let payloadString := payload.jsonStringify
  ecdsaVerify publicKeyJwk payloadString signatureArray

/-- The `for` loop of `CryptoValidator.verifyChain` from position `i` on, `previous` being
`blocks[i - 1]`. -/
def CryptoValidator.verifyChainLoop : Nat → JsRecord → List JsRecord → List ChainError
  | _, _, [] => []
  | i, previous, current :: rest =>
    (if !(current.get "previousHash").strictEquals (previous.get "hash") then
      [ChainError.chainBreak i] else []) ++
    CryptoValidator.verifyChainLoop (i + 1) current rest

/-- The function `CryptoValidator.verifyChain(blocks)`. -/
def CryptoValidator.verifyChain (blocks : List JsRecord) : ChainVerification :=
  let errors :=
    match blocks with
    | [] => []
    | first :: rest => CryptoValidator.verifyChainLoop 1 first rest
  ⟨errors.isEmpty, blocks.length, errors⟩

/-- The `status` of one entry of `details`. -/
inductive SyncStatus where
  | accepted
  | rejected (reason : String)
  deriving DecidableEq, Repr

/-- One entry of `details` in the answer of `POST /sync`. -/
structure SyncResult where
  index : JsVal
  status : SyncStatus
  deriving DecidableEq, Repr

/-- The record `POST /sync` pushes to `auditBlocksDB` for a block; `now` is `Date.now()`. -/
def storedRecord (now : Nat) (block : JsRecord) : JsRecord :=
  [("block_hash", block.get "hash"), ("key_id", block.get "keyId"),
    ("previous_hash", block.get "previousHash"), ("payload_hash", block.get "payloadHash"),
    ("signature", block.get "signature"), ("timestamp", block.get "timestamp"),
    ("action", block.get "action"), ("received_at", .prim (.num (toString now)))]

/-- The rest object `payloadToVerify` of the destructuring of `block`: its properties other
than `signature` and `hash`, in their order. -/
def payloadToVerify (block : JsRecord) : JsRecord :=
  block.filter (fun kv => kv.1 != "signature" && kv.1 != "hash")

/-- The body of the `for (const block of blocks)` loop of `POST /sync` for a block that is an
object: the stores after it and the entry pushed to `syncResults`. The comparison with the
last stored block only writes a warning. -/
def syncBlock (ecdsaVerify : JsVal → String → JsVal → Bool) (now : Nat) (st : AuditServer)
    (block : JsRecord) : AuditServer × SyncResult :=
  let keyRecord := publicKeysGet st.publicKeysDB (block.get "keyId")
  let revoked :=
    match keyRecord with
    | some r => decide (r.status = "REVOKED")
    | none => false
  if revoked then
    (st, ⟨block.get "index", .rejected ("Llave " ++ ((block.get "keyId").toStr.getD "") ++
      " revocada. Bloques rechazados.")⟩)
  else
    let signature := block.get "signature"
    let invalid :=
      match keyRecord with
      | some r =>
        r.public_key_jwk.truthy &&
          !CryptoValidator.verifySignature ecdsaVerify (payloadToVerify block) signature
            r.public_key_jwk
      | none => false
    if invalid then
      (st, ⟨block.get "index",
        .rejected "Firma criptográfica inválida. Posible manipulación detectada."⟩)
    else
      (⟨st.publicKeysDB, st.auditBlocksDB ++ [storedRecord now block]⟩,
        ⟨block.get "index", .accepted⟩)

/-- The `for` loop of `POST /sync` over the blocks of the request. -/
def syncBlocks (ecdsaVerify : JsVal → String → JsVal → Bool) (now : Nat) :
    AuditServer → List JsRecord → AuditServer × List SyncResult
  | st, [] => (st, [])
  | st, block :: rest =>
    let step := syncBlock ecdsaVerify now st block
    let tail := syncBlocks ecdsaVerify now step.1 rest
    (tail.1, step.2 :: tail.2)

/-- What `GET /chain` answers: the stored chain and its verification. -/
def getChain (st : AuditServer) : List JsRecord × ChainVerification :=
  (st.auditBlocksDB, CryptoValidator.verifyChain st.auditBlocksDB)

/-- The entry of `payload` that `AuditSyncService.synchronize` makes of a block. -/
def sanitizedBlock (b : AuditBlock) : JsRecord :=
  [("index", .prim (.num (toString b.index))),
    ("timestamp", .prim (.num (toString b.timestamp))),
    ("action", b.action), ("keyId", b.keyId),
    ("payloadHash", .prim (.str b.payloadHash)),
    ("previousHash", .prim (.str b.previousHash)),
    ("hash", .prim (.str b.hash)),
    ("signature", .arr (b.signature.map (fun n => JsPrim.num (toString n))))]

/-- A value after `JSON.stringify` on the client and `JSON.parse` on the server: inside an
array `undefined` comes back as `null`, inside an object an `undefined` member is gone. -/
def JsVal.overJson : JsVal → JsVal
  | .prim p => .prim p
  | .arr items => .arr (items.map (fun p => if p = .undefined then .null else p))
  | .obj props => .obj (props.filter (fun kv => kv.2 != .undefined))

/-- An object after `JSON.stringify` on the client and `JSON.parse` on the server: members
holding `undefined` are gone. -/
def JsRecord.overJson (o : JsRecord) : JsRecord :=
  o.filterMap (fun kv =>
    if kv.2 = .prim .undefined then none else some (kv.1, kv.2.overJson))

/-- The text the server passes to signature verification for a block the client sent: the
received block without `signature` and `hash`, through `JSON.stringify`. -/
def serverPayloadString (b : AuditBlock) : String :=
  (payloadToVerify (sanitizedBlock b).overJson).jsonStringify

/-- The value of `(own || 0) + 1` for what `tally[opcion]` finds as own property (`none`
when there is none and the prototype is read). -/
def tallyIncrementOf (opcion : String) (own : Option TallyVal) : TallyVal :=
  match own with
  | some (.num n) => .num (n + 1)
  | some (.str s) => if s = "" then .num 1 else .str (s ++ "1")
  | some (.float x) =>
    if x.truthy then TallyVal.ofFloat (x.add (.finite 1 0)) else .num 1
  | none =>
    match inheritedText opcion with
    | some text => .str (text ++ "1")
    | none => .num 1

/-- The option names in the order in which the tally loop creates their properties: the
order of their first vote (`__proto__` creates none). -/
def optionOrder (rawVotes : List VoteRecord) : List String :=
  rawVotes.foldl
    (fun keys vote =>
      if vote.eleccion.toStr = "__proto__" ∨ vote.eleccion.toStr ∈ keys then keys
      else keys ++ [vote.eleccion.toStr])
    []

/-- The record with its `results` map replaced. -/
def PublicRecord.withResults (r : PublicRecord) (results : JsObject) : PublicRecord :=
  ⟨r.electionId, r.timestampClosed, r.totalVotes, results, r.merkleRoot, r.allReceipts,
    r.actaHash⟩

/-- The record with its `actaHash` replaced. -/
def PublicRecord.withActaHash (r : PublicRecord) (actaHash : String) : PublicRecord :=
  ⟨r.electionId, r.timestampClosed, r.totalVotes, r.results, r.merkleRoot, r.allReceipts,
    actaHash⟩

set_option maxRecDepth 100000

/-! ## Theorems: modular arithmetic -/

theorem tmod_natCast_mul (a b n : Nat) :
    Int.tmod ((a : Int) * (b : Int)) (n : Int) = ((a * b % n : Nat) : Int) := by
  rw [Int.ofNat_tmod]; push_cast; rfl

/-- On natural numbers the loop of `modPow` multiplies `result` by `base ^ exp` modulo
`mod`, whenever the fuel is at least `exp`. -/
theorem modPowLoop_nat (fuel : Nat) :
    ∀ (r b e n : Nat), e ≤ fuel → r < n →
      modPowLoop fuel (r : Int) (b : Int) (e : Int) (n : Int) = ((r * b ^ e % n : Nat) : Int) := by
  induction fuel with
  | zero =>
    intro r b e n he hr
    have : e = 0 := by omega
    subst this
    simp [modPowLoop, Nat.mod_eq_of_lt hr]
  | succ k ih =>
    intro r b e n he hr
    unfold modPowLoop
    by_cases h0 : e = 0
    · subst h0
      simp [Nat.mod_eq_of_lt hr]
    · have hpos : (e : Int) > 0 := by omega
      have hn : 0 < n := by omega
      rw [if_pos hpos]
      have e1 : Int.tmod (e : Int) 2 = ((e % 2 : Nat) : Int) := rfl
      have e2 : Int.tdiv (e : Int) 2 = ((e / 2 : Nat) : Int) := rfl
      rw [e1, e2, tmod_natCast_mul, tmod_natCast_mul]
      have hdec : e / 2 ≤ k := by omega
      have hpow : b ^ e = (b * b) ^ (e / 2) * b ^ (e % 2) := by
        rw [← pow_two, ← pow_mul, ← pow_add, Nat.div_add_mod]
      by_cases hodd : e % 2 = 1
      · have : (((e % 2 : Nat) : Int) = 1) := by exact_mod_cast hodd
        rw [if_pos this, ih _ _ _ _ hdec (Nat.mod_lt _ hn)]
        congr 1
        rw [hpow, hodd, pow_one]
        conv_lhs =>
          rw [Nat.mul_mod, Nat.mod_mod, Nat.pow_mod, Nat.mod_mod, ← Nat.pow_mod, ← Nat.mul_mod]
        ring_nf
      · have hev : e % 2 = 0 := by omega
        have : ¬ (((e % 2 : Nat) : Int) = 1) := by rw [hev]; simp
        rw [if_neg this, ih _ _ _ _ hdec hr]
        congr 1
        rw [hpow, hev, pow_zero, mul_one]
        conv_lhs => rw [Nat.mul_mod, Nat.pow_mod, Nat.mod_mod, ← Nat.pow_mod, ← Nat.mul_mod]

/-- The value of `modPow` on natural numbers with a positive modulus. -/
theorem modPow_nat (b e n : Nat) (hn : 0 < n) :
    modPow (b : Int) (e : Int) (n : Int) =
      some (((if b % n = 0 then 0 else b ^ e % n : Nat)) : Int) := by
  unfold modPow
  have hn0 : ¬ ((n : Int) = 0) := by omega
  rw [if_neg hn0]
  have e1 : Int.tmod (b : Int) n = ((b % n : Nat) : Int) := rfl
  simp only [e1]
  by_cases hb : b % n = 0
  · simp [hb]
  · have hb2 : ¬ (((b % n : Nat) : Int) = 0) := by exact_mod_cast hb
    rw [if_neg hb2, if_neg hb]
    have h1 : 1 < n := by
      rcases Nat.lt_or_ge 1 n with h | h
      · exact h
      · exfalso; apply hb; have : n = 1 := by omega
        subst this; exact Nat.mod_one b
    have := modPowLoop_nat e 1 (b % n) e n (le_refl _) h1
    simp only [Int.toNat_ofNat]
    rw [show ((1 : Int)) = ((1 : Nat) : Int) from rfl, this]
    congr 2
    rw [one_mul, ← Nat.pow_mod]

/-- With a positive exponent `modPow` is the modular power. -/
theorem modPow_nat_pos (b e n : Nat) (hn : 0 < n) (he : 0 < e) :
    modPow (b : Int) (e : Int) (n : Int) = some ((b ^ e % n : Nat) : Int) := by
  rw [modPow_nat b e n hn]
  by_cases hb : b % n = 0
  · rw [if_pos hb]
    congr 2
    rw [Nat.pow_mod, hb, zero_pow (by omega)]
    simp
  · rw [if_neg hb]

/-- The loop of `modInverse` from a state that satisfies the invariants of the extended
Euclidean algorithm for the inputs `a0`, `m0`: it returns, the result inverts `a0` modulo
`m0`, and it lies strictly between `-m0` and `m0`. -/
theorem modInverseLoop_spec (a0 m0 : Nat) (hm0 : 1 < m0) (fuel : Nat) :
    ∀ (a m : Nat) (x y : Int), m ≤ fuel → 1 ≤ a → Nat.gcd a m = 1 →
      x * a0 ≡ a [ZMOD m0] → y * a0 ≡ m [ZMOD m0] →
      ((0 ≤ x ∧ y ≤ 0 ∧ (m : Int) * x - a * y = m0) ∨
        (x ≤ 0 ∧ 0 ≤ y ∧ (a : Int) * y - m * x = m0)) →
      (-(m0 : Int) < x ∧ x < m0) →
      ∃ xf : Int, modInverseLoop fuel a m x y = some xf ∧ xf * a0 ≡ 1 [ZMOD m0] ∧
        -(m0 : Int) < xf ∧ xf < m0 := by
  induction fuel with
  | zero =>
    intro a m x y hf ha hg hx hy hs hb
    have hm : m = 0 := by omega
    subst hm
    have ha1 : a = 1 := by simpa using hg
    subst ha1
    refine ⟨x, ?_, ?_, hb⟩
    · unfold modInverseLoop; simp
    · simpa using hx
  | succ k ih =>
    intro a m x y hf ha hg hx hy hs hb
    by_cases ha1 : a = 1
    · subst ha1
      refine ⟨x, ?_, ?_, hb⟩
      · unfold modInverseLoop; simp
      · simpa using hx
    · have ha2 : 2 ≤ a := by omega
      have hm : m ≠ 0 := by
        intro h; subst h; simp at hg; omega
      have hcond : ((a : Int) > 1) := by omega
      have hmz : ¬ ((m : Int) = 0) := by omega
      have e1 : Int.tmod (a : Int) m = ((a % m : Nat) : Int) := rfl
      have e2 : Int.tdiv (a : Int) m = ((a / m : Nat) : Int) := rfl
      have hstep : modInverseLoop (k + 1) a m x y =
          modInverseLoop k m ((a % m : Nat) : Int) y (x - ((a / m : Nat) : Int) * y) := by
        rw [modInverseLoop, if_pos hcond, if_neg hmz, e1, e2]
      have hdiv : ((a % m : Nat) : Int) = a - m * ((a / m : Nat) : Int) := by
        push_cast
        exact Int.emod_def _ _
      have hq : (0 : Int) ≤ ((a / m : Nat) : Int) := Int.ofNat_nonneg _
      have hlt : a % m < m := Nat.mod_lt _ (Nat.pos_of_ne_zero hm)
      have hg2 : Nat.gcd m (a % m) = 1 := by
        rw [Nat.gcd_comm, ← Nat.gcd_rec, Nat.gcd_comm]; exact hg
      have hy2 : (x - ((a / m : Nat) : Int) * y) * a0 ≡ ((a % m : Nat) : Int) [ZMOD m0] := by
        rw [hdiv]
        have h1 : (x - ((a / m : Nat) : Int) * y) * a0 =
            x * a0 - ((a / m : Nat) : Int) * (y * a0) := by ring
        rw [h1, mul_comm (m : Int)]
        exact Int.ModEq.sub hx (Int.ModEq.mul_left _ hy)
      have hs2 : ((0 ≤ y ∧ (x - ((a / m : Nat) : Int) * y) ≤ 0 ∧
            (((a % m : Nat) : Int)) * y - m * (x - ((a / m : Nat) : Int) * y) = m0) ∨
          (y ≤ 0 ∧ 0 ≤ (x - ((a / m : Nat) : Int) * y) ∧
            (m : Int) * (x - ((a / m : Nat) : Int) * y) - ((a % m : Nat) : Int) * y = m0)) := by
        rcases hs with ⟨h1, h2, h3⟩ | ⟨h1, h2, h3⟩
        · right
          refine ⟨h2, ?_, ?_⟩
          · have : ((a / m : Nat) : Int) * y ≤ 0 := mul_nonpos_of_nonneg_of_nonpos hq h2
            linarith
          · rw [hdiv]
            linarith [h3, show (m : Int) * (x - ((a / m : Nat) : Int) * y) -
              ((a : Int) - m * ((a / m : Nat) : Int)) * y = (m : Int) * x - a * y by ring]
        · left
          refine ⟨h2, ?_, ?_⟩
          · have : 0 ≤ ((a / m : Nat) : Int) * y := mul_nonneg hq h2
            linarith
          · rw [hdiv]
            linarith [h3, show ((a : Int) - m * ((a / m : Nat) : Int)) * y -
              (m : Int) * (x - ((a / m : Nat) : Int) * y) = (a : Int) * y - m * x by ring]
      have hb2 : (-(m0 : Int) < y ∧ y < m0) := by
        have hm0p : (0 : Int) < m0 := by omega
        have ha3 : (2 : Int) ≤ a := by omega
        have hmn : (0 : Int) ≤ m := Int.ofNat_nonneg _
        rcases hs with ⟨h1, h2, h3⟩ | ⟨h1, h2, h3⟩
        · have hmx : 0 ≤ (m : Int) * x := mul_nonneg hmn h1
          have h4 : (a : Int) * (-y) ≤ m0 := by linarith
          have h5 : 2 * (-y) ≤ (a : Int) * (-y) :=
            mul_le_mul_of_nonneg_right ha3 (by linarith)
          constructor <;> linarith
        · have hmx : (m : Int) * x ≤ 0 := mul_nonpos_of_nonneg_of_nonpos hmn h1
          have h4 : (a : Int) * y ≤ m0 := by linarith
          have h5 : 2 * y ≤ (a : Int) * y := mul_le_mul_of_nonneg_right ha3 h2
          constructor <;> linarith
      rw [hstep]
      exact ih m (a % m) y _ (by omega) (by omega) hg2 hy hy2 hs2 hb2

/-- For a modulus above one and a positive `a` coprime to it, `modInverse` returns the inverse
of `a` in the range from zero up to the modulus. -/
theorem modInverse_nat (a m : Nat) (hm : 1 < m) (ha : 1 ≤ a) (hg : Nat.gcd a m = 1) :
    ∃ x : Nat, modInverse (a : Int) (m : Int) = some (x : Int) ∧ x < m ∧ a * x % m = 1 := by
  have h := modInverseLoop_spec a m hm m a m 1 0 (le_refl _) ha hg
    (by simp) (by simp [Int.ModEq]) (Or.inl ⟨by norm_num, le_refl _, by ring⟩)
    ⟨by omega, by omega⟩
  obtain ⟨xf, h1, h2, h3, h4⟩ := h
  have hm1 : ¬ ((m : Int) = 1) := by omega
  have key : ∀ z : Int, 0 ≤ z → z < m → z * a ≡ 1 [ZMOD m] →
      z.toNat < m ∧ a * z.toNat % m = 1 := by
    intro z hz0 hzm hz
    have hzn : ((z.toNat : Nat) : Int) = z := Int.toNat_of_nonneg hz0
    refine ⟨by omega, ?_⟩
    have h5 : ((a * z.toNat : Nat) : Int) ≡ ((1 : Nat) : Int) [ZMOD (m : Int)] := by
      push_cast; rw [hzn, mul_comm]; exact hz
    have h6 := (Int.natCast_modEq_iff).mp h5
    rw [Nat.ModEq, Nat.mod_eq_of_lt hm] at h6
    exact h6
  by_cases hneg : xf < 0
  · refine ⟨(xf + m).toNat, ?_, ?_⟩
    · unfold modInverse
      rw [if_neg hm1]
      simp only [Int.natAbs_ofNat, h1, if_pos hneg]
      rw [Int.toNat_of_nonneg (by omega)]
    · apply key (xf + m) (by omega) (by omega)
      have : (xf + m) * a = xf * a + m * a := by ring
      rw [this]
      have h7 : (m : Int) * a ≡ 0 [ZMOD m] := by
        simp [Int.ModEq]
      simpa using Int.ModEq.add h2 h7
  · refine ⟨xf.toNat, ?_, ?_⟩
    · unfold modInverse
      rw [if_neg hm1]
      simp only [Int.natAbs_ofNat, h1, if_neg hneg]
      rw [Int.toNat_of_nonneg (by omega)]
    · exact key xf (by omega) h4 h2

/-! ## Theorems: the blind signature (C1) -/

theorem pow_one_add_mul_pred_modEq (p : Nat) (hp : p.Prime) (m j : Nat) :
    m ^ (1 + (p - 1) * j) ≡ m [MOD p] := by
  haveI : Fact p.Prime := ⟨hp⟩
  rw [← ZMod.eq_iff_modEq_nat]
  push_cast
  by_cases h0 : (m : ZMod p) = 0
  · rw [h0]; simp
  · rw [pow_add, pow_mul, ZMod.pow_card_sub_one_eq_one h0]; simp

theorem lcm_pred_ge_two (p q : Nat) (hp : p.Prime) (hq : q.Prime) (hpq : p ≠ q) :
    2 ≤ Nat.lcm (p - 1) (q - 1) := by
  have hp2 := hp.two_le
  have hq2 := hq.two_le
  have h1 : 0 < Nat.lcm (p - 1) (q - 1) := Nat.lcm_pos (by omega) (by omega)
  have hd1 : (p - 1) ∣ Nat.lcm (p - 1) (q - 1) := Nat.dvd_lcm_left _ _
  have hd2 : (q - 1) ∣ Nat.lcm (p - 1) (q - 1) := Nat.dvd_lcm_right _ _
  have hl1 := Nat.le_of_dvd h1 hd1
  have hl2 := Nat.le_of_dvd h1 hd2
  omega

/-- For an RSA key both exponents are positive and raising to `e * d` is the identity modulo
`p * q`. -/
theorem rsa_exponents (p q e d : Nat) (hp : p.Prime) (hq : q.Prime) (hpq : p ≠ q)
    (hed : e * d ≡ 1 [MOD Nat.lcm (p - 1) (q - 1)]) :
    0 < e ∧ 0 < d ∧ ∀ m : Nat, m ^ (e * d) ≡ m [MOD p * q] := by
  have hL := lcm_pred_ge_two p q hp hq hpq
  have hmod : e * d % Nat.lcm (p - 1) (q - 1) = 1 := by
    have := hed
    rw [Nat.ModEq, Nat.mod_eq_of_lt (show 1 < Nat.lcm (p - 1) (q - 1) by omega)] at this
    exact this
  have hne : e * d ≠ 0 := by
    intro h; rw [h] at hmod; simp at hmod
  have he : 0 < e := Nat.pos_of_ne_zero (fun h => hne (by rw [h, zero_mul]))
  have hd : 0 < d := Nat.pos_of_ne_zero (fun h => hne (by rw [h, mul_zero]))
  refine ⟨he, hd, ?_⟩
  intro m
  have hsplit : e * d = 1 + Nat.lcm (p - 1) (q - 1) * (e * d / Nat.lcm (p - 1) (q - 1)) := by
    have := Nat.mod_add_div (e * d) (Nat.lcm (p - 1) (q - 1))
    omega
  obtain ⟨c1, hc1⟩ := Nat.dvd_lcm_left (p - 1) (q - 1)
  obtain ⟨c2, hc2⟩ := Nat.dvd_lcm_right (p - 1) (q - 1)
  have hcop : Nat.Coprime p q := (Nat.coprime_primes hp hq).mpr hpq
  apply (Nat.modEq_and_modEq_iff_modEq_mul hcop).mp
  constructor
  · rw [hsplit]
    conv_lhs => rw [hc1, mul_assoc]
    exact pow_one_add_mul_pred_modEq p hp m _
  · rw [hsplit]
    conv_lhs => rw [hc2, mul_assoc]
    exact pow_one_add_mul_pred_modEq q hq m _

/-- The value of `blindedMessage` on natural numbers with a positive modulus and exponent. -/
theorem blindedMessage_nat (m r e n : Nat) (hn : 0 < n) (he : 0 < e) :
    blindedMessage (m : Int) (r : Int) (e : Int) (n : Int) =
      some ((m * (r ^ e % n) % n : Nat) : Int) := by
  have hguard : ¬ ((n : Int) = 0 ∨ (e : Int) = 0) := by omega
  simp only [blindedMessage, if_neg hguard, modPow_nat_pos r e n hn he, tmod_natCast_mul]

/-- The round trip on natural numbers: blinding, signing and unblinding give `m ^ d`, and
that signature verifies. -/
theorem blind_round_trip_nat (p q e d m r : Nat) (hp : p.Prime) (hq : q.Prime) (hpq : p ≠ q)
    (hed : e * d ≡ 1 [MOD Nat.lcm (p - 1) (q - 1)])
    (hm : m < p * q) (hr0 : 0 < r) (hg : Nat.gcd r (p * q) = 1) :
    ∃ x : Nat, modInverse (r : Int) ((p * q : Nat) : Int) = some (x : Int) ∧
      ((m * (r ^ e % (p * q)) % (p * q)) ^ d % (p * q)) * x % (p * q) = m ^ d % (p * q) ∧
      (m ^ d % (p * q)) ^ e % (p * q) = m := by
  obtain ⟨he, hd, hrsa⟩ := rsa_exponents p q e d hp hq hpq hed
  have hN : 1 < p * q := by
    have := hp.two_le; have := hq.two_le; nlinarith
  obtain ⟨x, hx1, _, hx3⟩ := modInverse_nat r (p * q) hN hr0 hg
  refine ⟨x, hx1, ?_, ?_⟩
  · have hrx : r * x ≡ 1 [MOD p * q] := by
      rw [Nat.ModEq, hx3, Nat.mod_eq_of_lt hN]
    have h1 : (m * (r ^ e % (p * q)) % (p * q)) ^ d % (p * q) ≡ (m * r ^ e) ^ d [MOD p * q] :=
      (Nat.mod_modEq _ _).trans
        (((Nat.mod_modEq _ _).trans ((Nat.mod_modEq _ _).mul_left m)).pow d)
    have h2 : (m * r ^ e) ^ d = m ^ d * r ^ (e * d) := by
      rw [mul_pow, ← pow_mul]
    have h3 : (m * r ^ e) ^ d ≡ m ^ d * r [MOD p * q] := by
      rw [h2]; exact (hrsa r).mul_left _
    have h4 : ((m * (r ^ e % (p * q)) % (p * q)) ^ d % (p * q)) * x ≡ m ^ d * 1 [MOD p * q] := by
      have := (h1.trans h3).mul_right x
      rw [mul_assoc] at this
      exact this.trans (hrx.mul_left _)
    rw [mul_one] at h4
    exact h4
  · have h5 : (m ^ d % (p * q)) ^ e ≡ m [MOD p * q] := by
      have h6 : (m ^ d % (p * q)) ^ e ≡ (m ^ d) ^ e [MOD p * q] := (Nat.mod_modEq _ _).pow e
      rw [← pow_mul, mul_comm d e] at h6
      exact h6.trans (hrsa m)
    rw [Nat.ModEq, Nat.mod_eq_of_lt hm] at h5
    exact h5

/-- C1, the claim as stated fails: for the token 0 at the key `N = 3 * 11`, `e = 3`, `d = 7`
with the blinding factor 2 (in range and coprime to `N`), the blinded message and the blind
signature are computed, and `unblindSignature` refuses to unblind, its guard
`!this.originalToken` taking the token `0n` for a missing one, although `modPow(0, d, N)` is
computed and verifies. -/
theorem zero_token_is_not_unblinded :
    Nat.Prime 3 ∧ Nat.Prime 11 ∧ 3 * 7 ≡ 1 [MOD Nat.lcm (3 - 1) (11 - 1)] ∧
    (0 : Int) < 2 ∧ (2 : Int) < 33 ∧ Int.gcd 2 33 = 1 ∧
    blindedMessage 0 2 3 33 = some 0 ∧
    modPow 0 7 33 = some 0 ∧
    unblindedSignature 0 2 0 33 = none ∧
    modPow 0 3 33 = some 0 :=
  ⟨by norm_num, by norm_num, by decide, by decide, by decide, by decide, by decide, by decide,
    by decide, by decide⟩

/-- C1, amended. Blind-signature round trip: for an RSA key (`N = p * q` with `p`, `q`
distinct primes, `e * d` congruent to 1 modulo `lcm (p - 1) (q - 1)`), a token `m` with
`0 < m < N` and a blinding factor `r` with `0 < r < N` coprime to `N`, the blinded message
`m' = (m * modPow(r, e, N)) % N` of `createBlindedToken`, the blind signature
`s' = modPow(m', d, N)` and the unblinded signature `s = (s' * modInverse(r, N)) % N` of
`unblindSignature` are all computed without error, `s = modPow(m, d, N)` and
`modPow(s, e, N) = m`. -/
theorem blind_signature_round_trip (p q e d m r : Nat) (hp : p.Prime) (hq : q.Prime)
    (hpq : p ≠ q) (hed : e * d ≡ 1 [MOD Nat.lcm (p - 1) (q - 1)])
    (hm0 : 0 < m) (hm : m < p * q) (hr0 : 0 < r) (hr : r < p * q)
    (hg : Nat.gcd r (p * q) = 1) :
    ∃ mPrime sPrime s : Int,
      blindedMessage (m : Int) (r : Int) (e : Int) ((p * q : Nat) : Int) = some mPrime ∧
      modPow mPrime (d : Int) ((p * q : Nat) : Int) = some sPrime ∧
      unblindedSignature sPrime (r : Int) (m : Int) ((p * q : Nat) : Int) = some s ∧
      s = ((m ^ d % (p * q) : Nat) : Int) ∧
      modPow (m : Int) (d : Int) ((p * q : Nat) : Int) = some s ∧
      modPow s (e : Int) ((p * q : Nat) : Int) = some (m : Int) := by
  obtain ⟨he, hd, _⟩ := rsa_exponents p q e d hp hq hpq hed
  obtain ⟨x, hx, h1, h2⟩ := blind_round_trip_nat p q e d m r hp hq hpq hed hm hr0 hg
  have hN : 0 < p * q := by omega
  have hN0 : ¬ (((p * q : Nat) : Int) = 0) := by omega
  have hguard : ¬ ((r : Int) = 0 ∨ (m : Int) = 0) := by omega
  refine ⟨((m * (r ^ e % (p * q)) % (p * q) : Nat) : Int),
    (((m * (r ^ e % (p * q)) % (p * q)) ^ d % (p * q) : Nat) : Int),
    ((m ^ d % (p * q) : Nat) : Int), ?_, ?_, ?_, rfl, ?_, ?_⟩
  · exact blindedMessage_nat m r e (p * q) hN he
  · exact modPow_nat_pos _ d (p * q) hN hd
  · simp only [unblindedSignature, if_neg hguard, hx, if_neg hN0, tmod_natCast_mul, h1]
  · exact modPow_nat_pos m d (p * q) hN hd
  · rw [modPow_nat_pos _ e (p * q) hN he, h2]

/-- The round trip at the key `N = 3 * 11`, `e = 3`, `d = 7`, token 4 and blinding factor
2. -/
theorem blind_signature_round_trip_witness :
    ∃ mPrime sPrime s : Int,
      blindedMessage ((4 : Nat) : Int) ((2 : Nat) : Int) ((3 : Nat) : Int)
        ((3 * 11 : Nat) : Int) = some mPrime ∧
      modPow mPrime ((7 : Nat) : Int) ((3 * 11 : Nat) : Int) = some sPrime ∧
      unblindedSignature sPrime ((2 : Nat) : Int) ((4 : Nat) : Int) ((3 * 11 : Nat) : Int) =
        some s ∧
      s = ((4 ^ 7 % (3 * 11) : Nat) : Int) ∧
      modPow ((4 : Nat) : Int) ((7 : Nat) : Int) ((3 * 11 : Nat) : Int) = some s ∧
      modPow s ((3 : Nat) : Int) ((3 * 11 : Nat) : Int) = some ((4 : Nat) : Int) :=
  blind_signature_round_trip 3 11 3 7 4 2 (by norm_num) (by norm_num) (by decide) (by decide)
    (by decide) (by decide) (by decide) (by decide) (by decide)

/-! ## Theorems: the Urn (C2, C3, C4) -/

theorem sameValueZero_prim_self (p : JsPrim) :
    JsVal.sameValueZero (.prim p) (.prim p) = true := by
  simp [JsVal.sameValueZero]

theorem setHas_append (set more : List JsVal) (v : JsVal) :
    setHas (set ++ more) v = (setHas set v || setHas more v) := by
  simp [setHas, List.any_append]

/-- An element stays in the set when another is added. -/
theorem setHas_setAdd_of_setHas (set : List JsVal) (u v : JsVal) (h : setHas set v = true) :
    setHas (setAdd set u) v = true := by
  unfold setAdd
  split
  · exact h
  · rw [setHas_append, h]; rfl

/-- A primitive is in the set once it was added. -/
theorem setHas_setAdd_self (set : List JsVal) (p : JsPrim) :
    setHas (setAdd set (.prim p)) (.prim p) = true := by
  unfold setAdd
  split
  · assumption
  · rw [setHas_append]
    simp [setHas, sameValueZero_prim_self]

/-- A truthy value has a JSON text. -/
theorem jsonStringify_of_truthy (v : JsVal) (h : v.truthy = true) :
    ∃ json, v.jsonStringify = some json := by
  cases v with
  | prim p => cases p <;> simp_all [JsVal.jsonStringify, JsVal.truthy, JsPrim.truthy]
  | arr items => exact ⟨_, rfl⟩
  | obj props => exact ⟨_, rfl⟩

/-- A truthy value has a selected option. -/
theorem eleccionOf_of_truthy (v : JsVal) (h : v.truthy = true) :
    ∃ eleccion, eleccionOf v = some eleccion := by
  cases v with
  | prim p => cases p <;> simp_all [eleccionOf, JsVal.truthy, JsPrim.truthy]
  | arr items => exact ⟨_, rfl⟩
  | obj props => exact ⟨_, rfl⟩

theorem bigIntOfHex_str (t : String) (n : Nat) (h : parseBigIntHex t = some n) :
    bigIntOfHex (.prim (.str t)) = some (n : Int) := by
  simp [bigIntOfHex, JsVal.toStr, JsPrim.toStr, h]

theorem falsy_cond_iff (a b c : JsVal) :
    (!a.truthy || !b.truthy || !c.truthy) = false ↔
      a.truthy = true ∧ b.truthy = true ∧ c.truthy = true := by
  cases a.truthy <;> cases b.truthy <;> cases c.truthy <;> simp

/-- The three ways a submit-vote request can end: rejected with the stores untouched;
accepted, with the token burned and one record appended; or, for a token that is not a
string, answered with status 500 after the token was burned. -/
theorem submitVote_cases (key : PublicKey) (now : Nat) (st : UrnState) (body : SubmitVoteBody) :
    ((submitVote key now st body).1 = st ∧ (submitVote key now st body).2.accepted = false) ∨
    (∃ (t json : String) (eleccion : JsPrim) (s m : Int),
      body.ballotTokenHex = .prim (.str t) ∧
      body.voteContent.truthy = true ∧ body.ballotTokenHex.truthy = true ∧
      body.censusSignatureHex.truthy = true ∧
      setHas st.usedTokensDB body.ballotTokenHex = false ∧
      bigIntOfHex body.censusSignatureHex = some s ∧
      bigIntOfHex body.ballotTokenHex = some m ∧
      modPow s key.e key.N = some m ∧
      body.voteContent.jsonStringify = some json ∧
      eleccionOf body.voteContent = some eleccion ∧
      submitVote key now st body =
        (⟨setAdd st.usedTokensDB body.ballotTokenHex,
          st.votesDB ++ [⟨sha256 json, eleccion, some (substring0 (sha256 t) 16), now⟩]⟩,
         .ok (sha256 json) (st.votesDB.length + 1))) ∨
    (body.ballotTokenHex.isString = false ∧
      submitVote key now st body =
        (⟨setAdd st.usedTokensDB body.ballotTokenHex, st.votesDB⟩, .internalError)) := by
  obtain ⟨vc, tok, sig⟩ := body
  simp only
  by_cases hf : (!vc.truthy || !tok.truthy || !sig.truthy) = true
  · left; simp [submitVote, hf, UrnResponse.accepted]
  · have hf2 := (falsy_cond_iff _ _ _).mp (by simpa using hf)
    by_cases hu : setHas st.usedTokensDB tok = true
    · left
      by_cases hs : tok.isString = true <;>
        simp [submitVote, hf, hu, hs, UrnResponse.accepted]
    · cases hsig : bigIntOfHex sig with
      | none => left; simp [submitVote, hf, hu, hsig, UrnResponse.accepted]
      | some s =>
        cases htk : bigIntOfHex tok with
        | none => left; simp [submitVote, hf, hu, hsig, htk, UrnResponse.accepted]
        | some m =>
          cases hv : modPow s key.e key.N with
          | none => left; simp [submitVote, hf, hu, hsig, htk, hv, UrnResponse.accepted]
          | some verification =>
            by_cases hne : verification ≠ m
            · left
              by_cases hs : tok.isString = true <;>
                simp [submitVote, hf, hu, hsig, htk, hv, hne, hs, UrnResponse.accepted]
            · have heq : verification = m := by simpa using hne
              subst heq
              obtain ⟨json, hj⟩ := jsonStringify_of_truthy _ hf2.1
              obtain ⟨eleccion, he⟩ := eleccionOf_of_truthy _ hf2.1
              cases tok with
              | prim p =>
                cases p with
                | str t =>
                  right; left
                  refine ⟨t, json, eleccion, s, verification, rfl, hf2.1, hf2.2.1, hf2.2.2,
                    by simpa using hu, rfl, rfl, hv, hj, he, ?_⟩
                  simp [submitVote, hf, hu, hsig, htk, hv, hj, he]
                | _ =>
                  right; right
                  simp [submitVote, hf, hu, hsig, htk, hv, hj, he, JsVal.isString]
              | _ =>
                right; right
                simp [submitVote, hf, hu, hsig, htk, hv, hj, he, JsVal.isString]
/-- The tokens burned so far stay burned after a request, whatever the request. -/
theorem submitVote_keeps_burned (key : PublicKey) (now : Nat) (st : UrnState)
    (body : SubmitVoteBody) (v : JsVal) (h : setHas st.usedTokensDB v = true) :
    setHas (submitVote key now st body).1.usedTokensDB v = true := by
  rcases submitVote_cases key now st body with h1 | ⟨_, _, _, _, _, _, _, _, _, _, _, _, _, _, _, h2⟩ | ⟨_, h3⟩
  · rw [h1.1]; exact h
  · rw [h2]; exact setHas_setAdd_of_setHas _ _ _ h
  · rw [h3]; exact setHas_setAdd_of_setHas _ _ _ h

/-- The tokens burned so far stay burned over a sequence of requests. -/
theorem runUrn_keeps_burned (key : PublicKey) (reqs : List (Nat × SubmitVoteBody)) :
    ∀ (st : UrnState) (v : JsVal), setHas st.usedTokensDB v = true →
      setHas (runUrn (submitVote key) st reqs).1.usedTokensDB v = true := by
  induction reqs with
  | nil => intro st v h; exact h
  | cons r rest ih =>
    intro st v h
    obtain ⟨now, body⟩ := r
    simp only [runUrn]
    exact ih _ v (submitVote_keeps_burned key now st body v h)

/-- An accepted request carried a string token, all three fields were truthy, and the token
is burned afterwards. -/
theorem submitVote_accepted_burns (key : PublicKey) (now : Nat) (st : UrnState)
    (body : SubmitVoteBody) (h : (submitVote key now st body).2.accepted = true) :
    ∃ t : String, body.ballotTokenHex = .prim (.str t) ∧ body.ballotTokenHex.truthy = true ∧
      setHas (submitVote key now st body).1.usedTokensDB (.prim (.str t)) = true := by
  rcases submitVote_cases key now st body with h1 | ⟨t, _, _, _, _, ht, _, htr, _, _, _, _, _, _, _, h2⟩ | ⟨_, h3⟩
  · rw [h1.2] at h; exact absurd h (by simp)
  · refine ⟨t, ht, htr, ?_⟩
    rw [h2, ht]; exact setHas_setAdd_self _ _
  · rw [h3] at h; exact absurd h (by simp [UrnResponse.accepted])

/-- A request whose token is already burned changes nothing; it is answered with
TOKEN_ALREADY_USED when the other two fields are truthy and with status 400 otherwise. -/
theorem submitVote_of_burned (key : PublicKey) (now : Nat) (st : UrnState) (vc sig : JsVal)
    (t : String) (htr : (JsVal.prim (.str t)).truthy = true)
    (h : setHas st.usedTokensDB (.prim (.str t)) = true) :
    submitVote key now st ⟨vc, .prim (.str t), sig⟩ =
      (st, if vc.truthy && sig.truthy then .tokenAlreadyUsed else .badRequest) := by
  cases hv : vc.truthy <;> cases hs : sig.truthy <;>
    simp [submitVote, hv, hs, htr, h, JsVal.isString]

theorem modPow_isSome (base exp mod : Int) (h : mod ≠ 0) :
    ∃ v, modPow base exp mod = some v := by
  unfold modPow
  rw [if_neg h]
  simp only
  split <;> exact ⟨_, rfl⟩

theorem parseBigIntHex_empty : parseBigIntHex "" = none := by decide

/-- What the handler does with a well-formed request whose token is not yet burned. -/
theorem submitVote_of_well_formed (key : PublicKey) (now : Nat) (st : UrnState)
    (vc : JsVal) (t sg : String) (m s : Nat) (hN : key.N ≠ 0) (hvc : vc.truthy = true)
    (ht : parseBigIntHex t = some m) (hs : parseBigIntHex sg = some s)
    (hfresh : setHas st.usedTokensDB (.prim (.str t)) = false) :
    ∃ (json : String) (eleccion : JsPrim),
      vc.jsonStringify = some json ∧ eleccionOf vc = some eleccion ∧
      submitVote key now st ⟨vc, .prim (.str t), .prim (.str sg)⟩ =
        if modPow (s : Int) key.e key.N = some (m : Int) then
          (⟨setAdd st.usedTokensDB (.prim (.str t)),
            st.votesDB ++ [⟨sha256 json, eleccion, some (substring0 (sha256 t) 16), now⟩]⟩,
           .ok (sha256 json) (st.votesDB.length + 1))
        else (st, .invalidSignature) := by
  have ht0 : t ≠ "" := by
    intro h; rw [h, parseBigIntHex_empty] at ht; exact absurd ht (by simp)
  have hs0 : sg ≠ "" := by
    intro h; rw [h, parseBigIntHex_empty] at hs; exact absurd hs (by simp)
  have htt : (JsVal.prim (.str t)).truthy = true := by
    simp [JsVal.truthy, JsPrim.truthy, ht0]
  have hst : (JsVal.prim (.str sg)).truthy = true := by
    simp [JsVal.truthy, JsPrim.truthy, hs0]
  obtain ⟨json, hj⟩ := jsonStringify_of_truthy _ hvc
  obtain ⟨eleccion, he⟩ := eleccionOf_of_truthy _ hvc
  obtain ⟨v, hv⟩ := modPow_isSome (s : Int) key.e key.N hN
  have hbt := bigIntOfHex_str t m ht
  have hbs := bigIntOfHex_str sg s hs
  refine ⟨json, eleccion, hj, he, ?_⟩
  by_cases heq : v = (m : Int)
  · subst heq
    simp [submitVote, hvc, htt, hst, hfresh, hbt, hbs, hv, hj, he]
  · have hne : modPow (s : Int) key.e key.N ≠ some (m : Int) := by
      rw [hv]; intro h; exact heq (Option.some.inj h)
    rw [if_neg hne]
    simp [submitVote, hvc, htt, hst, hfresh, hbt, hbs, hv, heq, JsVal.isString]

/-- C3. For a well-formed submit-vote request (truthy vote content, token and signature
strings that denote the integers `m` and `s`) whose token string is not yet in
`usedTokensDB`, and a public key with a nonzero modulus: the Urn accepts the request if and
only if `modPow(s, e, N) = m`; it then burns the token, appends one record and returns the
receipt, and otherwise it answers INVALID_SIGNATURE (status 403) and leaves both stores as
they were. Nothing but `N`, `e`, `m` and `s` enters the decision: any other well-formed
request with the same `m` and `s`, in any state where its token is not burned, is decided
the same way. -/
theorem submitVote_accepts_iff_signature_verifies (key : PublicKey) (now : Nat) (st : UrnState)
    (vc : JsVal) (t sg : String) (m s : Nat) (hN : key.N ≠ 0) (hvc : vc.truthy = true)
    (ht : parseBigIntHex t = some m) (hs : parseBigIntHex sg = some s)
    (hfresh : setHas st.usedTokensDB (.prim (.str t)) = false) :
    ((submitVote key now st ⟨vc, .prim (.str t), .prim (.str sg)⟩).2.accepted = true ↔
        modPow (s : Int) key.e key.N = some (m : Int)) ∧
    (modPow (s : Int) key.e key.N = some (m : Int) →
      ∃ receipt eleccion, submitVote key now st ⟨vc, .prim (.str t), .prim (.str sg)⟩ =
        (⟨setAdd st.usedTokensDB (.prim (.str t)),
          st.votesDB ++ [⟨receipt, eleccion, some (substring0 (sha256 t) 16), now⟩]⟩,
         .ok receipt (st.votesDB.length + 1))) ∧
    (modPow (s : Int) key.e key.N ≠ some (m : Int) →
      submitVote key now st ⟨vc, .prim (.str t), .prim (.str sg)⟩ = (st, .invalidSignature) ∧
      (UrnResponse.invalidSignature).status = 403) ∧
    (∀ (now2 : Nat) (st2 : UrnState) (vc2 : JsVal) (t2 sg2 : String),
      vc2.truthy = true → parseBigIntHex t2 = some m → parseBigIntHex sg2 = some s →
      setHas st2.usedTokensDB (.prim (.str t2)) = false →
      (submitVote key now2 st2 ⟨vc2, .prim (.str t2), .prim (.str sg2)⟩).2.accepted =
        (submitVote key now st ⟨vc, .prim (.str t), .prim (.str sg)⟩).2.accepted) := by
  obtain ⟨json, eleccion, _, _, hres⟩ :=
    submitVote_of_well_formed key now st vc t sg m s hN hvc ht hs hfresh
  refine ⟨?_, ?_, ?_, ?_⟩
  · rw [hres]
    by_cases h : modPow (s : Int) key.e key.N = some (m : Int)
    · simp [h, UrnResponse.accepted]
    · simp [h, UrnResponse.accepted]
  · intro h
    rw [hres, if_pos h]
    exact ⟨_, _, rfl⟩
  · intro h
    rw [hres, if_neg h]
    exact ⟨rfl, rfl⟩
  · intro now2 st2 vc2 t2 sg2 hvc2 ht2 hs2 hfresh2
    obtain ⟨_, _, _, _, hres2⟩ :=
      submitVote_of_well_formed key now2 st2 vc2 t2 sg2 m s hN hvc2 ht2 hs2 hfresh2
    rw [hres, hres2]
    by_cases h : modPow (s : Int) key.e key.N = some (m : Int)
    · simp [h, UrnResponse.accepted]
    · simp [h, UrnResponse.accepted]

/-- The equivalence of C3 at the default key for the token `"1"` and the signature `"1"`,
which verifies: the request is accepted. -/
theorem submitVote_accepts_iff_signature_verifies_witness :
    ((submitVote CENSUS_PUBLIC_KEY 7 UrnState.empty
        ⟨.prim (.str "A"), .prim (.str "1"), .prim (.str "1")⟩).2.accepted = true ↔
        modPow ((1 : Nat) : Int) CENSUS_PUBLIC_KEY.e CENSUS_PUBLIC_KEY.N =
          some ((1 : Nat) : Int)) ∧
    modPow ((1 : Nat) : Int) CENSUS_PUBLIC_KEY.e CENSUS_PUBLIC_KEY.N = some ((1 : Nat) : Int) :=
  ⟨(submitVote_accepts_iff_signature_verifies CENSUS_PUBLIC_KEY 7 UrnState.empty
    (.prim (.str "A")) "1" "1" 1 1 (by decide) (by decide) (by decide) (by decide)
    (by decide)).1, by decide⟩

/-- C2. Two deposits for one token: from the empty urn, at the default key, the requests
with `ballotTokenHex` `"1"` and then `"01"` (signature `"1"` both times) are both accepted,
by the route and by the microservice, although both strings denote the integer 1. -/
theorem respelled_token_is_accepted_twice :
    (runUrn (submitVote CENSUS_PUBLIC_KEY) UrnState.empty
        [(1, ⟨.prim (.str "A"), .prim (.str "1"), .prim (.str "1")⟩),
         (2, ⟨.prim (.str "B"), .prim (.str "01"), .prim (.str "1")⟩)]).2.map
      UrnResponse.accepted = [true, true] ∧
    (runUrn (submitVoteService CENSUS_PUBLIC_KEY) UrnState.empty
        [(1, ⟨.prim (.str "A"), .prim (.str "1"), .prim (.str "1")⟩),
         (2, ⟨.prim (.str "B"), .prim (.str "01"), .prim (.str "1")⟩)]).2.map
      UrnResponse.accepted = [true, true] ∧
    bigIntOfHex (.prim (.str "1")) = some 1 ∧ bigIntOfHex (.prim (.str "01")) = some 1 := by
  decide

/-- C4, the claim as stated fails: after the token `"1"` was accepted, a later request with
the same token and the empty string as `voteContent` is answered with status 400, not with
TOKEN_ALREADY_USED. -/
theorem replay_with_falsy_content_is_400 :
    (submitVote CENSUS_PUBLIC_KEY 1 UrnState.empty
        ⟨.prim (.str "A"), .prim (.str "1"), .prim (.str "1")⟩).2.accepted = true ∧
    (submitVote CENSUS_PUBLIC_KEY 2
        (submitVote CENSUS_PUBLIC_KEY 1 UrnState.empty
          ⟨.prim (.str "A"), .prim (.str "1"), .prim (.str "1")⟩).1
        ⟨.prim (.str ""), .prim (.str "1"), .prim (.str "1")⟩).2 = .badRequest ∧
    UrnResponse.badRequest.status = 400 ∧ UrnResponse.tokenAlreadyUsed.status = 409 := by
  decide

/-- C4, amended. Once a submit-vote request with token string `t` has been accepted, every
later request with the same token (after any requests in between) leaves `usedTokensDB` and
`votesDB` unchanged and is rejected: with TOKEN_ALREADY_USED (status 409) when its
`voteContent` and `censusSignatureHex` are truthy, whatever they are and whether or not the
signature is valid, and with status 400 when one of them is missing or falsy. -/
theorem replay_is_rejected (key : PublicKey) (now : Nat) (st : UrnState) (body : SubmitVoteBody)
    (between : List (Nat × SubmitVoteBody)) (later : Nat) (vc sig : JsVal)
    (hacc : (submitVote key now st body).2.accepted = true) :
    submitVote key later (runUrn (submitVote key) (submitVote key now st body).1 between).1
        ⟨vc, body.ballotTokenHex, sig⟩ =
      ((runUrn (submitVote key) (submitVote key now st body).1 between).1,
        if vc.truthy && sig.truthy then .tokenAlreadyUsed else .badRequest) := by
  obtain ⟨t, ht, htr, hb⟩ := submitVote_accepted_burns key now st body hacc
  rw [ht] at htr ⊢
  exact submitVote_of_burned key later _ vc sig t htr
    (runUrn_keeps_burned key between _ _ hb)

/-- The amended C4 at the default key: the token `"1"` is accepted, another token is
deposited, then `"1"` comes again with an invalid signature. -/
theorem replay_is_rejected_witness :
    submitVote CENSUS_PUBLIC_KEY 3
        (runUrn (submitVote CENSUS_PUBLIC_KEY)
          (submitVote CENSUS_PUBLIC_KEY 1 UrnState.empty
            ⟨.prim (.str "A"), .prim (.str "1"), .prim (.str "1")⟩).1
          [(2, ⟨.prim (.str "B"), .prim (.str "0"), .prim (.str "0")⟩)]).1
        ⟨.prim (.str "C"),
          (SubmitVoteBody.mk (.prim (.str "A")) (.prim (.str "1")) (.prim (.str "1"))).ballotTokenHex,
          .prim (.str "zz")⟩ =
      ((runUrn (submitVote CENSUS_PUBLIC_KEY)
          (submitVote CENSUS_PUBLIC_KEY 1 UrnState.empty
            ⟨.prim (.str "A"), .prim (.str "1"), .prim (.str "1")⟩).1
          [(2, ⟨.prim (.str "B"), .prim (.str "0"), .prim (.str "0")⟩)]).1,
        if (JsVal.prim (.str "C")).truthy && (JsVal.prim (.str "zz")).truthy then
          .tokenAlreadyUsed else .badRequest) :=
  replay_is_rejected CENSUS_PUBLIC_KEY 1 UrnState.empty
    ⟨.prim (.str "A"), .prim (.str "1"), .prim (.str "1")⟩
    [(2, ⟨.prim (.str "B"), .prim (.str "0"), .prim (.str "0")⟩)] 3
    (.prim (.str "C")) (.prim (.str "zz")) (by decide)

/-! ## Theorems: the Census (C5) -/

/-- The ways an authorize-ballot request can end. -/
theorem authorizeBallot_cases (key : CensusKey) (reg : List JsVal) (body : AuthorizeBody) :
    ((authorizeBallot key reg body).votedRegistry = reg ∧
      (authorizeBallot key reg body).issued = false ∧
      (authorizeBallot key reg body).sPrime = none) ∨
    ((authorizeBallot key reg body).votedRegistry = setAdd reg body.voterId ∧
      body.voterId.truthy = true ∧ setHas reg body.voterId = false ∧
      ((authorizeBallot key reg body).issued = true → body.voterId.isString = true)) := by
  obtain ⟨tok, vid⟩ := body
  simp only
  by_cases hf : (!tok.truthy || !vid.truthy) = true
  · left; simp [authorizeBallot, hf, AuthorizeResult.issued]
  · have hv : vid.truthy = true := by
      cases h1 : tok.truthy <;> cases h2 : vid.truthy <;> simp_all
    have ht : tok.truthy = true := by
      cases h1 : tok.truthy <;> cases h2 : vid.truthy <;> simp_all
    by_cases hu : setHas reg vid = true
    · left; simp [authorizeBallot, hf, hu, AuthorizeResult.issued]
    · cases hm : bigIntOfHex tok with
      | none => left; simp [authorizeBallot, hf, hu, hm, AuthorizeResult.issued]
      | some mPrime =>
        cases hs : modPow mPrime key.d key.N with
        | none => left; simp [authorizeBallot, hf, hu, hm, hs, AuthorizeResult.issued]
        | some sPrime =>
          right
          by_cases hstr : vid.isString = true <;>
            simp [authorizeBallot, hu, hm, hs, hstr, AuthorizeResult.issued, hv, ht]

/-- A voter in the registry stays there. -/
theorem authorizeBallot_keeps_registered (key : CensusKey) (reg : List JsVal)
    (body : AuthorizeBody) (v : JsVal) (h : setHas reg v = true) :
    setHas (authorizeBallot key reg body).votedRegistry v = true := by
  rcases authorizeBallot_cases key reg body with h1 | h2
  · rw [h1.1]; exact h
  · rw [h2.1]; exact setHas_setAdd_of_setHas _ _ _ h

/-- A voter in the registry stays there over a sequence of requests. -/
theorem censusRegistryAfter_keeps_registered (key : CensusKey) (reqs : List AuthorizeBody) :
    ∀ (reg : List JsVal) (v : JsVal), setHas reg v = true →
      setHas (censusRegistryAfter key reg reqs) v = true := by
  induction reqs with
  | nil => intro reg v h; exact h
  | cons b rest ih =>
    intro reg v h
    exact ih _ v (authorizeBallot_keeps_registered key reg b v h)

/-- A request that returns a blind signature leaves its voter in the registry. -/
theorem authorizeBallot_issued_registers (key : CensusKey) (reg : List JsVal)
    (body : AuthorizeBody) (h : (authorizeBallot key reg body).issued = true) :
    body.voterId.truthy = true ∧
      setHas (authorizeBallot key reg body).votedRegistry body.voterId = true := by
  rcases authorizeBallot_cases key reg body with h1 | h2
  · rw [h1.2.1] at h; exact absurd h (by simp)
  · refine ⟨h2.2.1, ?_⟩
    rw [h2.1]
    have hs := h2.2.2.2 h
    cases hv : body.voterId with
    | prim p => exact setHas_setAdd_self _ _
    | arr items => rw [hv] at hs; simp [JsVal.isString] at hs
    | obj props => rw [hv] at hs; simp [JsVal.isString] at hs

/-- A request for a voter already in the registry changes nothing and computes no signature;
it is answered with ALREADY_VOTED when `blindedTokenHex` is truthy and with status 400
otherwise. -/
theorem authorizeBallot_of_registered (key : CensusKey) (reg : List JsVal) (tok vid : JsVal)
    (hv : vid.truthy = true) (h : setHas reg vid = true) :
    authorizeBallot key reg ⟨tok, vid⟩ =
      ⟨reg, if tok.truthy then .alreadyVoted else .badRequest, none⟩ := by
  cases ht : tok.truthy <;> simp [authorizeBallot, ht, hv, h]

/-- No signature is returned for a voter who is in the registry. -/
theorem issuedCount_of_registered (key : CensusKey) (v : JsVal) (reqs : List AuthorizeBody) :
    ∀ reg : List JsVal, setHas reg v = true → issuedCount key v reg reqs = 0 := by
  induction reqs with
  | nil => intro reg _; rfl
  | cons b rest ih =>
    intro reg h
    simp only [issuedCount]
    rw [ih _ (authorizeBallot_keeps_registered key reg b v h)]
    have : ¬ (b.voterId = v ∧ (authorizeBallot key reg b).issued = true) := by
      rintro ⟨hb, hi⟩
      rcases authorizeBallot_cases key reg b with h1 | h2
      · rw [h1.2.1] at hi; exact absurd hi (by simp)
      · rw [hb, h] at h2; exact absurd h2.2.2.1 (by simp)
    rw [if_neg this]

/-- C5, the claim as stated fails: after the voter `"V1"` got a blind signature, a later
request with the same `voterId` and no `blindedTokenHex` is answered with status 400, not
with ALREADY_VOTED. -/
theorem reissue_without_token_is_400 :
    (authorizeBallot CENSUS_KEY [] ⟨.prim (.str "1"), .prim (.str "V1")⟩).issued = true ∧
    (authorizeBallot CENSUS_KEY
        (authorizeBallot CENSUS_KEY [] ⟨.prim (.str "1"), .prim (.str "V1")⟩).votedRegistry
        ⟨.prim .undefined, .prim (.str "V1")⟩).response = .badRequest ∧
    CensusResponse.badRequest.status = 400 ∧ CensusResponse.alreadyVoted.status = 403 := by
  decide

/-- C5, amended. For every `voterId`, over every sequence of authorize-ballot requests from
any registry, at most one request with that `voterId` returns a blind signature; once one
has, every later request with the same `voterId` (after any requests in between) computes no
signature, leaves `votedRegistry` unchanged and is rejected: with ALREADY_VOTED (status 403)
when its `blindedTokenHex` is truthy, and with status 400 when it is missing or falsy. -/
theorem census_issues_at_most_once (key : CensusKey) (v : JsVal) (reg : List JsVal)
    (reqs : List AuthorizeBody) :
    issuedCount key v reg reqs ≤ 1 ∧
    ∀ (body : AuthorizeBody) (between : List AuthorizeBody) (tok : JsVal),
      (authorizeBallot key reg body).issued = true →
      authorizeBallot key
          (censusRegistryAfter key (authorizeBallot key reg body).votedRegistry between)
          ⟨tok, body.voterId⟩ =
        ⟨censusRegistryAfter key (authorizeBallot key reg body).votedRegistry between,
          if tok.truthy then .alreadyVoted else .badRequest, none⟩ := by
  constructor
  · induction reqs generalizing reg with
    | nil => simp [issuedCount]
    | cons b rest ih =>
      simp only [issuedCount]
      by_cases hb : b.voterId = v ∧ (authorizeBallot key reg b).issued = true
      · rw [if_pos hb]
        have := (authorizeBallot_issued_registers key reg b hb.2).2
        rw [hb.1] at this
        rw [issuedCount_of_registered key v rest _ this]
      · rw [if_neg hb]
        have := ih (authorizeBallot key reg b).votedRegistry
        omega
  · intro body between tok hi
    obtain ⟨hv, hr⟩ := authorizeBallot_issued_registers key reg body hi
    exact authorizeBallot_of_registered key _ tok body.voterId hv
      (censusRegistryAfter_keeps_registered key between _ _ hr)

/-- The amended C5 at the default key: voter `"V1"` is issued a signature, another voter
comes, then `"V1"` asks again. -/
theorem census_issues_at_most_once_witness :
    issuedCount CENSUS_KEY (.prim (.str "V1")) []
        [⟨.prim (.str "1"), .prim (.str "V1")⟩, ⟨.prim (.str "2"), .prim (.str "V1")⟩] ≤ 1 ∧
    authorizeBallot CENSUS_KEY
        (censusRegistryAfter CENSUS_KEY
          (authorizeBallot CENSUS_KEY [] ⟨.prim (.str "1"), .prim (.str "V1")⟩).votedRegistry
          [⟨.prim (.str "3"), .prim (.str "V2")⟩])
        ⟨.prim (.str "2"), (AuthorizeBody.mk (.prim (.str "1")) (.prim (.str "V1"))).voterId⟩ =
      ⟨censusRegistryAfter CENSUS_KEY
          (authorizeBallot CENSUS_KEY [] ⟨.prim (.str "1"), .prim (.str "V1")⟩).votedRegistry
          [⟨.prim (.str "3"), .prim (.str "V2")⟩],
        if (JsVal.prim (.str "2")).truthy then .alreadyVoted else .badRequest, none⟩ :=
  ⟨(census_issues_at_most_once CENSUS_KEY (.prim (.str "V1")) []
      [⟨.prim (.str "1"), .prim (.str "V1")⟩, ⟨.prim (.str "2"), .prim (.str "V1")⟩]).1,
   (census_issues_at_most_once CENSUS_KEY (.prim (.str "V1")) []
      [⟨.prim (.str "1"), .prim (.str "V1")⟩, ⟨.prim (.str "2"), .prim (.str "V1")⟩]).2
      ⟨.prim (.str "1"), .prim (.str "V1")⟩ [⟨.prim (.str "3"), .prim (.str "V2")⟩]
      (.prim (.str "2")) (by decide)⟩

/-! ## Theorems: sorting and the Merkle tree -/

theorem char_eq_of_toNat_eq (c d : Char) (h : c.toNat = d.toNat) : c = d := by
  apply Char.ext
  apply UInt32.ext
  exact h

theorem char_toNat_valid (c : Char) :
    c.toNat < 0xD800 ∨ (0xDFFF < c.toNat ∧ c.toNat < 0x110000) := c.valid

/-- Two characters whose code units start two equal lists are equal, and so are the
rests. -/
theorem utf16Units_append_inj (c d : Char) (xs ys : List Nat)
    (h : utf16Units c ++ xs = utf16Units d ++ ys) : c = d ∧ xs = ys := by
  have hc := char_toNat_valid c
  have hd := char_toNat_valid d
  unfold utf16Units at h
  by_cases h1 : c.toNat < 0x10000 <;> by_cases h2 : d.toNat < 0x10000
  · rw [if_pos h1, if_pos h2] at h
    simp only [List.singleton_append, List.cons.injEq] at h
    exact ⟨char_eq_of_toNat_eq c d h.1, h.2⟩
  · rw [if_pos h1, if_neg h2] at h
    simp only [List.singleton_append, List.cons_append, List.nil_append, List.cons.injEq] at h
    omega
  · rw [if_neg h1, if_pos h2] at h
    simp only [List.singleton_append, List.cons_append, List.nil_append, List.cons.injEq] at h
    omega
  · rw [if_neg h1, if_neg h2] at h
    simp only [List.cons_append, List.nil_append, List.cons.injEq] at h
    refine ⟨char_eq_of_toNat_eq c d ?_, h.2.2⟩
    omega

theorem utf16Units_ne_nil (c : Char) : utf16Units c ≠ [] := by
  unfold utf16Units; split <;> simp

theorem flatMap_utf16Units_injective :
    ∀ (l1 l2 : List Char), l1.flatMap utf16Units = l2.flatMap utf16Units → l1 = l2 := by
  intro l1
  induction l1 with
  | nil =>
    intro l2 h
    cases l2 with
    | nil => rfl
    | cons d ds =>
      simp only [List.flatMap_nil, List.flatMap_cons] at h
      have := utf16Units_ne_nil d
      cases hu : utf16Units d with
      | nil => exact absurd hu this
      | cons a as => rw [hu] at h; simp at h
  | cons c cs ih =>
    intro l2 h
    cases l2 with
    | nil =>
      simp only [List.flatMap_nil, List.flatMap_cons] at h
      have := utf16Units_ne_nil c
      cases hu : utf16Units c with
      | nil => exact absurd hu this
      | cons a as => rw [hu] at h; simp at h
    | cons d ds =>
      simp only [List.flatMap_cons] at h
      obtain ⟨h1, h2⟩ := utf16Units_append_inj c d _ _ h
      rw [h1, ih ds h2]

/-- Strings with the same code units are equal. -/
theorem codeUnits_injective (a b : String) (h : codeUnits a = codeUnits b) : a = b := by
  unfold codeUnits at h
  have := flatMap_utf16Units_injective _ _ h
  exact String.ext this

theorem jsStringLe_total : IsTotal String jsStringLe :=
  ⟨fun a b => le_total (codeUnits a) (codeUnits b)⟩

theorem jsStringLe_trans : IsTrans String jsStringLe :=
  ⟨fun _ _ _ h1 h2 => le_trans h1 h2⟩

theorem jsStringLe_antisymm : IsAntisymm String jsStringLe :=
  ⟨fun a b h1 h2 => codeUnits_injective a b (le_antisymm h1 h2)⟩

theorem jsSort_perm (l : List String) : (jsSort l).Perm l :=
  List.perm_insertionSort jsStringLe l

theorem jsSort_sorted (l : List String) : (jsSort l).Sorted jsStringLe := by
  haveI := jsStringLe_total
  haveI := jsStringLe_trans
  exact List.sorted_insertionSort jsStringLe l

theorem jsSort_length (l : List String) : (jsSort l).length = l.length :=
  (jsSort_perm l).length_eq

/-- Sorting forgets the order of the input. -/
theorem jsSort_eq_of_perm (l1 l2 : List String) (h : l1.Perm l2) : jsSort l1 = jsSort l2 := by
  haveI := jsStringLe_antisymm
  exact List.eq_of_perm_of_sorted (((jsSort_perm l1).trans h).trans (jsSort_perm l2).symm)
    (jsSort_sorted l1) (jsSort_sorted l2)

/-- Sorting a sorted array changes nothing. -/
theorem jsSort_jsSort (l : List String) : jsSort (jsSort l) = jsSort l :=
  jsSort_eq_of_perm _ _ (jsSort_perm l)

/-- Lists that are permutations of each other give the same tree. -/
theorem buildMerkleTree_eq_of_perm (leaves permuted : List String)
    (h : permuted.Perm leaves) : buildMerkleTree permuted = buildMerkleTree leaves := by
  unfold buildMerkleTree
  rw [h.length_eq, jsSort_eq_of_perm _ _ h]

/-- C9. `buildMerkleTree` is invariant under permutation of its input: for a list of leaf
hashes and any permutation of it, the whole results are equal, that is the root, the sorted
leaves and every level of the tree. -/
theorem buildMerkleTree_perm_invariant (leaves permuted : List String)
    (h : permuted.Perm leaves) :
    buildMerkleTree permuted = buildMerkleTree leaves ∧
    (buildMerkleTree permuted).root = (buildMerkleTree leaves).root ∧
    (buildMerkleTree permuted).leaves = (buildMerkleTree leaves).leaves ∧
    (buildMerkleTree permuted).tree = (buildMerkleTree leaves).tree := by
  rw [buildMerkleTree_eq_of_perm leaves permuted h]
  exact ⟨rfl, rfl, rfl, rfl⟩

/-- The invariance of C9 on three leaves given in two orders. -/
theorem buildMerkleTree_perm_invariant_witness :
    buildMerkleTree ["c", "a", "b"] = buildMerkleTree ["a", "b", "c"] ∧
    (buildMerkleTree ["c", "a", "b"]).root = (buildMerkleTree ["a", "b", "c"]).root ∧
    (buildMerkleTree ["c", "a", "b"]).leaves = (buildMerkleTree ["a", "b", "c"]).leaves ∧
    (buildMerkleTree ["c", "a", "b"]).tree = (buildMerkleTree ["a", "b", "c"]).tree :=
  buildMerkleTree_perm_invariant ["a", "b", "c"] ["c", "a", "b"] (by decide)

/-- The digest has 64 characters. -/
theorem sha256_length (data : String) : (sha256 data).length = 64 := by
  unfold sha256
  simp [String.length, hex8]

theorem string_append_inj (a b c d : String) (h : a ++ b = c ++ d)
    (hl : a.length = c.length) : a = c ∧ b = d := by
  have h1 : a.data ++ b.data = c.data ++ d.data := by
    have := congrArg String.data h
    simpa using this
  have h2 := List.append_inj h1 hl
  exact ⟨String.ext h2.1, String.ext h2.2⟩

theorem string_length_append (a b : String) : (a ++ b).length = a.length + b.length :=
  String.length_append a b

theorem nextLevel_eq_map (l : List String) : nextLevel l = (pairInputs l).map sha256 := by
  induction l using pairInputs.induct with
  | case1 => rfl
  | case2 a => rfl
  | case3 a b rest ih => simp [nextLevel, pairInputs, ih]

theorem pairInputs_length (l : List String) : (pairInputs l).length = (l.length + 1) / 2 := by
  induction l using pairInputs.induct with
  | case1 => rfl
  | case2 a => simp [pairInputs]
  | case3 a b rest ih =>
    simp only [pairInputs, List.length_cons, ih]
    omega

theorem nextLevel_length (l : List String) : (nextLevel l).length = (l.length + 1) / 2 := by
  rw [nextLevel_eq_map, List.length_map, pairInputs_length]

theorem nextLevel_entry_length (l : List String) : ∀ a ∈ nextLevel l, a.length = 64 := by
  intro a ha
  rw [nextLevel_eq_map] at ha
  obtain ⟨x, _, hx⟩ := List.mem_map.mp ha
  rw [← hx]; exact sha256_length x

/-- Levels whose entries all have one length are determined by what they feed the hash. -/
theorem pairInputs_injective (n : Nat) :
    ∀ (A B : List String), A.length = B.length → (∀ a ∈ A, a.length = n) →
      (∀ b ∈ B, b.length = n) → pairInputs A = pairInputs B → A = B
  | [], [], _, _, _, _ => rfl
  | [], _ :: _, hl, _, _, _ => by simp at hl
  | _ :: _, [], hl, _, _, _ => by simp at hl
  | [a], [b], _, hA, hB, h => by
    simp only [pairInputs, List.cons.injEq, and_true] at h
    have h1 := string_append_inj a a b b h (by rw [hA a (by simp), hB b (by simp)])
    rw [h1.1]
  | [_], _ :: _ :: _, hl, _, _, _ => by simp at hl
  | _ :: _ :: _, [_], hl, _, _, _ => by simp at hl
  | a1 :: a2 :: A, b1 :: b2 :: B, hl, hA, hB, h => by
    simp only [pairInputs, List.cons.injEq] at h
    have h1 := string_append_inj a1 a2 b1 b2 h.1 (by rw [hA a1 (by simp), hB b1 (by simp)])
    have h2 := pairInputs_injective n A B (by simpa using hl)
      (fun a ha => hA a (by simp [ha])) (fun b hb => hB b (by simp [hb])) h.2
    rw [h1.1, h1.2, h2]

/-- When all entries of `A` have length `n`, every entry of `B` has length `n` or is `z`,
and both levels feed the hash the same strings, then `z`, if it occurs in `B`, has length
`n` too. -/
theorem pairInputs_odd_one_out (n : Nat) (z : String) :
    ∀ (A B : List String), A.length = B.length → (∀ a ∈ A, a.length = n) →
      (∀ b ∈ B, b.length = n ∨ b = z) → pairInputs A = pairInputs B → z ∈ B → z.length = n
  | [], [], _, _, _, _, hz => by simp at hz
  | [], _ :: _, hl, _, _, _, _ => by simp at hl
  | _ :: _, [], hl, _, _, _, _ => by simp at hl
  | [a], [b], _, hA, _, h, hz => by
    simp only [pairInputs, List.cons.injEq, and_true] at h
    have hzb : z = b := by simpa using hz
    have h1 := congrArg String.length h
    rw [string_length_append, string_length_append, hA a (by simp), ← hzb] at h1
    omega
  | [_], _ :: _ :: _, hl, _, _, _, _ => by simp at hl
  | _ :: _ :: _, [_], hl, _, _, _, _ => by simp at hl
  | a1 :: a2 :: A, b1 :: b2 :: B, hl, hA, hB, h, hz => by
    simp only [pairInputs, List.cons.injEq] at h
    have h1 := congrArg String.length h.1
    rw [string_length_append, string_length_append, hA a1 (by simp), hA a2 (by simp)] at h1
    have hb1 := hB b1 (by simp)
    have hb2 := hB b2 (by simp)
    rcases List.mem_cons.mp hz with hz1 | hz2
    · rcases hb2 with hb2 | hb2
      · rw [← hz1, hb2] at h1; omega
      · rw [← hz1, hb2] at h1; omega
    · rcases List.mem_cons.mp hz2 with hz3 | hz4
      · rcases hb1 with hb1 | hb1
        · rw [← hz3, hb1] at h1; omega
        · rw [← hz3, hb1] at h1; omega
      · exact pairInputs_odd_one_out n z A B (by simpa using hl)
          (fun a ha => hA a (by simp [ha])) (fun b hb => hB b (by simp [hb])) h.2 hz4

theorem map_eq_of_no_collision (f : String → String) :
    ∀ (l1 l2 : List String), l1.map f = l2.map f →
      (∀ x ∈ l1, ∀ y ∈ l2, f x = f y → x = y) → l1 = l2
  | [], [], _, _ => rfl
  | [], _ :: _, h, _ => by simp at h
  | _ :: _, [], h, _ => by simp at h
  | x :: xs, y :: ys, h, hinj => by
    simp only [List.map_cons, List.cons.injEq] at h
    have h1 := hinj x (by simp) y (by simp) h.1
    have h2 := map_eq_of_no_collision f xs ys h.2
      (fun a ha b hb => hinj a (by simp [ha]) b (by simp [hb]))
    rw [h1, h2]

theorem eq_of_head_eq_of_length_one (A B : List String) (hA : A.length = 1)
    (hB : B.length = 1) (h : A.head? = B.head?) : A = B := by
  match A, B with
  | [a], [b] => simp at h; rw [h]
  | [], _ => simp at hA
  | _ :: _ :: _, _ => simp at hA
  | [_], [] => simp at hB
  | [_], _ :: _ :: _ => simp at hB

theorem rootFrom_of_short (fuel : Nat) (cur : List String) (h : ¬ cur.length > 1) :
    rootFrom fuel cur = cur.head? := by
  unfold rootFrom
  cases fuel with
  | zero => simp [merkleLevels]
  | succ k => simp [merkleLevels, h]

theorem rootFrom_step (fuel : Nat) (cur : List String) (h : cur.length > 1) :
    rootFrom (fuel + 1) cur = rootFrom fuel (nextLevel cur) := by
  unfold rootFrom
  simp [merkleLevels, h, List.getLast?_cons_cons]

theorem merkleInputs_step (fuel : Nat) (cur : List String) (h : cur.length > 1) :
    merkleInputs (fuel + 1) cur = pairInputs cur ++ merkleInputs fuel (nextLevel cur) := by
  simp [merkleInputs, h]

/-- Two levels of the same length above one that lead to the same root feed the hash the
same strings, when no two different strings hashed on the way collide. -/
theorem pairInputs_eq_of_rootFrom_eq (fuel : Nat) :
    ∀ (A B : List String), A.length = B.length → A.length ≤ fuel + 1 → 1 < A.length →
      (∀ x ∈ merkleInputs (fuel + 1) A, ∀ y ∈ merkleInputs (fuel + 1) B,
        sha256 x = sha256 y → x = y) →
      rootFrom (fuel + 1) A = rootFrom (fuel + 1) B → pairInputs A = pairInputs B := by
  induction fuel with
  | zero => intro A B _ h1 h2; omega
  | succ k ih =>
    intro A B hl hf h1 hnc hroot
    have hB1 : 1 < B.length := by omega
    rw [rootFrom_step _ _ h1, rootFrom_step _ _ hB1] at hroot
    rw [merkleInputs_step _ _ h1, merkleInputs_step _ _ hB1] at hnc
    have hnl : (nextLevel A).length = (nextLevel B).length := by
      rw [nextLevel_length, nextLevel_length, hl]
    have hnext : nextLevel A = nextLevel B := by
      by_cases h2 : 1 < (nextLevel A).length
      · have hp := ih (nextLevel A) (nextLevel B) hnl
          (by rw [nextLevel_length]; omega) h2
          (fun x hx y hy => hnc x (List.mem_append_right _ hx) y (List.mem_append_right _ hy))
          hroot
        exact pairInputs_injective 64 _ _ hnl (nextLevel_entry_length A)
          (nextLevel_entry_length B) hp
      · rw [rootFrom_of_short _ _ h2, rootFrom_of_short _ _ (by omega)] at hroot
        have hA1 : (nextLevel A).length = 1 := by
          rw [nextLevel_length] at h2 ⊢; omega
        exact eq_of_head_eq_of_length_one _ _ hA1 (by omega) hroot
    rw [nextLevel_eq_map, nextLevel_eq_map] at hnext
    exact map_eq_of_no_collision sha256 _ _ hnext
      (fun x hx y hy => hnc x (List.mem_append_left _ hx) y (List.mem_append_left _ hy))

/-! ## Theorems: the fuel of the loops is never used up -/

theorem natAbs_tmod_lt (a m : Int) (h : m ≠ 0) : (Int.tmod a m).natAbs < m.natAbs := by
  have hpos : 0 < m.natAbs := Int.natAbs_pos.mpr h
  cases a with
  | ofNat a =>
    cases m with
    | ofNat m =>
      show ((a % m : Nat) : Int).natAbs < _
      simp only [Int.natAbs_ofNat]
      exact Nat.mod_lt _ (by simpa using hpos)
    | negSucc m =>
      show ((a % (m + 1) : Nat) : Int).natAbs < _
      simp only [Int.natAbs_ofNat, Int.natAbs_negSucc]
      exact Nat.mod_lt _ (by omega)
  | negSucc a =>
    cases m with
    | ofNat m =>
      show (-(((a + 1) % m : Nat) : Int)).natAbs < _
      simp only [Int.natAbs_neg, Int.natAbs_ofNat]
      exact Nat.mod_lt _ (by simpa using hpos)
    | negSucc m =>
      show (-(((a + 1) % (m + 1) : Nat) : Int)).natAbs < _
      simp only [Int.natAbs_neg, Int.natAbs_ofNat, Int.natAbs_negSucc]
      exact Nat.mod_lt _ (by omega)

theorem modInverseLoop_zero_divisor (fuel : Nat) (a x y : Int) :
    modInverseLoop fuel a 0 x y = if a > 1 then none else some x := by
  cases fuel <;> simp [modInverseLoop]

/-- The loop of `modInverse` gives the same result with any fuel from `|m|` on: the fuel
`modInverse` passes is never used up. -/
theorem modInverseLoop_fuel (fuel : Nat) :
    ∀ (extra : Nat) (a m x y : Int), m.natAbs ≤ fuel →
      modInverseLoop (fuel + extra) a m x y = modInverseLoop fuel a m x y := by
  induction fuel with
  | zero =>
    intro extra a m x y h
    have hm : m = 0 := Int.natAbs_eq_zero.mp (by omega)
    subst hm
    rw [modInverseLoop_zero_divisor, modInverseLoop_zero_divisor]
  | succ k ih =>
    intro extra a m x y h
    rw [show k + 1 + extra = (k + extra) + 1 by omega]
    by_cases hm : m = 0
    · subst hm
      rw [modInverseLoop_zero_divisor, modInverseLoop_zero_divisor]
    · conv_lhs => rw [modInverseLoop]
      conv_rhs => rw [modInverseLoop]
      by_cases ha : a > 1
      · simp only [ha, hm, if_true, if_false]
        exact ih extra _ _ _ _ (by have := natAbs_tmod_lt a m hm; omega)
      · simp [ha]

/-- The loop of `modPow` gives the same result with any fuel from `exp` on. -/
theorem modPowLoop_fuel (fuel : Nat) :
    ∀ (extra : Nat) (result base exp mod : Int), exp.toNat ≤ fuel →
      modPowLoop (fuel + extra) result base exp mod = modPowLoop fuel result base exp mod := by
  induction fuel with
  | zero =>
    intro extra result base exp mod h
    have he : ¬ exp > 0 := by omega
    cases extra with
    | zero => rfl
    | succ n => simp [modPowLoop, he]
  | succ k ih =>
    intro extra result base exp mod h
    rw [show k + 1 + extra = (k + extra) + 1 by omega]
    simp only [modPowLoop]
    by_cases he : exp > 0
    · simp only [he, if_true]
      apply ih
      have h1 : Int.tdiv exp 2 = exp / 2 := Int.tdiv_eq_ediv (by omega) (by omega)
      rw [h1]
      omega
    · simp [he]

/-- The levels of the tree are the same with any fuel from the number of leaves on. -/
theorem merkleLevels_fuel (fuel : Nat) :
    ∀ (extra : Nat) (cur : List String), cur.length ≤ fuel →
      merkleLevels (fuel + extra) cur = merkleLevels fuel cur := by
  induction fuel with
  | zero =>
    intro extra cur h
    cases extra with
    | zero => rfl
    | succ n =>
      have : ¬ cur.length > 1 := by omega
      simp [merkleLevels, this]
  | succ k ih =>
    intro extra cur h
    rw [show k + 1 + extra = (k + extra) + 1 by omega]
    simp only [merkleLevels]
    by_cases h1 : cur.length > 1
    · simp only [h1, if_true]
      rw [ih extra _ (by rw [nextLevel_length]; omega)]
    · simp [h1]

theorem merkleLevels_last (fuel : Nat) :
    ∀ cur : List String, cur ≠ [] → cur.length ≤ fuel →
      ∃ r, (cur :: merkleLevels fuel cur).getLast? = some [r] := by
  induction fuel with
  | zero =>
    intro cur hne h
    exact absurd (List.length_eq_zero.mp (by omega)) hne
  | succ k ih =>
    intro cur hne h
    by_cases h1 : cur.length > 1
    · have hn : nextLevel cur ≠ [] := by
        intro h0
        have := congrArg List.length h0
        rw [nextLevel_length] at this
        simp at this
        omega
      obtain ⟨r, hr⟩ := ih (nextLevel cur) hn (by rw [nextLevel_length]; omega)
      refine ⟨r, ?_⟩
      simp only [merkleLevels, h1, if_true, List.getLast?_cons_cons]
      exact hr
    · match cur, hne with
      | [a], _ => exact ⟨a, by simp [merkleLevels]⟩
      | _ :: _ :: _, _ => simp at h1

/-- For a non-empty list of leaves the loop of `buildMerkleTree` ends with a level of one
node, and that node is the root returned. -/
theorem buildMerkleTree_last_level (leaves : List String) (h : leaves ≠ []) :
    ∃ r, (buildMerkleTree leaves).tree.getLast? = some [r] ∧
      (buildMerkleTree leaves).root = some r := by
  have hs : jsSort leaves ≠ [] := by
    intro h0
    have := congrArg List.length h0
    rw [jsSort_length] at this
    exact h (List.length_eq_zero.mp this)
  obtain ⟨r, hr⟩ := merkleLevels_last (jsSort leaves).length (jsSort leaves) hs (le_refl _)
  refine ⟨r, ?_, ?_⟩
  · unfold buildMerkleTree
    rw [if_neg (fun h0 => h (List.length_eq_zero.mp h0))]
    exact hr
  · unfold buildMerkleTree
    rw [if_neg (fun h0 => h (List.length_eq_zero.mp h0))]
    simp only [hr]
    rfl

theorem buildMerkleTree_root (leaves : List String) (h : leaves ≠ []) :
    (buildMerkleTree leaves).root = rootFrom (jsSort leaves).length (jsSort leaves) := by
  unfold buildMerkleTree rootFrom
  have : ¬ leaves.length = 0 := by
    intro h0; exact h (List.length_eq_zero.mp h0)
  rw [if_neg this]

theorem buildMerkleTree_leaves (leaves : List String) :
    (buildMerkleTree leaves).leaves = jsSort leaves := by
  unfold buildMerkleTree
  split
  · rename_i h
    have := List.length_eq_zero.mp h
    subst this
    rfl
  · rfl

/-- Rebuilding the tree from the published sorted leaves gives the published tree. -/
theorem buildMerkleTree_of_leaves (leaves : List String) :
    buildMerkleTree (buildMerkleTree leaves).leaves = buildMerkleTree leaves := by
  rw [buildMerkleTree_leaves]
  exact buildMerkleTree_eq_of_perm leaves (jsSort leaves) (jsSort_perm leaves)

theorem hashedStrings_jsSort (leaves : List String) :
    hashedStrings (jsSort leaves) = hashedStrings leaves := by
  unfold hashedStrings
  rw [jsSort_jsSort]

/-- Replacing one entry of the sorted leaves by a different string changes the root, when the
leaves have 64 characters each and `sha256` has no collision on the strings hashed for the
two trees. -/
theorem root_changes_when_leaf_replaced (hashes : List String) (i : Nat) (z : String)
    (h64 : ∀ a ∈ hashes, a.length = 64) (hi : i < (jsSort hashes).length)
    (hz : (jsSort hashes)[i] ≠ z)
    (hnc : NoCollision (jsSort hashes) ((jsSort hashes).set i z)) :
    (buildMerkleTree ((jsSort hashes).set i z)).root ≠ (buildMerkleTree hashes).root := by
  have hne : hashes ≠ [] := by
    intro h; subst h; simp [jsSort] at hi
  have hne2 : (jsSort hashes).set i z ≠ [] := by
    intro h
    have := congrArg List.length h
    rw [List.length_set] at this
    simp only [List.length_nil] at this
    omega
  rw [buildMerkleTree_root _ hne, buildMerkleTree_root _ hne2]
  intro hroot
  have hlen : (jsSort ((jsSort hashes).set i z)).length = (jsSort hashes).length := by
    rw [jsSort_length, List.length_set]
  have hA64 : ∀ a ∈ jsSort hashes, a.length = 64 :=
    fun a ha => h64 a ((jsSort_perm hashes).mem_iff.mp ha)
  have hBz : ∀ b ∈ jsSort ((jsSort hashes).set i z), b.length = 64 ∨ b = z := by
    intro b hb
    have hb2 := (jsSort_perm _).mem_iff.mp hb
    rcases List.mem_or_eq_of_mem_set hb2 with h1 | h1
    · exact Or.inl (hA64 b h1)
    · exact Or.inr h1
  have hzB : z ∈ jsSort ((jsSort hashes).set i z) :=
    (jsSort_perm _).mem_iff.mpr (List.mem_set _ _ hi _)
  have hEq : jsSort hashes = jsSort ((jsSort hashes).set i z) := by
    by_cases h1 : 1 < (jsSort hashes).length
    · obtain ⟨k, hk⟩ : ∃ k, (jsSort hashes).length = k + 1 := ⟨(jsSort hashes).length - 1, by omega⟩
      rw [hlen, hk] at hroot
      have hnc2 : ∀ x ∈ merkleInputs (k + 1) (jsSort hashes),
          ∀ y ∈ merkleInputs (k + 1) (jsSort ((jsSort hashes).set i z)),
          sha256 x = sha256 y → x = y := by
        intro x hx y hy
        apply hnc x _ y _
        · rw [hashedStrings_jsSort]; unfold hashedStrings; rw [hk]; exact hx
        · unfold hashedStrings; rw [hlen, hk]; exact hy
      have hp := pairInputs_eq_of_rootFrom_eq k _ _ hlen.symm (by omega) h1 hnc2 hroot.symm
      have hz64 := pairInputs_odd_one_out 64 z _ _ hlen.symm hA64 hBz hp hzB
      refine pairInputs_injective 64 _ _ hlen.symm hA64 ?_ hp
      intro b hb
      rcases hBz b hb with h2 | h2
      · exact h2
      · rw [h2]; exact hz64
    · rw [rootFrom_of_short _ _ (by omega), rootFrom_of_short _ _ h1] at hroot
      exact eq_of_head_eq_of_length_one _ _ (by omega) (by omega) hroot.symm
  have hperm : (jsSort hashes).Perm ((jsSort hashes).set i z) := by
    have := jsSort_perm ((jsSort hashes).set i z)
    rw [← hEq] at this
    exact this
  have hcount := hperm.count_eq z
  rw [List.count_set z z _ i hi] at hcount
  have h1 : ((jsSort hashes)[i] == z) = false := by simpa using hz
  simp only [h1, beq_self_eq_true, if_true] at hcount
  simp at hcount

/-! ## Theorems: the tally -/

theorem allNumbers_cons (kv : String × TallyVal) (o : JsObject) :
    allNumbers (kv :: o) = (kv.2.isNumber && allNumbers o) := by
  simp [allNumbers]

theorem allNumbers_upsert (o : JsObject) (key : String) (m : Nat)
    (h : allNumbers o = true) : allNumbers (objectUpsert o key (.num m)) = true := by
  induction o with
  | nil => simp [objectUpsert, allNumbers, TallyVal.isNumber]
  | cons kv rest ih =>
    obtain ⟨k, w⟩ := kv
    rw [allNumbers_cons] at h
    simp only [Bool.and_eq_true] at h
    unfold objectUpsert
    split
    · rw [allNumbers_cons]; simp [h.2, TallyVal.isNumber]
    · rw [allNumbers_cons]; simp [h.1, ih h.2]

/-- Writing a number to a property changes the sum by the difference to the number it
held. -/
theorem numberSum_upsert (o : JsObject) (key : String) (m : Nat) :
    numberSum (objectUpsert o key (.num m)) + ((o.lookup key).map TallyVal.number).getD 0 =
      numberSum o + m := by
  induction o with
  | nil => simp [objectUpsert, numberSum, List.lookup, TallyVal.number]
  | cons kv rest ih =>
    obtain ⟨k, w⟩ := kv
    unfold objectUpsert
    by_cases hk : k = key
    · subst hk
      rw [if_pos rfl]
      simp [numberSum, List.lookup, TallyVal.number]
      omega
    · rw [if_neg hk]
      have hk2 : (key == k) = false := by
        simp only [beq_eq_false_iff_ne, ne_eq]
        exact fun h => hk h.symm
      simp only [numberSum, List.lookup, hk2]
      omega

theorem lookup_num_of_allNumbers (o : JsObject) (key : String) (h : allNumbers o = true) :
    o.lookup key = none ∨ ∃ n, o.lookup key = some (.num n) := by
  induction o with
  | nil => left; rfl
  | cons kv rest ih =>
    obtain ⟨k, w⟩ := kv
    rw [allNumbers_cons] at h
    simp only [Bool.and_eq_true] at h
    simp only [List.lookup]
    cases hk : (key == k) with
    | true =>
      cases w with
      | num n => right; exact ⟨n, rfl⟩
      | str s => simp [TallyVal.isNumber] at h
      | float x => simp [TallyVal.isNumber] at h
    | false => exact ih h.2

theorem inheritedText_proto : inheritedText "__proto__" = some "[object Object]" := by
  decide

/-- One step of the tally loop for an option that is no `Object.prototype` key: the values
stay numbers and their sum grows by one. -/
theorem tally_step (o : JsObject) (key : String) (h : allNumbers o = true)
    (hsafe : isPrototypeKey key = false) :
    allNumbers (objectSet o key (tallyIncrement o key)) = true ∧
      numberSum (objectSet o key (tallyIncrement o key)) = numberSum o + 1 := by
  have hnone : inheritedText key = none := by
    unfold isPrototypeKey at hsafe
    cases hi : inheritedText key with
    | none => rfl
    | some t => rw [hi] at hsafe; simp at hsafe
  have hkey : key ≠ "__proto__" := by
    intro hk; rw [hk, inheritedText_proto] at hnone; simp at hnone
  unfold objectSet
  rw [if_neg hkey]
  rcases lookup_num_of_allNumbers o key h with hl | ⟨n, hl⟩
  · have hinc : tallyIncrement o key = .num 1 := by
      simp [tallyIncrement, hl, hnone]
    rw [hinc]
    refine ⟨allNumbers_upsert o key 1 h, ?_⟩
    have := numberSum_upsert o key 1
    rw [hl] at this
    simpa using this
  · have hinc : tallyIncrement o key = .num (n + 1) := by
      simp [tallyIncrement, hl]
    rw [hinc]
    refine ⟨allNumbers_upsert o key (n + 1) h, ?_⟩
    have := numberSum_upsert o key (n + 1)
    rw [hl] at this
    simp only [Option.map_some', Option.getD_some, TallyVal.number] at this
    omega

theorem tally_foldl (votes : List VoteRecord) :
    ∀ (o : JsObject), allNumbers o = true →
      (∀ v ∈ votes, isPrototypeKey v.eleccion.toStr = false) →
      allNumbers (votes.foldl (fun tally vote =>
          objectSet tally vote.eleccion.toStr (tallyIncrement tally vote.eleccion.toStr)) o)
        = true ∧
      numberSum (votes.foldl (fun tally vote =>
          objectSet tally vote.eleccion.toStr (tallyIncrement tally vote.eleccion.toStr)) o)
        = numberSum o + votes.length := by
  induction votes with
  | nil => intro o h _; exact ⟨h, rfl⟩
  | cons v rest ih =>
    intro o h hsafe
    simp only [List.foldl_cons, List.length_cons]
    obtain ⟨h1, h2⟩ := tally_step o v.eleccion.toStr h (hsafe v (by simp))
    obtain ⟨h3, h4⟩ := ih _ h1 (fun w hw => hsafe w (by simp [hw]))
    exact ⟨h3, by rw [h4, h2]; omega⟩

/-- When no option is an `Object.prototype` key, the tally holds numbers only and they sum to
the number of votes. -/
theorem tallyVotes_numbers (votes : List VoteRecord)
    (hsafe : ∀ v ∈ votes, isPrototypeKey v.eleccion.toStr = false) :
    allNumbers (tallyVotes votes) = true ∧ numberSum (tallyVotes votes) = votes.length := by
  have := tally_foldl votes [] rfl hsafe
  simpa [tallyVotes, numberSum] using this

theorem numberSum_perm (l1 l2 : JsObject) (h : l1.Perm l2) : numberSum l1 = numberSum l2 := by
  induction h with
  | nil => rfl
  | cons x _ ih => simp [numberSum, ih]
  | swap x y l => simp only [numberSum]; omega
  | trans _ _ ih1 ih2 => rw [ih1, ih2]

theorem allNumbers_perm (l1 l2 : JsObject) (h : l1.Perm l2) : allNumbers l1 = allNumbers l2 := by
  unfold allNumbers
  rw [Bool.eq_iff_iff]
  simp only [List.all_eq_true]
  constructor
  · intro h1 x hx; exact h1 x (h.mem_iff.mpr hx)
  · intro h1 x hx; exact h1 x (h.mem_iff.mp hx)

theorem filterMap_index_snd (o : JsObject) :
    (o.filterMap (fun kv => (arrayIndexOf kv.1).map (fun n => (n, kv)))).map Prod.snd =
      o.filter (fun kv => (arrayIndexOf kv.1).isSome) := by
  induction o with
  | nil => rfl
  | cons kv rest ih =>
    cases h : arrayIndexOf kv.1 with
    | none => simp [List.filterMap_cons, List.filter_cons, h, ih]
    | some n => simp [List.filterMap_cons, List.filter_cons, h, ih]

/-- The enumeration order is a rearrangement of the own properties. -/
theorem ownEntries_perm (o : JsObject) : (ownEntries o).Perm o := by
  unfold ownEntries
  have h1 : (((o.filterMap (fun kv => (arrayIndexOf kv.1).map (fun n => (n, kv)))).insertionSort
      (fun a b => a.1 ≤ b.1)).map Prod.snd).Perm
      (o.filter (fun kv => (arrayIndexOf kv.1).isSome)) := by
    rw [← filterMap_index_snd]
    exact (List.perm_insertionSort _ _).map _
  have h2 : o.filter (fun kv => (arrayIndexOf kv.1).isNone) =
      o.filter (fun kv => !(arrayIndexOf kv.1).isSome) := by
    congr 1
    funext kv
    cases arrayIndexOf kv.1 <;> rfl
  rw [h2]
  exact (h1.append_right _).trans (List.filter_append_perm _ o)

theorem foldl_jsAdd_numbers (l : JsObject) :
    ∀ c : Nat, allNumbers l = true →
      (l.map Prod.snd).foldl jsAdd (.num c) = .num (c + numberSum l) := by
  induction l with
  | nil => intro c _; rfl
  | cons kv rest ih =>
    intro c h
    obtain ⟨k, w⟩ := kv
    rw [allNumbers_cons] at h
    simp only [Bool.and_eq_true] at h
    cases w with
    | num n =>
      simp only [List.map_cons, List.foldl_cons, jsAdd, numberSum, TallyVal.number]
      rw [ih (c + n) h.2]
      congr 1
      omega
    | str s => simp [TallyVal.isNumber] at h
    | float x => simp [TallyVal.isNumber] at h

/-- When the results hold numbers only, `tallySum` is their sum. -/
theorem tallySum_of_allNumbers (o : JsObject) (h : allNumbers o = true) :
    tallySum o = .num (numberSum o) := by
  unfold tallySum objectValues
  have hp := ownEntries_perm o
  rw [foldl_jsAdd_numbers _ 0 (by rw [allNumbers_perm _ _ hp]; exact h),
    numberSum_perm _ _ hp]
  simp

/-! ## Theorems: sums of Numbers below `2 ^ 53` -/

/-- The loop of `log2Loop` with enough fuel gives the binary logarithm. -/
theorem log2Loop_spec (fuel : Nat) : ∀ n : Nat, 0 < n → n ≤ fuel →
    2 ^ log2Loop fuel n ≤ n ∧ n < 2 ^ (log2Loop fuel n + 1) := by
  induction fuel with
  | zero => intro n h0 h1; omega
  | succ fuel ih =>
    intro n h0 h1
    unfold log2Loop
    by_cases h2 : n < 2
    · rw [if_pos h2]
      simp only [pow_zero, zero_add, pow_one]
      omega
    · rw [if_neg h2]
      obtain ⟨i1, i2⟩ := ih (n / 2) (by omega) (by omega)
      rw [pow_succ, pow_succ]
      constructor <;> omega

/-- The value of `floorLog2` is not above the logarithm: `2 ^ floorLog2 p q ≤ p / q`. -/
theorem floorLog2_le (p q : Nat) (hp : 0 < p) (hq : 0 < q) :
    if 0 ≤ floorLog2 p q then q * 2 ^ (floorLog2 p q).toNat ≤ p
    else q ≤ p * 2 ^ (-(floorLog2 p q)).toNat := by
  have h1 : 2 ^ log2Loop p p ≤ p := (log2Loop_spec p p hp (le_refl _)).1
  have h2 : q < 2 ^ (log2Loop q q + 1) := (log2Loop_spec q q hq (le_refl _)).2
  unfold floorLog2
  simp only
  generalize log2Loop p p = lp at h1 ⊢
  generalize log2Loop q q = lq at h2 ⊢
  rcases Nat.le_total lq lp with h | h
  · obtain ⟨d, rfl⟩ := Nat.exists_eq_add_of_le h
    have e1 : ((lq + d : Nat) : Int) - (lq : Int) = (d : Int) := by push_cast; ring
    rw [e1]
    simp only [Int.natCast_nonneg, if_true, Int.toNat_ofNat]
    by_cases hc : q * 2 ^ d ≤ p
    · simp only [hc, decide_True, if_true, Int.natCast_nonneg, Int.toNat_ofNat]
    · simp only [hc, decide_False, Bool.false_eq_true, if_false]
      rcases Nat.eq_zero_or_pos d with hd | hd
      · subst hd
        have e2 : ¬ ((0 : Int) ≤ ((0 : Nat) : Int) - 1) := by omega
        rw [if_neg e2]
        have e3 : (-(((0 : Nat) : Int) - 1)).toNat = 1 := by decide
        rw [e3]
        have : 2 ^ (lq + 1) = 2 * 2 ^ lq := by ring
        simp only [Nat.add_zero] at h1
        omega
      · obtain ⟨c, rfl⟩ := Nat.exists_eq_add_of_le hd
        have e2 : (0 : Int) ≤ ((1 + c : Nat) : Int) - 1 := by omega
        rw [if_pos e2]
        have e3 : (((1 + c : Nat) : Int) - 1).toNat = c := by omega
        rw [e3]
        have e4 : 2 ^ (lq + (1 + c)) = 2 ^ (lq + 1) * 2 ^ c := by ring
        rw [e4] at h1
        have e5 : q * 2 ^ c ≤ 2 ^ (lq + 1) * 2 ^ c := Nat.mul_le_mul_right _ (by omega)
        omega
  · rcases Nat.eq_zero_or_pos (lq - lp) with hz | hpos
    · have : lq = lp := by omega
      subst this
      have e1 : ((lq : Nat) : Int) - (lq : Int) = ((0 : Nat) : Int) := by simp
      rw [e1]
      simp only [Int.natCast_nonneg, if_true, Int.toNat_ofNat, pow_zero, Nat.mul_one]
      by_cases hc : q ≤ p
      · simp only [hc, decide_True, if_true, Int.natCast_nonneg, Int.toNat_ofNat, pow_zero,
          Nat.mul_one]
      · simp only [hc, decide_False, Bool.false_eq_true, if_false]
        have e2 : ¬ ((0 : Int) ≤ ((0 : Nat) : Int) - 1) := by omega
        rw [if_neg e2]
        have e3 : (-(((0 : Nat) : Int) - 1)).toNat = 1 := by decide
        rw [e3]
        have : 2 ^ (lq + 1) = 2 * 2 ^ lq := by ring
        omega
    · obtain ⟨d, rfl⟩ := Nat.exists_eq_add_of_le h
      have hd : 0 < d := by omega
      have e1 : ¬ ((0 : Int) ≤ (lp : Int) - ((lp + d : Nat) : Int)) := by push_cast; omega
      have e2 : (-((lp : Int) - ((lp + d : Nat) : Int))).toNat = d := by push_cast; omega
      simp only [e1, if_false, e2]
      by_cases hc : lp + d ≤ 0
      · omega
      · by_cases hck : q ≤ p * 2 ^ d
        · simp only [hck, decide_True, if_true, e1, if_false, e2]
        · simp only [hck, decide_False, Bool.false_eq_true, if_false]
          have e3 : ¬ ((0 : Int) ≤ (lp : Int) - ((lp + d : Nat) : Int) - 1) := by
            push_cast; omega
          have e4 : (-((lp : Int) - ((lp + d : Nat) : Int) - 1)).toNat = d + 1 := by
            push_cast; omega
          rw [if_neg e3, e4]
          have e5 : 2 ^ (lp + d + 1) = 2 ^ lp * 2 ^ (d + 1) := by ring
          rw [e5] at h2
          have e6 : 2 ^ lp * 2 ^ (d + 1) ≤ p * 2 ^ (d + 1) := Nat.mul_le_mul_right _ h1
          omega
/-- Rounding does not pass an integer from below. -/
theorem roundHalfEven_le (num den G : Nat) (hden : 0 < den) (h : num ≤ G * den) :
    roundHalfEven num den ≤ G := by
  unfold roundHalfEven
  simp only
  have hq : num / den ≤ G := by
    rw [Nat.div_le_iff_le_mul_add_pred hden, Nat.mul_comm den G]
    omega
  rcases Nat.lt_or_ge (num / den) G with hlt | hge
  · split <;> omega
  · have hqe : num / den = G := by omega
    have hdm := Nat.div_add_mod num den
    have hr : num % den = 0 := by
      rw [hqe, Nat.mul_comm] at hdm
      omega
    rw [hr]
    have e1 : ¬ (den < 2 * 0 ∨ (2 * 0 = den ∧ num / den % 2 = 1)) := by omega
    rw [if_neg e1]
    exact hq

/-- Rounding does not pass an integer from above. -/
theorem roundHalfEven_ge (num den G : Nat) (hden : 0 < den) (h : G * den ≤ num) :
    G ≤ roundHalfEven num den := by
  unfold roundHalfEven
  simp only
  have hq : G ≤ num / den := (Nat.le_div_iff_mul_le hden).mpr h
  split <;> omega

/-- Rounding to a double does not pass an integer below `2 ^ 53` from below, and does not
overflow there. -/
theorem roundToDouble_le (p q U : Nat) (hp : 0 < p) (hq : 0 < q) (h : p ≤ U * q)
    (hU : U < 2 ^ 53) :
    ∃ m e, roundToDouble p q = some (m, e) ∧
      (if 0 ≤ e then m * 2 ^ e.toNat ≤ U else m ≤ U * 2 ^ (-e).toNat) := by
  have hb := floorLog2_le p q hp hq
  have hb53 : floorLog2 p q < 53 := by
    by_contra hcon
    have h0 : (0 : Int) ≤ floorLog2 p q := by omega
    rw [if_pos h0] at hb
    have h1 : 2 ^ 53 ≤ 2 ^ (floorLog2 p q).toNat :=
      Nat.pow_le_pow_right (by norm_num) (by omega)
    have h2 : q * 2 ^ 53 ≤ q * 2 ^ (floorLog2 p q).toNat := Nat.mul_le_mul_left _ h1
    have h3 : U * q < 2 ^ 53 * q := Nat.mul_lt_mul_of_pos_right hU hq
    rw [Nat.mul_comm (2 ^ 53) q] at h3
    omega
  unfold roundToDouble
  simp only
  generalize he : max (floorLog2 p q - 52) (-1074) = e
  have he0 : e ≤ 0 := by omega
  rcases eq_or_lt_of_le he0 with hz | hneg
  · subst hz
    have hm : roundHalfEven p (q * 2 ^ (0 : Int).toNat) ≤ U :=
      roundHalfEven_le _ _ U (by simpa using hq) (by simpa using h)
    simp only [le_refl, if_true]
    have e1 : ¬ (roundHalfEven p (q * 2 ^ (0 : Int).toNat) = 2 ^ 53) := by omega
    rw [if_neg e1, if_neg (by decide)]
    exact ⟨_, _, rfl, by simpa using hm⟩
  · obtain ⟨k, hk⟩ : ∃ k : Nat, e = -((k : Int) + 1) := ⟨(-e - 1).toNat, by omega⟩
    subst hk
    have e0 : ¬ ((0 : Int) ≤ -((k : Int) + 1)) := by omega
    have e1 : (-(-((k : Int) + 1))).toNat = k + 1 := by omega
    simp only [e0, if_false, e1]
    have hm : roundHalfEven (p * 2 ^ (k + 1)) q ≤ U * 2 ^ (k + 1) := by
      apply roundHalfEven_le _ _ _ hq
      have := Nat.mul_le_mul_right (2 ^ (k + 1)) h
      calc p * 2 ^ (k + 1) ≤ U * q * 2 ^ (k + 1) := this
        _ = U * 2 ^ (k + 1) * q := by ring
    by_cases hm53 : roundHalfEven (p * 2 ^ (k + 1)) q = 2 ^ 53
    · rw [if_pos hm53, if_neg (by omega)]
      refine ⟨_, _, rfl, ?_⟩
      rw [hm53] at hm
      have e2 : U * 2 ^ (k + 1) = 2 * (U * 2 ^ k) := by ring
      rcases Nat.eq_zero_or_pos k with hk0 | hkpos
      · subst hk0
        simp only [Nat.zero_add, pow_one, pow_zero, Nat.mul_one] at hm e2
        have e3 : (0 : Int) ≤ -(((0 : Nat) : Int) + 1) + 1 := by decide
        rw [if_pos e3]
        have e4 : (-(((0 : Nat) : Int) + 1) + 1).toNat = 0 := by decide
        rw [e4]
        omega
      · have e3 : ¬ ((0 : Int) ≤ -((k : Int) + 1) + 1) := by omega
        rw [if_neg e3]
        have e4 : (-(-((k : Int) + 1) + 1)).toNat = k := by omega
        rw [e4]
        omega
    · rw [if_neg hm53, if_neg (by omega)]
      refine ⟨_, _, rfl, ?_⟩
      rw [if_neg e0, e1]
      exact hm

/-- Rounding to a double does not pass an integer up to `2 ^ 53` from above. -/
theorem roundToDouble_ge (p q U : Nat) (hp : 0 < p) (hq : 0 < q) (h : U * q ≤ p)
    (hU : U ≤ 2 ^ 53) (m : Nat) (e : Int) (hr : roundToDouble p q = some (m, e)) :
    if 0 ≤ e then U ≤ m * 2 ^ e.toNat else U * 2 ^ (-e).toNat ≤ m := by
  have hb := floorLog2_le p q hp hq
  unfold roundToDouble at hr
  simp only at hr
  generalize he : max (floorLog2 p q - 52) (-1074) = e0 at hr
  rcases lt_trichotomy e0 0 with hneg | hz | hpos
  · obtain ⟨k, hk⟩ : ∃ k : Nat, e0 = -((k : Int) + 1) := ⟨(-e0 - 1).toNat, by omega⟩
    subst hk
    have c0 : ¬ ((0 : Int) ≤ -((k : Int) + 1)) := by omega
    have c1 : (-(-((k : Int) + 1))).toNat = k + 1 := by omega
    simp only [c0, if_false, c1] at hr
    have hm : U * 2 ^ (k + 1) ≤ roundHalfEven (p * 2 ^ (k + 1)) q := by
      apply roundHalfEven_ge _ _ _ hq
      have := Nat.mul_le_mul_right (2 ^ (k + 1)) h
      calc U * 2 ^ (k + 1) * q = U * q * 2 ^ (k + 1) := by ring
        _ ≤ p * 2 ^ (k + 1) := this
    by_cases hm53 : roundHalfEven (p * 2 ^ (k + 1)) q = 2 ^ 53
    · rw [if_pos hm53, if_neg (by omega)] at hr
      obtain ⟨rfl, rfl⟩ := Prod.mk.inj (Option.some.inj hr)
      rw [hm53] at hm
      have e2 : U * 2 ^ (k + 1) = 2 * (U * 2 ^ k) := by ring
      rcases Nat.eq_zero_or_pos k with hk0 | hkpos
      · subst hk0
        simp only [Nat.zero_add, pow_one, pow_zero, Nat.mul_one] at hm e2
        have e3 : (0 : Int) ≤ -(((0 : Nat) : Int) + 1) + 1 := by decide
        rw [if_pos e3]
        have e4 : (-(((0 : Nat) : Int) + 1) + 1).toNat = 0 := by decide
        rw [e4]
        omega
      · have e3 : ¬ ((0 : Int) ≤ -((k : Int) + 1) + 1) := by omega
        rw [if_neg e3]
        have e4 : (-(-((k : Int) + 1) + 1)).toNat = k := by omega
        rw [e4]
        omega
    · rw [if_neg hm53, if_neg (by omega)] at hr
      obtain ⟨rfl, rfl⟩ := Prod.mk.inj (Option.some.inj hr)
      rw [if_neg c0, c1]
      exact hm
  · subst hz
    simp only [le_refl, if_true] at hr
    have hm : U ≤ roundHalfEven p (q * 2 ^ (0 : Int).toNat) :=
      roundHalfEven_ge _ _ U (by simpa using hq) (by simpa using h)
    by_cases hm53 : roundHalfEven p (q * 2 ^ (0 : Int).toNat) = 2 ^ 53
    · rw [if_pos hm53, if_neg (by decide)] at hr
      obtain ⟨rfl, rfl⟩ := Prod.mk.inj (Option.some.inj hr)
      rw [if_pos (by decide)]
      have e4 : ((0 : Int) + 1).toNat = 1 := by decide
      rw [e4]
      omega
    · rw [if_neg hm53, if_neg (by decide)] at hr
      obtain ⟨rfl, rfl⟩ := Prod.mk.inj (Option.some.inj hr)
      rw [if_pos (le_refl _)]
      simpa using hm
  · obtain ⟨k, hk⟩ : ∃ k : Nat, e0 = (k : Int) + 1 := ⟨(e0 - 1).toNat, by omega⟩
    subst hk
    have hfl : floorLog2 p q = ((k + 53 : Nat) : Int) := by push_cast; omega
    rw [hfl] at hb
    simp only [Int.natCast_nonneg, if_true, Int.toNat_ofNat] at hb
    have c0 : (0 : Int) ≤ (k : Int) + 1 := by omega
    have c1 : ((k : Int) + 1).toNat = k + 1 := by omega
    simp only [c0, if_true, c1] at hr
    have hm : 2 ^ 52 ≤ roundHalfEven p (q * 2 ^ (k + 1)) := by
      apply roundHalfEven_ge _ _ _ (Nat.mul_pos hq (Nat.two_pow_pos _))
      calc 2 ^ 52 * (q * 2 ^ (k + 1)) = q * 2 ^ (k + 53) := by ring
        _ ≤ p := hb
    have hk2 : 2 ≤ 2 ^ (k + 1) := by
      calc 2 = 2 ^ 1 := by norm_num
        _ ≤ 2 ^ (k + 1) := Nat.pow_le_pow_right (by norm_num) (by omega)
    by_cases hm53 : roundHalfEven p (q * 2 ^ (k + 1)) = 2 ^ 53
    · rw [if_pos hm53] at hr
      split at hr
      · exact absurd hr (by simp)
      · obtain ⟨rfl, rfl⟩ := Prod.mk.inj (Option.some.inj hr)
        have c2 : (0 : Int) ≤ (k : Int) + 1 + 1 := by omega
        have c3 : ((k : Int) + 1 + 1).toNat = k + 2 := by omega
        rw [if_pos c2, c3]
        have : 2 ^ (k + 2) = 2 * 2 ^ (k + 1) := by ring
        have h4 : 2 ^ 52 * 2 ≤ 2 ^ 52 * 2 ^ (k + 2) :=
          Nat.mul_le_mul_left _ (by omega)
        omega
    · rw [if_neg hm53] at hr
      split at hr
      · exact absurd hr (by simp)
      · obtain ⟨rfl, rfl⟩ := Prod.mk.inj (Option.some.inj hr)
        rw [if_pos c0, c1]
        have h4 := Nat.mul_le_mul hm hk2
        omega

/-- The Number value for a rational that is at most the integer `u`, of absolute value
below `2 ^ 53`, is at most `u`. -/
theorem ofRat_leInt (s : Bool) (p q : Nat) (u : Int) (hq : 0 < q)
    (h : (if s then -(p : Int) else (p : Int)) ≤ u * q) (hlo : -(2 : Int) ^ 53 < u)
    (hhi : u < 2 ^ 53) : (JsFloat.ofRat s p q).leInt u = true := by
  have hqi : (0 : Int) < (q : Int) := by exact_mod_cast hq
  unfold JsFloat.ofRat
  rcases Nat.eq_zero_or_pos p with hp0 | hp
  · subst hp0
    simp only [if_true]
    have : (0 : Int) ≤ u * q := by
      cases s <;> simpa using h
    have hu : 0 ≤ u := by
      by_contra hc
      have : u * q < 0 := Int.mul_neg_of_neg_of_pos (by omega) hqi
      omega
    simp [JsFloat.leInt, hu]
  · rw [if_neg (by omega)]
    cases s with
    | false =>
      simp only [Bool.false_eq_true, if_false] at h ⊢
      have hu : 0 ≤ u := by
        by_contra hc
        have : u * q < 0 := Int.mul_neg_of_neg_of_pos (by omega) hqi
        have : (0 : Int) < p := by exact_mod_cast hp
        omega
      obtain ⟨U, rfl⟩ := Int.eq_ofNat_of_zero_le hu
      have h' : p ≤ U * q := by exact_mod_cast h
      have hU : U < 2 ^ 53 := by exact_mod_cast hhi
      obtain ⟨m, e, hr, hb⟩ := roundToDouble_le p q U hp hq h' hU
      rw [hr]
      simp only [JsFloat.leInt]
      split
      · rename_i he
        rw [if_pos he] at hb
        simp only [decide_eq_true_eq]
        exact_mod_cast hb
      · rename_i he
        rw [if_neg he] at hb
        simp only [decide_eq_true_eq]
        exact_mod_cast hb
    | true =>
      simp only [if_true] at h ⊢
      cases hr : roundToDouble p q with
      | none => rfl
      | some me =>
        obtain ⟨m, e⟩ := me
        simp only [JsFloat.leInt]
        rcases le_or_lt 0 u with hu | hu
        · split
          · simp only [decide_eq_true_eq]
            have : (0 : Int) ≤ (m : Int) * 2 ^ e.toNat := by positivity
            have : -(m : Int) * 2 ^ e.toNat = -((m : Int) * 2 ^ e.toNat) := by ring
            omega
          · simp only [decide_eq_true_eq]
            have : (0 : Int) ≤ u * 2 ^ (-e).toNat := by positivity
            have : (0 : Int) ≤ (m : Int) := Int.natCast_nonneg _
            omega
        · obtain ⟨U, hU⟩ : ∃ U : Nat, u = -(U : Int) := ⟨(-u).toNat, by omega⟩
          subst hU
          have h' : U * q ≤ p := by
            have : -(p : Int) ≤ -((U : Int) * q) := by
              have e1 : -(U : Int) * q = -((U : Int) * q) := by ring
              rw [e1] at h
              exact h
            have : (U : Int) * q ≤ p := by omega
            exact_mod_cast this
          have hU53 : U ≤ 2 ^ 53 := by
            have : (U : Int) < 2 ^ 53 := by omega
            have : U < 2 ^ 53 := by exact_mod_cast this
            omega
          have hb := roundToDouble_ge p q U hp hq h' hU53 m e hr
          split
          · rename_i he
            rw [if_pos he] at hb
            simp only [decide_eq_true_eq]
            have : (U : Int) ≤ (m : Int) * 2 ^ e.toNat := by exact_mod_cast hb
            have e1 : -(m : Int) * 2 ^ e.toNat = -((m : Int) * 2 ^ e.toNat) := by ring
            omega
          · rename_i he
            rw [if_neg he] at hb
            simp only [decide_eq_true_eq]
            have : (U : Int) * 2 ^ (-e).toNat ≤ (m : Int) := by exact_mod_cast hb
            have e1 : -(U : Int) * 2 ^ (-e).toNat = -((U : Int) * 2 ^ (-e).toNat) := by ring
            omega

/-- A bound of a finite Number, written with a smaller exponent. -/
theorem finite_leInt_scale (m e u e' : Int) (hle : e' ≤ e)
    (h : (JsFloat.finite m e).leInt u = true) :
    if 0 ≤ e' then m * 2 ^ (e - e').toNat * 2 ^ e'.toNat ≤ u
    else m * 2 ^ (e - e').toNat ≤ u * 2 ^ (-e').toNat := by
  simp only [JsFloat.leInt] at h
  by_cases he' : 0 ≤ e'
  · have he : 0 ≤ e := by omega
    rw [if_pos he, decide_eq_true_eq] at h
    rw [if_pos he']
    have e1 : e.toNat = (e - e').toNat + e'.toNat := by omega
    rw [e1, pow_add, ← mul_assoc] at h
    exact h
  · rw [if_neg he']
    have hpos : (0 : Int) < 2 ^ (-e').toNat := by positivity
    by_cases he : 0 ≤ e
    · rw [if_pos he, decide_eq_true_eq] at h
      have e1 : (e - e').toNat = e.toNat + (-e').toNat := by omega
      rw [e1, pow_add, ← mul_assoc]
      exact Int.mul_le_mul_of_nonneg_right h (le_of_lt hpos)
    · rw [if_neg he, decide_eq_true_eq] at h
      have e1 : (-e').toNat = (-e).toNat + (e - e').toNat := by omega
      rw [e1, pow_add, ← mul_assoc]
      exact Int.mul_le_mul_of_nonneg_right h (by positivity)

/-- The rounded sum of two Numbers is at most the sum of integers they are at most of, when
that sum is below `2 ^ 53` in absolute value. -/
theorem JsFloat.add_leInt (x y : JsFloat) (u1 u2 : Int) (hx : x.leInt u1 = true)
    (hy : y.leInt u2 = true) (hlo : -(2 : Int) ^ 53 < u1 + u2) (hhi : u1 + u2 < 2 ^ 53) :
    (x.add y).leInt (u1 + u2) = true := by
  cases x with
  | nan => simp [JsFloat.leInt] at hx
  | infinity a =>
    simp only [JsFloat.leInt] at hx
    subst hx
    cases y with
    | nan => simp [JsFloat.leInt] at hy
    | infinity b =>
      simp only [JsFloat.leInt] at hy
      subst hy
      rfl
    | finite m2 e2 => rfl
  | finite m1 e1 =>
    cases y with
    | nan => simp [JsFloat.leInt] at hy
    | infinity b =>
      simp only [JsFloat.leInt] at hy
      subst hy
      rfl
    | finite m2 e2 =>
      have s1 := finite_leInt_scale m1 e1 u1 (min e1 e2) (min_le_left _ _) hx
      have s2 := finite_leInt_scale m2 e2 u2 (min e1 e2) (min_le_right _ _) hy
      simp only [JsFloat.add]
      generalize min e1 e2 = e at s1 s2 ⊢
      generalize m1 * 2 ^ (e1 - e).toNat = a at s1 ⊢
      generalize m2 * 2 ^ (e2 - e).toNat = b at s2 ⊢
      have hsign : (if decide (a + b < 0) = true then -(((a + b).natAbs : Nat) : Int)
          else (((a + b).natAbs : Nat) : Int)) = a + b := by
        by_cases hneg : a + b < 0
        · simp only [hneg, decide_True, if_true]; omega
        · simp only [hneg, decide_False, Bool.false_eq_true, if_false]; omega
      by_cases he : 0 ≤ e
      · rw [if_pos he] at s1 s2 ⊢
        apply ofRat_leInt _ _ _ _ (by norm_num) _ hlo hhi
        have hsign2 : (if decide (a + b < 0) = true
            then -((((a + b).natAbs * 2 ^ e.toNat : Nat)) : Int)
            else ((((a + b).natAbs * 2 ^ e.toNat : Nat)) : Int)) = (a + b) * 2 ^ e.toNat := by
          by_cases hneg : a + b < 0
          · simp only [hneg, decide_True, if_true] at hsign ⊢
            push_cast
            rw [Int.natCast_natAbs] at hsign
            rw [← neg_mul, hsign]
          · simp only [hneg, decide_False, Bool.false_eq_true, if_false] at hsign ⊢
            push_cast
            rw [Int.natCast_natAbs] at hsign
            rw [hsign]
        rw [hsign2]
        have : (a + b) * 2 ^ e.toNat = a * 2 ^ e.toNat + b * 2 ^ e.toNat := by ring
        simp only [Nat.cast_one, mul_one]
        omega
      · rw [if_neg he] at s1 s2 ⊢
        apply ofRat_leInt _ _ _ _ (Nat.two_pow_pos _) _ hlo hhi
        rw [hsign]
        have : (u1 + u2) * 2 ^ (-e).toNat = u1 * 2 ^ (-e).toNat + u2 * 2 ^ (-e).toNat := by ring
        push_cast
        omega

theorem TallyVal.ofInt_leInt (z u : Int) (h : z ≤ u) : (TallyVal.ofInt z).leInt u = true := by
  unfold TallyVal.ofInt
  split
  · simp only [TallyVal.leInt, decide_eq_true_eq]; omega
  · simp only [TallyVal.leInt, JsFloat.leInt, le_refl, if_true, decide_eq_true_eq]
    simpa using h

theorem TallyVal.ofFloat_leInt (x : JsFloat) (u : Int) (h : x.leInt u = true) :
    (TallyVal.ofFloat x).leInt u = true := by
  cases x with
  | nan => simp [JsFloat.leInt] at h
  | infinity a => exact h
  | finite m e =>
    simp only [TallyVal.ofFloat]
    by_cases he : 0 ≤ e
    · rw [if_pos he]
      simp only [JsFloat.leInt, if_pos he, decide_eq_true_eq] at h
      exact TallyVal.ofInt_leInt _ _ h
    · rw [if_neg he]
      split
      · simp only [JsFloat.leInt, if_neg he, decide_eq_true_eq] at h
        exact TallyVal.ofInt_leInt _ _ (Int.ediv_le_of_le_mul (by positivity) h)
      · exact h

/-- The operator `+` on two Numbers keeps integer bounds whose sum is below `2 ^ 53` in
absolute value. -/
theorem jsAdd_leInt (t1 t2 : TallyVal) (u1 u2 : Int) (h1 : t1.leInt u1 = true)
    (h2 : t2.leInt u2 = true) (hlo : -(2 : Int) ^ 53 < u1 + u2) (hhi : u1 + u2 < 2 ^ 53) :
    (jsAdd t1 t2).leInt (u1 + u2) = true := by
  cases t1 with
  | str s => simp [TallyVal.leInt] at h1
  | num a =>
    cases t2 with
    | str t => simp [TallyVal.leInt] at h2
    | num b =>
      simp only [TallyVal.leInt, decide_eq_true_eq] at h1 h2
      simp only [jsAdd, TallyVal.leInt, decide_eq_true_eq]
      push_cast
      omega
    | float y =>
      simp only [jsAdd]
      apply TallyVal.ofFloat_leInt
      apply JsFloat.add_leInt _ _ _ _ _ h2 hlo hhi
      simp only [TallyVal.leInt, decide_eq_true_eq] at h1
      simp only [JsFloat.leInt, le_refl, if_true, decide_eq_true_eq]
      simpa using h1
  | float x =>
    cases t2 with
    | str t => simp [TallyVal.leInt] at h2
    | num b =>
      simp only [jsAdd]
      apply TallyVal.ofFloat_leInt
      apply JsFloat.add_leInt _ _ _ _ h1 _ hlo hhi
      simp only [TallyVal.leInt, decide_eq_true_eq] at h2
      simp only [JsFloat.leInt, le_refl, if_true, decide_eq_true_eq]
      simpa using h2
    | float y =>
      simp only [jsAdd]
      exact TallyVal.ofFloat_leInt _ _ (JsFloat.add_leInt _ _ _ _ h1 h2 hlo hhi)

/-- The `reduce` of `verifyElectionResults` over counts and negative Numbers keeps the sum of
their integer bounds. -/
theorem foldl_jsAdd_leInt (l : JsObject) :
    ∀ (acc : TallyVal) (u0 : Int), acc.leInt u0 = true →
      (∀ kv ∈ l, kv.2.leInt kv.2.upperBound = true) →
      u0.natAbs + (l.map (fun kv => kv.2.upperBound.natAbs)).sum < 2 ^ 53 →
      ((l.map Prod.snd).foldl jsAdd acc).leInt
        (u0 + (l.map (fun kv => kv.2.upperBound)).sum) = true := by
  induction l with
  | nil => intro acc u0 h _ _; simpa using h
  | cons kv rest ih =>
    intro acc u0 h hall hb
    simp only [List.map_cons, List.sum_cons, List.foldl_cons] at hb ⊢
    rw [← add_assoc]
    apply ih
    · apply jsAdd_leInt _ _ _ _ h (hall kv (List.mem_cons_self _ _)) <;> omega
    · intro kv2 hkv2
      exact hall kv2 (List.mem_cons_of_mem _ hkv2)
    · omega

theorem allNumbers_bounds (l : JsObject) (h : allNumbers l = true) :
    (∀ kv ∈ l, kv.2.leInt kv.2.upperBound = true) ∧
    (l.map (fun kv => kv.2.upperBound)).sum = (numberSum l : Int) ∧
    (l.map (fun kv => kv.2.upperBound.natAbs)).sum = numberSum l := by
  induction l with
  | nil => simp [numberSum]
  | cons kv rest ih =>
    obtain ⟨k, w⟩ := kv
    rw [allNumbers_cons] at h
    simp only [Bool.and_eq_true] at h
    obtain ⟨ih1, ih2, ih3⟩ := ih h.2
    cases w with
    | str s => simp [TallyVal.isNumber] at h
    | float x => simp [TallyVal.isNumber] at h
    | num n =>
      refine ⟨?_, ?_, ?_⟩
      · intro kv hkv
        rcases List.mem_cons.mp hkv with rfl | hmem
        · simp [TallyVal.leInt, TallyVal.upperBound]
        · exact ih1 kv hmem
      · rw [List.map_cons, List.sum_cons, ih2]
        simp only [numberSum, TallyVal.upperBound, TallyVal.number]
        push_cast
        rfl
      · rw [List.map_cons, List.sum_cons, ih3]
        simp only [numberSum, TallyVal.upperBound, TallyVal.number, Int.natAbs_ofNat]

theorem upsert_negative_bounds (o : JsObject) (key : String) (a : Nat) (b : Int) (hb : b < 0)
    (hall : allNumbers o = true) (hl : o.lookup key = some (.num a)) :
    (∀ kv ∈ objectUpsert o key (.float (.finite b 0)), kv.2.leInt kv.2.upperBound = true) ∧
    ((objectUpsert o key (.float (.finite b 0))).map (fun kv => kv.2.upperBound)).sum =
      (numberSum o : Int) - a - 1 ∧
    ((objectUpsert o key (.float (.finite b 0))).map
      (fun kv => kv.2.upperBound.natAbs)).sum + a = numberSum o + 1 := by
  induction o with
  | nil => simp [List.lookup] at hl
  | cons kv rest ih =>
    obtain ⟨k, w⟩ := kv
    rw [allNumbers_cons] at hall
    simp only [Bool.and_eq_true] at hall
    unfold objectUpsert
    by_cases hk : k = key
    · subst hk
      rw [if_pos rfl]
      simp only [List.lookup, beq_self_eq_true] at hl
      obtain rfl : w = .num a := Option.some.inj hl
      obtain ⟨r1, r2, r3⟩ := allNumbers_bounds rest hall.2
      refine ⟨?_, ?_, ?_⟩
      · intro kv hkv
        rcases List.mem_cons.mp hkv with rfl | hmem
        · simp only [TallyVal.leInt, TallyVal.upperBound, JsFloat.leInt, le_refl, if_true,
            decide_eq_true_eq]
          simp only [Int.toNat_zero, pow_zero, mul_one]
          omega
        · exact r1 kv hmem
      · rw [List.map_cons, List.sum_cons, r2]
        simp only [numberSum, TallyVal.upperBound, TallyVal.number]
        push_cast
        omega
      · rw [List.map_cons, List.sum_cons, r3]
        simp only [numberSum, TallyVal.upperBound, TallyVal.number]
        have : (-1 : Int).natAbs = 1 := rfl
        omega
    · rw [if_neg hk]
      have hk2 : (key == k) = false := by
        simp only [beq_eq_false_iff_ne, ne_eq]
        exact fun h => hk h.symm
      simp only [List.lookup, hk2] at hl
      obtain ⟨i1, i2, i3⟩ := ih hall.2 hl
      cases w with
      | str s => simp [TallyVal.isNumber] at hall
      | float x => simp [TallyVal.isNumber] at hall
      | num n =>
        refine ⟨?_, ?_, ?_⟩
        · intro kv hkv
          rcases List.mem_cons.mp hkv with rfl | hmem
          · simp [TallyVal.leInt, TallyVal.upperBound]
          · exact i1 kv hmem
        · rw [List.map_cons, List.sum_cons, i2]
          simp only [numberSum, TallyVal.upperBound, TallyVal.number]
          push_cast
          omega
        · rw [List.map_cons, List.sum_cons]
          show ((n : Nat) : Int).natAbs + _ + a = (n + numberSum rest) + 1
          rw [Int.natAbs_ofNat]
          omega

/-- A count replaced by a negative integer: the sum that `verifyElectionResults` computes
stays below the sum of the counts. -/
theorem tallySum_upsert_negative (o : JsObject) (key : String) (a : Nat) (b : Int)
    (hb : b < 0) (hall : allNumbers o = true) (hl : o.lookup key = some (.num a))
    (hsum : numberSum o + 1 < 2 ^ 53) :
    (tallySum (objectUpsert o key (.float (.finite b 0)))).leInt
      ((numberSum o : Int) - a - 1) = true := by
  obtain ⟨h1, h2, h3⟩ := upsert_negative_bounds o key a b hb hall hl
  have hp := ownEntries_perm (objectUpsert o key (.float (.finite b 0)))
  have hs : ((ownEntries (objectUpsert o key (.float (.finite b 0)))).map
      (fun kv => kv.2.upperBound)).sum = (numberSum o : Int) - a - 1 := by
    rw [← h2]
    exact (hp.map _).sum_eq
  have hn : ((ownEntries (objectUpsert o key (.float (.finite b 0)))).map
      (fun kv => kv.2.upperBound.natAbs)).sum + a = numberSum o + 1 := by
    rw [← h3]
    congr 1
    exact (hp.map _).sum_eq
  have hfold := foldl_jsAdd_leInt (ownEntries (objectUpsert o key (.float (.finite b 0))))
    (.num 0) 0 (by simp [TallyVal.leInt])
    (fun kv hkv => h1 kv (hp.mem_iff.mp hkv))
    (by
      have : (0 : Int).natAbs = 0 := rfl
      omega)
  rw [hs, zero_add] at hfold
  exact hfold

/-! ## Theorems: closing and verifying an election (C6, C7) -/

theorem closeElection_allReceipts (votes : List VoteRecord) (eid now : String) :
    (closeElection votes eid now).allReceipts = jsSort (votes.map VoteRecord.hash_recibo) := by
  simp [closeElection, buildMerkleTree_leaves]

theorem closeElection_merkleRoot (votes : List VoteRecord) (eid now : String) :
    (closeElection votes eid now).merkleRoot =
      (buildMerkleTree (votes.map VoteRecord.hash_recibo)).root := rfl

theorem buildMerkleTree_jsSort_root (leaves : List String) :
    (buildMerkleTree (jsSort leaves)).root = (buildMerkleTree leaves).root := by
  rw [buildMerkleTree_eq_of_perm leaves (jsSort leaves) (jsSort_perm leaves)]

/-- The record of `closeElection` passes the root check and the count check of
`verifyElectionResults`, whatever the votes. -/
theorem verify_closeElection_root_and_total (votes : List VoteRecord) (eid now : String) :
    (verifyElectionResults (closeElection votes eid now)).merkleRootValid = true ∧
      (verifyElectionResults (closeElection votes eid now)).totalVotesValid = true := by
  constructor
  · simp only [verifyElectionResults, decide_eq_true_eq]
    rw [closeElection_allReceipts, closeElection_merkleRoot, buildMerkleTree_jsSort_root]
  · simp only [verifyElectionResults, decide_eq_true_eq]
    rw [closeElection_allReceipts, jsSort_length, List.length_map]
    rfl

/-- When no option is the name of an `Object.prototype` property, the record of
`closeElection` passes `verifyElectionResults` in full. -/
theorem verify_closeElection_of_plain_options (votes : List VoteRecord) (eid now : String)
    (hsafe : ∀ v ∈ votes, isPrototypeKey v.eleccion.toStr = false) :
    (verifyElectionResults (closeElection votes eid now)).valid = true ∧
      (verifyElectionResults (closeElection votes eid now)).merkleRootValid = true ∧
      (verifyElectionResults (closeElection votes eid now)).totalVotesValid = true ∧
      (verifyElectionResults (closeElection votes eid now)).tallyConsistent = true := by
  obtain ⟨h1, h2⟩ := verify_closeElection_root_and_total votes eid now
  obtain ⟨h3, h4⟩ := tallyVotes_numbers votes hsafe
  have h5 : (verifyElectionResults (closeElection votes eid now)).tallyConsistent = true := by
    simp only [verifyElectionResults, decide_eq_true_eq]
    show tallySum (tallyVotes votes) = .num votes.length
    rw [tallySum_of_allNumbers _ h3, h4]
  refine ⟨?_, h1, h2, h5⟩
  have hv : (verifyElectionResults (closeElection votes eid now)).valid =
      ((verifyElectionResults (closeElection votes eid now)).merkleRootValid &&
        (verifyElectionResults (closeElection votes eid now)).totalVotesValid &&
        (verifyElectionResults (closeElection votes eid now)).tallyConsistent) := rfl
  rw [hv, h1, h2, h5]
  rfl

/-- C6. The claim fails for an option named like a method of `Object.prototype`: the vote
`"toString"`, deposited in the empty urn with token `"1"` and signature `"1"`, is accepted,
and the record that `closeElection` makes of `votesDB` does not pass
`verifyElectionResults`: the tally holds a string, `tallyConsistent` and `valid` are false
(the root and count checks pass). -/
theorem closeElection_of_prototype_option_fails_verification :
    (submitVote CENSUS_PUBLIC_KEY 1 UrnState.empty
        ⟨.prim (.str "toString"), .prim (.str "1"), .prim (.str "1")⟩).2.accepted = true ∧
    (closeElection
        (submitVote CENSUS_PUBLIC_KEY 1 UrnState.empty
          ⟨.prim (.str "toString"), .prim (.str "1"), .prim (.str "1")⟩).1.votesDB
        "PLEBISCITO_2026" "2026-01-01T00:00:00.000Z").results =
      [("toString", .str "function toString() \x7b [native code] \x7d1")] ∧
    (verifyElectionResults (closeElection
        (submitVote CENSUS_PUBLIC_KEY 1 UrnState.empty
          ⟨.prim (.str "toString"), .prim (.str "1"), .prim (.str "1")⟩).1.votesDB
        "PLEBISCITO_2026" "2026-01-01T00:00:00.000Z")).valid = false ∧
    (verifyElectionResults (closeElection
        (submitVote CENSUS_PUBLIC_KEY 1 UrnState.empty
          ⟨.prim (.str "toString"), .prim (.str "1"), .prim (.str "1")⟩).1.votesDB
        "PLEBISCITO_2026" "2026-01-01T00:00:00.000Z")).tallyConsistent = false ∧
    (verifyElectionResults (closeElection
        (submitVote CENSUS_PUBLIC_KEY 1 UrnState.empty
          ⟨.prim (.str "toString"), .prim (.str "1"), .prim (.str "1")⟩).1.votesDB
        "PLEBISCITO_2026" "2026-01-01T00:00:00.000Z")).merkleRootValid = true := by
  decide

/-- C7, the claim as stated fails, twice. For the receipts `"aba"` and `"ba"`, replacing the
entry `"ba"` of `allReceipts` by the different string `"ab"` leaves the record valid, because
the sorted leaves `"ab"`, `"aba"` concatenate to the same text as `"aba"`, `"ba"`. And for
three votes with the receipts `sha256("a")`, `sha256("b")`, `sha256("c")` and the results
`A: 2`, `B: 1`, changing the value of `B` from 1 to the different number `1.0000000000000002`
(the double `4503599627370497 * 2 ^ -52`, the one after 1) leaves the record valid:
`0 + 2 + 1.0000000000000002` is rounded to 3. -/
theorem tampered_record_goes_undetected :
    ((closeElection [⟨"aba", .str "A", none, 1⟩, ⟨"ba", .str "B", none, 2⟩] "E" "T").allReceipts =
      ["aba", "ba"] ∧
    "ab" ≠ "ba" ∧
    (verifyElectionResults
      ((closeElection [⟨"aba", .str "A", none, 1⟩, ⟨"ba", .str "B", none, 2⟩] "E" "T").withReceipt
        1 "ab")).valid = true) ∧
    ((closeElection [⟨sha256 "a", .str "A", none, 1⟩, ⟨sha256 "b", .str "A", none, 2⟩,
        ⟨sha256 "c", .str "B", none, 3⟩] "E" "T").results = [("A", .num 2), ("B", .num 1)] ∧
    TallyVal.float (.finite 4503599627370497 (-52)) ≠ .num 1 ∧
    (TallyVal.float (.finite 4503599627370497 (-52))).json = "1.0000000000000002" ∧
    jsAdd (jsAdd (.num 0) (.num 2)) (.float (.finite 4503599627370497 (-52))) = .num 3 ∧
    (verifyElectionResults
      ((closeElection [⟨sha256 "a", .str "A", none, 1⟩, ⟨sha256 "b", .str "A", none, 2⟩,
        ⟨sha256 "c", .str "B", none, 3⟩] "E" "T").withResult "B"
        (.float (.finite 4503599627370497 (-52))))).valid = true) := by
  decide

theorem valid_eq_false_of_root (r : PublicRecord)
    (h : (buildMerkleTree r.allReceipts).root ≠ r.merkleRoot) :
    (verifyElectionResults r).valid = false := by
  simp [verifyElectionResults, h]

theorem valid_eq_false_of_tally (r : PublicRecord)
    (h : tallySum r.results ≠ .num r.totalVotes) :
    (verifyElectionResults r).valid = false := by
  simp [verifyElectionResults, h]

/-- C7, amended. For the public record `R` that `closeElection` makes of a vote list
whose receipt hashes have 64 characters each and none of whose options is the name of an
`Object.prototype` property, `verifyElectionResults` returns `valid = false` for every
record obtained from `R` by changing `merkleRoot` to a different value, or by replacing one
entry of `allReceipts` with a different string (provided `sha256` has no collision on the
strings hashed for the two trees), or by changing one value of `results` to a different
integer (to a negative one: when the vote list has fewer than `2 ^ 32` votes, as every array
has). -/
theorem tampered_record_is_invalid (votes : List VoteRecord) (eid now : String)
    (h64 : ∀ v ∈ votes, v.hash_recibo.length = 64)
    (hsafe : ∀ v ∈ votes, isPrototypeKey v.eleccion.toStr = false) :
    (∀ root : Option String, root ≠ (closeElection votes eid now).merkleRoot →
      (verifyElectionResults ((closeElection votes eid now).withMerkleRoot root)).valid
        = false) ∧
    (∀ (i : Nat) (z : String) (hi : i < (closeElection votes eid now).allReceipts.length),
      (closeElection votes eid now).allReceipts[i] ≠ z →
      NoCollision (closeElection votes eid now).allReceipts
        ((closeElection votes eid now).allReceipts.set i z) →
      (verifyElectionResults ((closeElection votes eid now).withReceipt i z)).valid = false) ∧
    (∀ (key : String) (a : Nat) (b : Int),
      (closeElection votes eid now).results.lookup key = some (.num a) → b ≠ (a : Int) →
      (b < 0 → votes.length < 2 ^ 32) →
      (verifyElectionResults
        ((closeElection votes eid now).withResult key (TallyVal.ofInt b))).valid = false) := by
  refine ⟨?_, ?_, ?_⟩
  · intro root hroot
    apply valid_eq_false_of_root
    show (buildMerkleTree (closeElection votes eid now).allReceipts).root ≠ root
    rw [closeElection_allReceipts, buildMerkleTree_jsSort_root, ← closeElection_merkleRoot]
    exact fun h => hroot h.symm
  · intro i z hi hz hnc
    apply valid_eq_false_of_root
    show (buildMerkleTree ((closeElection votes eid now).allReceipts.set i z)).root ≠
      (closeElection votes eid now).merkleRoot
    rw [closeElection_merkleRoot]
    have hA := closeElection_allReceipts votes eid now
    have h64b : ∀ a ∈ votes.map VoteRecord.hash_recibo, a.length = 64 := by
      intro a ha
      obtain ⟨v, hv, hva⟩ := List.mem_map.mp ha
      rw [← hva]; exact h64 v hv
    have hi2 : i < (jsSort (votes.map VoteRecord.hash_recibo)).length := by
      rw [← hA]; exact hi
    have hz2 : (jsSort (votes.map VoteRecord.hash_recibo))[i] ≠ z := by
      simpa only [hA] using hz
    have hnc2 : NoCollision (jsSort (votes.map VoteRecord.hash_recibo))
        ((jsSort (votes.map VoteRecord.hash_recibo)).set i z) := by
      simpa only [hA] using hnc
    have := root_changes_when_leaf_replaced _ i z h64b hi2 hz2 hnc2
    simpa only [hA] using this
  · intro key a b hl hb hlen
    apply valid_eq_false_of_tally
    obtain ⟨h3, h4⟩ := tallyVotes_numbers votes hsafe
    show tallySum (objectUpsert (tallyVotes votes) key (TallyVal.ofInt b)) ≠ .num votes.length
    have hl2 : (tallyVotes votes).lookup key = some (.num a) := hl
    by_cases hb0 : 0 ≤ b
    · rw [TallyVal.ofInt, if_pos hb0,
        tallySum_of_allNumbers _ (allNumbers_upsert _ key b.toNat h3)]
      have := numberSum_upsert (tallyVotes votes) key b.toNat
      rw [hl2] at this
      simp only [Option.map_some', Option.getD_some, TallyVal.number] at this
      intro hc
      have hc2 : numberSum (objectUpsert (tallyVotes votes) key (.num b.toNat)) = votes.length :=
        TallyVal.num.inj hc
      omega
    · rw [TallyVal.ofInt, if_neg hb0]
      have hlen2 := hlen (by omega)
      have hle := tallySum_upsert_negative (tallyVotes votes) key a b (by omega) h3 hl2
        (by rw [h4]; omega)
      intro hc
      rw [hc, h4] at hle
      simp only [TallyVal.leInt, decide_eq_true_eq] at hle
      omega

/-- The amended C7 on two votes with the receipts `sha256("a")` and `sha256("b")`: a changed
root, the first receipt replaced by `sha256("c")`, and the count of option `A` changed from 1
to 2 or to -1 are each detected. -/
theorem tampered_record_is_invalid_witness :
    (verifyElectionResults
      ((closeElection [⟨sha256 "a", .str "A", none, 1⟩, ⟨sha256 "b", .str "B", none, 2⟩]
        "E" "T").withMerkleRoot (some "00"))).valid = false ∧
    (verifyElectionResults
      ((closeElection [⟨sha256 "a", .str "A", none, 1⟩, ⟨sha256 "b", .str "B", none, 2⟩]
        "E" "T").withReceipt 0 (sha256 "c"))).valid = false ∧
    (verifyElectionResults
      ((closeElection [⟨sha256 "a", .str "A", none, 1⟩, ⟨sha256 "b", .str "B", none, 2⟩]
        "E" "T").withResult "A" (TallyVal.ofInt 2))).valid = false ∧
    (verifyElectionResults
      ((closeElection [⟨sha256 "a", .str "A", none, 1⟩, ⟨sha256 "b", .str "B", none, 2⟩]
        "E" "T").withResult "A" (TallyVal.ofInt (-1)))).valid = false :=
  ⟨(tampered_record_is_invalid
      [⟨sha256 "a", .str "A", none, 1⟩, ⟨sha256 "b", .str "B", none, 2⟩] "E" "T"
      (by decide) (by decide)).1 (some "00") (by decide),
   (tampered_record_is_invalid
      [⟨sha256 "a", .str "A", none, 1⟩, ⟨sha256 "b", .str "B", none, 2⟩] "E" "T"
      (by decide) (by decide)).2.1 0 (sha256 "c") (by decide) (by decide) (by decide),
   (tampered_record_is_invalid
      [⟨sha256 "a", .str "A", none, 1⟩, ⟨sha256 "b", .str "B", none, 2⟩] "E" "T"
      (by decide) (by decide)).2.2 "A" 1 2 (by decide) (by decide) (by decide),
   (tampered_record_is_invalid
      [⟨sha256 "a", .str "A", none, 1⟩, ⟨sha256 "b", .str "B", none, 2⟩] "E" "T"
      (by decide) (by decide)).2.2 "A" 1 (-1) (by decide) (by decide) (by decide)⟩

/-! ## Theorems: inclusion proofs and the root (C8, C10) -/

/-- C8. The claim fails on a list of odd length: for the three leaves `sha256("a")`,
`sha256("b")`, `sha256("c")` the proof that `getMerkleProof` returns for the leaf sorted last
has a single entry (the level where the leaf was paired with itself contributes none), and
folding it from the leaf does not give the root, while the proof of a paired leaf does. -/
theorem inclusion_proof_of_unpaired_leaf_misses_root :
    jsSort [sha256 "a", sha256 "b", sha256 "c"] = [sha256 "c", sha256 "b", sha256 "a"] ∧
    (getMerkleProof (sha256 "a") [sha256 "a", sha256 "b", sha256 "c"]).map List.length
      = some 1 ∧
    (getMerkleProof (sha256 "a") [sha256 "a", sha256 "b", sha256 "c"]).map
        (foldProof (sha256 "a")) ≠
      (buildMerkleTree [sha256 "a", sha256 "b", sha256 "c"]).root ∧
    (getMerkleProof (sha256 "b") [sha256 "a", sha256 "b", sha256 "c"]).map
        (foldProof (sha256 "b")) =
      (buildMerkleTree [sha256 "a", sha256 "b", sha256 "c"]).root ∧
    (buildMerkleTree [sha256 "a", sha256 "b", sha256 "c"]).root ≠ none := by
  decide

/-- C10. The claim fails when the added leaf equals the leaf sorted last of a list of odd
length: the leaves `sha256("a")`, `sha256("b")`, `sha256("c")` and the same with a second
`sha256("a")` have the same root, so adding that leaf (or removing it again) goes unnoticed. -/
theorem duplicated_last_leaf_keeps_root :
    (buildMerkleTree [sha256 "a", sha256 "b", sha256 "c", sha256 "a"]).root =
      (buildMerkleTree [sha256 "a", sha256 "b", sha256 "c"]).root ∧
    (buildMerkleTree [sha256 "a", sha256 "b", sha256 "c"]).root ≠ none ∧
    ([sha256 "a", sha256 "b", sha256 "c", sha256 "a"].eraseIdx 3 =
      [sha256 "a", sha256 "b", sha256 "c"]) := by
  decide

/-! ## Theorems: how the defects of C2 and C10 come about in general -/

theorem dropWhile_append_of_ne_nil (p : Char → Bool) :
    ∀ (xs ys : List Char), xs.dropWhile p ≠ [] → (xs ++ ys).dropWhile p = xs.dropWhile p ++ ys
  | [], _, h => by simp at h
  | x :: xs, ys, h => by
    by_cases hp : p x = true
    · simp only [List.cons_append, List.dropWhile_cons, hp, if_true] at h ⊢
      exact dropWhile_append_of_ne_nil p xs ys h
    · simp [List.dropWhile_cons, hp]

/-- A zero written in front of a hexadecimal string does not change the integer it
denotes. -/
theorem parseBigIntHex_zero_first (t : String) (m : Nat) (h : parseBigIntHex t = some m) :
    parseBigIntHex ("0" ++ t) = some m := by
  unfold parseBigIntHex at h ⊢
  have hne : t.toList.reverse.dropWhile isJsWhiteSpace ≠ [] := by
    intro h0
    rw [h0] at h
    simp at h
  have hl : ("0" ++ t).toList = '0' :: t.toList := by
    simp [String.toList]
  simp only [hl, List.reverse_cons]
  rw [dropWhile_append_of_ne_nil _ _ _ hne]
  simp only [List.reverse_append, List.reverse_cons, List.reverse_nil, List.nil_append,
    List.singleton_append]
  have hd : ((t.toList.reverse.dropWhile isJsWhiteSpace).reverse).isEmpty = false := by
    cases hr : (t.toList.reverse.dropWhile isJsWhiteSpace).reverse with
    | nil =>
      exfalso; apply hne
      have := congrArg List.reverse hr
      simpa using this
    | cons a as => rfl
  simp only [hd] at h
  simp only [List.isEmpty_cons, List.foldl_cons]
  have h0 : hexStep (some 0) '0' = some 0 := by decide
  rw [h0]
  simpa using h

/-- The defect of C2 in general: after a request with the token string `t` has been
accepted, and whatever requests came in between, a request that spells the same token with
a zero in front and carries the same signature is accepted too, unless that spelling was
burned as well; both spellings denote the same integer. -/
theorem respelled_token_is_accepted (key : PublicKey) (now : Nat) (st : UrnState)
    (vc sig : JsVal) (t : String) (between : List (Nat × SubmitVoteBody)) (later : Nat)
    (vc2 : JsVal) (hvc2 : vc2.truthy = true)
    (hacc : (submitVote key now st ⟨vc, .prim (.str t), sig⟩).2.accepted = true)
    (hfresh : setHas (runUrn (submitVote key)
        (submitVote key now st ⟨vc, .prim (.str t), sig⟩).1 between).1.usedTokensDB
        (.prim (.str ("0" ++ t))) = false) :
    (submitVote key later
        (runUrn (submitVote key) (submitVote key now st ⟨vc, .prim (.str t), sig⟩).1 between).1
        ⟨vc2, .prim (.str ("0" ++ t)), sig⟩).2.accepted = true ∧
    bigIntOfHex (.prim (.str ("0" ++ t))) = bigIntOfHex (.prim (.str t)) := by
  rcases submitVote_cases key now st ⟨vc, .prim (.str t), sig⟩ with
    h1 | ⟨_, _, _, s, m, _, _, _, hsig, _, hs, hm, hv, _, _, _⟩ | ⟨h3, _⟩
  · rw [h1.2] at hacc; exact absurd hacc (by simp)
  · simp only at hsig hs hm hv
    have hpm : ∃ n : Nat, parseBigIntHex t = some n ∧ m = (n : Int) := by
      simp only [bigIntOfHex, JsVal.toStr, JsPrim.toStr] at hm
      cases hp : parseBigIntHex t with
      | none => rw [hp] at hm; simp at hm
      | some n => rw [hp] at hm; exact ⟨n, rfl, (Option.some.inj hm).symm⟩
    obtain ⟨n, hpn, hmn⟩ := hpm
    have hp0 := parseBigIntHex_zero_first t n hpn
    have hb0 : bigIntOfHex (.prim (.str ("0" ++ t))) = some m := by
      rw [hmn]; exact bigIntOfHex_str _ n hp0
    have hbt : bigIntOfHex (.prim (.str t)) = some m := by
      rw [hmn]; exact bigIntOfHex_str _ n hpn
    refine ⟨?_, by rw [hb0, hbt]⟩
    obtain ⟨json, hj⟩ := jsonStringify_of_truthy _ hvc2
    obtain ⟨eleccion, he⟩ := eleccionOf_of_truthy _ hvc2
    have ht0 : (JsVal.prim (.str ("0" ++ t))).truthy = true := by
      simp [JsVal.truthy, JsPrim.truthy]
      intro h
      have := congrArg String.length h
      rw [String.length_append] at this
      have h1 : "0".length = 1 := by decide
      rw [h1] at this
      simp at this
    generalize (runUrn (submitVote key)
      (submitVote key now st ⟨vc, .prim (.str t), sig⟩).1 between).1 = st2 at hfresh ⊢
    simp [submitVote, hvc2, ht0, hsig, hfresh, hs, hb0, hv, hj, he, UrnResponse.accepted]
  · simp [JsVal.isString] at h3

/-- A sorted list ends with an entry that no other entry exceeds. -/
theorem le_last_of_sorted :
    ∀ (S : List String) (z : String), S.Sorted jsStringLe → S.getLast? = some z →
      ∀ a ∈ S, jsStringLe a z
  | [], _, _, h => by simp at h
  | [x], z, _, h => by
    intro a ha
    simp at h ha
    rw [ha, h]
    exact le_refl (codeUnits z)
  | x :: y :: rest, z, hs, h => by
    intro a ha
    have hs2 : (y :: rest).Sorted jsStringLe := (List.sorted_cons.mp hs).2
    have hl : (y :: rest).getLast? = some z := by
      simpa [List.getLast?_cons_cons] using h
    rcases List.mem_cons.mp ha with h1 | h1
    · have hy := (List.sorted_cons.mp hs).1 y (by simp)
      have hz := le_last_of_sorted (y :: rest) z hs2 hl y (by simp)
      rw [h1]
      exact le_trans hy hz
    · exact le_last_of_sorted (y :: rest) z hs2 hl a h1

/-- Adding a copy of the leaf that is sorted last puts it at the end of the sorted leaves. -/
theorem jsSort_append_last (leaves : List String) (z : String)
    (hz : (jsSort leaves).getLast? = some z) :
    jsSort (leaves ++ [z]) = jsSort leaves ++ [z] := by
  haveI := jsStringLe_antisymm
  have hle := le_last_of_sorted _ z (jsSort_sorted leaves) hz
  have hsorted : (jsSort leaves ++ [z]).Sorted jsStringLe := by
    unfold List.Sorted
    rw [List.pairwise_append]
    refine ⟨jsSort_sorted leaves, List.pairwise_singleton _ _, ?_⟩
    intro a ha b hb
    simp at hb
    rw [hb]
    exact hle a ha
  exact List.eq_of_perm_of_sorted
    ((jsSort_perm _).trans ((jsSort_perm leaves).symm.append_right [z]))
    (jsSort_sorted _) hsorted

/-- A level of odd length and the same level with its last node repeated have the same next
level. -/
theorem nextLevel_append_last (z : String) :
    ∀ (S : List String), S.length % 2 = 1 → S.getLast? = some z →
      nextLevel (S ++ [z]) = nextLevel S
  | [], h, _ => by simp at h
  | [a], _, h => by
    simp at h
    rw [h]
    rfl
  | a :: b :: rest, hl, h => by
    have hl2 : rest.length % 2 = 1 := by
      simp only [List.length_cons] at hl
      omega
    have hne : rest ≠ [] := by
      intro h0; rw [h0] at hl2; simp at hl2
    have hlast : rest.getLast? = some z := by
      cases rest with
      | nil => exact absurd rfl hne
      | cons c cs => simpa [List.getLast?_cons_cons] using h
    show sha256 (a ++ b) :: nextLevel (rest ++ [z]) = sha256 (a ++ b) :: nextLevel rest
    rw [nextLevel_append_last z rest hl2 hlast]

theorem rootFrom_fuel (fuel extra : Nat) (cur : List String) (h : cur.length ≤ fuel) :
    rootFrom (fuel + extra) cur = rootFrom fuel cur := by
  unfold rootFrom
  rw [merkleLevels_fuel fuel extra cur h]

/-- The defect of C10 in general: for an odd number of leaves, three or more, adding a copy
of the leaf that is sorted last leaves the root as it is. -/
theorem duplicated_last_leaf_keeps_root_of_odd (leaves : List String) (z : String)
    (hodd : leaves.length % 2 = 1) (h3 : 3 ≤ leaves.length)
    (hz : (jsSort leaves).getLast? = some z) :
    (buildMerkleTree (leaves ++ [z])).root = (buildMerkleTree leaves).root := by
  have hne : leaves ≠ [] := by
    intro h; rw [h] at h3; simp at h3
  have hne2 : leaves ++ [z] ≠ [] := by simp
  rw [buildMerkleTree_root _ hne, buildMerkleTree_root _ hne2, jsSort_append_last leaves z hz]
  have hlen := jsSort_length leaves
  obtain ⟨k, hk⟩ : ∃ k, (jsSort leaves).length = k + 1 := ⟨leaves.length - 1, by omega⟩
  have hl1 : (jsSort leaves ++ [z]).length = (k + 1) + 1 := by
    rw [List.length_append, hk]; rfl
  have hs1 : rootFrom ((k + 1) + 1) (jsSort leaves ++ [z]) =
      rootFrom (k + 1) (nextLevel (jsSort leaves ++ [z])) :=
    rootFrom_step _ _ (by rw [hl1]; omega)
  have hs2 : rootFrom (k + 1) (jsSort leaves) = rootFrom k (nextLevel (jsSort leaves)) :=
    rootFrom_step _ _ (by omega)
  rw [hl1, hs1, hk, nextLevel_append_last z _ (by rw [hlen]; exact hodd) hz, hs2]
  exact rootFrom_fuel k 1 _ (by rw [nextLevel_length, hk]; omega)

/-! ## Theorems: `modPow` and `modInverse` on every input of their domain (C17, C18, C19) -/

/-- C19. For every modulus `mod ≥ 1`, base `base ≥ 0` and exponent `exp ≥ 0`,
`modPow(base, exp, mod)` returns a value `r` (the loop ends within the `exp` iterations of
fuel, and more fuel gives the same value): `r = 0` when `base mod mod = 0`, for every
exponent, and `r = base ^ exp mod mod` otherwise; in every case `0 ≤ r < mod`. -/
theorem modPow_value_and_range (base exp mod : Int) (hmod : 1 ≤ mod) (hbase : 0 ≤ base)
    (hexp : 0 ≤ exp) :
    ∃ r : Int, modPow base exp mod = some r ∧
      (base % mod = 0 → r = 0) ∧
      (base % mod ≠ 0 → r = base ^ exp.toNat % mod ∧
        ∀ extra : Nat, modPowLoop (exp.toNat + extra) 1 (Int.tmod base mod) exp mod = r) ∧
      0 ≤ r ∧ r < mod := by
  obtain ⟨b, rfl⟩ := Int.eq_ofNat_of_zero_le hbase
  obtain ⟨e, rfl⟩ := Int.eq_ofNat_of_zero_le hexp
  obtain ⟨n, rfl⟩ := Int.eq_ofNat_of_zero_le (le_trans zero_le_one hmod)
  have hn : 0 < n := by omega
  have hmodb : ((b : Int) % (n : Int) = 0) ↔ b % n = 0 := by
    rw [← Int.ofNat_emod]; exact Int.natCast_eq_zero
  refine ⟨((if b % n = 0 then 0 else b ^ e % n : Nat) : Int), modPow_nat b e n hn, ?_, ?_, ?_, ?_⟩
  · intro h
    rw [if_pos (hmodb.mp h)]; rfl
  · intro h
    have hb : ¬ b % n = 0 := fun h0 => h (hmodb.mpr h0)
    rw [if_neg hb]
    refine ⟨?_, ?_⟩
    · simp only [Int.toNat_ofNat]
      push_cast
      rfl
    · intro extra
      have h1 := modPow_nat b e n hn
      unfold modPow at h1
      have hn0 : ¬ ((n : Int) = 0) := by omega
      have hb2 : ¬ (Int.tmod (b : Int) (n : Int) = 0) := by
        show ¬ (((b % n : Nat) : Int) = 0)
        exact_mod_cast hb
      rw [if_neg hn0] at h1
      simp only [hb2, if_false, if_neg hb, Option.some.injEq] at h1
      rw [modPowLoop_fuel _ extra _ _ _ _ (le_refl _)]
      exact h1
  · exact Int.ofNat_nonneg _
  · by_cases hb : b % n = 0
    · rw [if_pos hb]; exact_mod_cast hn
    · rw [if_neg hb]; exact_mod_cast Nat.mod_lt _ hn

/-- The theorem at base 5, exponent 3 and modulus 7. -/
theorem modPow_value_and_range_witness :
    ∃ r : Int, modPow 5 3 7 = some r ∧
      ((5 : Int) % 7 = 0 → r = 0) ∧
      ((5 : Int) % 7 ≠ 0 → r = (5 : Int) ^ (3 : Int).toNat % 7 ∧
        ∀ extra : Nat, modPowLoop ((3 : Int).toNat + extra) 1 (Int.tmod 5 7) 3 7 = r) ∧
      0 ≤ r ∧ r < 7 :=
  modPow_value_and_range 5 3 7 (by decide) (by decide) (by decide)

/-- For a modulus above one and a positive `a` coprime to it, at most one `x` in the range
from zero up to the modulus inverts `a`. -/
theorem inverse_unique (a m x y : Int) (hm : 1 < m) (hx0 : 0 ≤ x) (hxm : x < m)
    (hy0 : 0 ≤ y) (hym : y < m) (hx : (a * x) % m = 1) (hy : (a * y) % m = 1) : y = x := by
  have h1 : (1 : Int) % m = 1 := Int.emod_eq_of_lt (by omega) hm
  have hx1 : a * x ≡ 1 [ZMOD m] := by rw [Int.ModEq, hx, h1]
  have hy1 : a * y ≡ 1 [ZMOD m] := by rw [Int.ModEq, hy, h1]
  have h2 : y * (a * x) ≡ y * 1 [ZMOD m] := hx1.mul_left y
  have h3 : x * (a * y) ≡ x * 1 [ZMOD m] := hy1.mul_left x
  have h4 : y * (a * x) = x * (a * y) := by ring
  rw [h4, mul_one] at h2
  rw [mul_one] at h3
  have h5 : y ≡ x [ZMOD m] := h2.symm.trans h3
  rw [Int.ModEq, Int.emod_eq_of_lt hy0 hym, Int.emod_eq_of_lt hx0 hxm] at h5
  exact h5

/-- C17. For every modulus `m > 1` and every `a ≥ 1` with `gcd(a, m) = 1` (`a` may exceed
`m`), `modInverse(a, m)` returns a value `x` (the loop ends within its fuel, and more fuel
gives the same result), and `x` is the one number with `0 ≤ x < m` and `(a * x) mod m = 1`. -/
theorem modInverse_returns_the_inverse (a m : Int) (hm : 1 < m) (ha : 1 ≤ a)
    (hg : Int.gcd a m = 1) :
    ∃ x : Int, modInverse a m = some x ∧ 0 ≤ x ∧ x < m ∧ (a * x) % m = 1 ∧
      (∀ y : Int, 0 ≤ y → y < m → (a * y) % m = 1 → y = x) ∧
      ∀ extra : Nat,
        modInverseLoop (m.natAbs + extra) a m 1 0 = modInverseLoop m.natAbs a m 1 0 := by
  obtain ⟨a, rfl⟩ := Int.eq_ofNat_of_zero_le (le_trans zero_le_one ha)
  obtain ⟨m, rfl⟩ := Int.eq_ofNat_of_zero_le (le_trans zero_le_one (le_of_lt hm))
  have hm2 : 1 < m := by omega
  have ha2 : 1 ≤ a := by omega
  have hg2 : Nat.gcd a m = 1 := by simpa [Int.gcd] using hg
  obtain ⟨x, h1, h2, h3⟩ := modInverse_nat a m hm2 ha2 hg2
  have hinv : ((a : Int) * (x : Int)) % (m : Int) = 1 := by
    have : (((a * x % m : Nat)) : Int) = ((1 : Nat) : Int) := by rw [h3]
    push_cast at this
    exact this
  refine ⟨(x : Int), h1, Int.ofNat_nonneg _, by omega, hinv, ?_, ?_⟩
  · intro y hy0 hym hy
    exact inverse_unique a m x y hm (Int.ofNat_nonneg _) (by omega) hy0 hym hinv hy
  · intro extra
    exact modInverseLoop_fuel _ extra _ _ _ _ (le_refl _)

/-- The theorem at `a = 17`, `m = 5`: an `a` above the modulus. -/
theorem modInverse_returns_the_inverse_witness :
    ∃ x : Int, modInverse 17 5 = some x ∧ 0 ≤ x ∧ x < 5 ∧ (17 * x) % 5 = 1 ∧
      (∀ y : Int, 0 ≤ y → y < 5 → (17 * y) % 5 = 1 → y = x) ∧
      ∀ extra : Nat,
        modInverseLoop ((5 : Int).natAbs + extra) 17 5 1 0 =
          modInverseLoop (5 : Int).natAbs 17 5 1 0 :=
  modInverse_returns_the_inverse 17 5 (by decide) (by decide) (by decide)

/-- With `a = 0` the loop of `modInverse` does not run and the function returns 1, for every
modulus other than one. -/
theorem modInverse_zero (m : Int) (hm : m ≠ 1) : modInverse 0 m = some 1 := by
  unfold modInverse
  rw [if_neg hm]
  have : modInverseLoop m.natAbs 0 m 1 0 = some 1 := by
    cases m.natAbs <;> simp [modInverseLoop]
  rw [this]
  simp

/-- From an `a` above one that shares a factor with `m`, the loop of `modInverse` reaches
the division by zero, with any fuel from `m` on. -/
theorem modInverseLoop_not_coprime (fuel : Nat) :
    ∀ (a m : Nat) (x y : Int), m ≤ fuel → 1 < a → Nat.gcd a m ≠ 1 →
      modInverseLoop fuel a m x y = none := by
  induction fuel with
  | zero =>
    intro a m x y hf ha hg
    have hm : m = 0 := by omega
    subst hm
    have : ((a : Int) > 1) := by omega
    simp [modInverseLoop_zero_divisor, this]
  | succ k ih =>
    intro a m x y hf ha hg
    have hcond : ((a : Int) > 1) := by omega
    by_cases hm : m = 0
    · subst hm
      simp [modInverseLoop_zero_divisor, hcond]
    · have hmz : ¬ ((m : Int) = 0) := by omega
      have e1 : Int.tmod (a : Int) m = ((a % m : Nat) : Int) := rfl
      rw [modInverseLoop, if_pos hcond, if_neg hmz, e1]
      have hm1 : 1 < m := by
        rcases Nat.lt_or_ge 1 m with h | h
        · exact h
        · exfalso; apply hg
          have : m = 1 := by omega
          subst this; simp
      have hlt : a % m < m := Nat.mod_lt _ (by omega)
      apply ih m (a % m) _ _ (by omega) hm1
      rw [Nat.gcd_comm, ← Nat.gcd_rec, Nat.gcd_comm]
      exact hg

/-- For a modulus above one and an `a` above one that shares a factor with it,
`modInverse(a, m)` fails with the RangeError of the division by zero. -/
theorem modInverse_not_coprime (a m : Nat) (hm : 1 < m) (ha : 1 < a) (hg : Nat.gcd a m ≠ 1) :
    modInverse (a : Int) (m : Int) = none ∧
      ∀ extra : Nat, modInverseLoop (m + extra) a m 1 0 = none := by
  constructor
  · unfold modInverse
    have hm1 : ¬ ((m : Int) = 1) := by omega
    rw [if_neg hm1]
    simp only [Int.natAbs_ofNat]
    rw [modInverseLoop_not_coprime m a m 1 0 (le_refl _) ha hg]
  · intro extra
    exact modInverseLoop_not_coprime (m + extra) a m 1 0 (by omega) ha hg

/-- C18. `modInverse(0, 11)` returns 1 although `gcd(0, 11) = 11`: no arithmetic error is
raised, and the value returned does not invert 0 modulo 11. -/
theorem modInverse_of_zero_returns_one :
    Int.gcd 0 11 ≠ 1 ∧ modInverse 0 11 = some 1 ∧ ((0 : Int) * 1) % 11 ≠ 1 := by
  decide

/-! ## Theorems: the arithmetic of blinding -/

/-- The arithmetic of blinding: for an RSA key (`N = p * q` with `p`, `q` distinct primes,
`e * d` congruent to 1 modulo `lcm (p - 1) (q - 1)`), two tokens `m1`, `m2` in `[0, N)`
coprime to `N` and a number `r1` in `[0, N)` coprime to `N`, there is a number `r2` in
`[0, N)` coprime to `N` for which `(m2 * modPow(r2, e, N)) % N` is
`(m1 * modPow(r1, e, N)) % N`. Whether `createBlindedToken` can draw `r2` is another matter:
see `blinded_token_fits_every_token_of_small_modulus` and
`large_key_blinded_token_fits_one_token_only`. -/
theorem blinded_token_fits_every_token (p q e d m1 m2 r1 : Nat) (hp : p.Prime) (hq : q.Prime)
    (hpq : p ≠ q) (hed : e * d ≡ 1 [MOD Nat.lcm (p - 1) (q - 1)])
    (_hm1 : m1 < p * q) (hg1 : Nat.gcd m1 (p * q) = 1)
    (hm2 : m2 < p * q) (hg2 : Nat.gcd m2 (p * q) = 1)
    (_hr1 : r1 < p * q) (hgr : Nat.gcd r1 (p * q) = 1) :
    ∃ r2 : Nat, r2 < p * q ∧ Nat.gcd r2 (p * q) = 1 ∧
      ∃ blinded : Int,
        blindedMessage (m1 : Int) (r1 : Int) (e : Int) ((p * q : Nat) : Int) = some blinded ∧
        blindedMessage (m2 : Int) (r2 : Int) (e : Int) ((p * q : Nat) : Int) = some blinded := by
  obtain ⟨he, hd, hrsa⟩ := rsa_exponents p q e d hp hq hpq hed
  have hN : 1 < p * q := by
    have := hp.two_le; have := hq.two_le; nlinarith
  have hN0 : 0 < p * q := by omega
  have hm2pos : 1 ≤ m2 := by
    rcases Nat.eq_zero_or_pos m2 with h | h
    · subst h; simp at hg2; omega
    · exact h
  obtain ⟨x, _, _, hx⟩ := modInverse_nat m2 (p * q) hN hm2pos hg2
  have hmx : m2 * x ≡ 1 [MOD p * q] := by
    rw [Nat.ModEq, hx, Nat.mod_eq_of_lt hN]
  have hxc : Nat.Coprime x (p * q) :=
    Nat.coprime_of_mul_modEq_one m2 (by rw [mul_comm x m2]; exact hmx)
  have hc : Nat.Coprime ((m1 * x) ^ d * r1) (p * q) :=
    Nat.Coprime.mul (Nat.Coprime.pow_left d (Nat.Coprime.mul hg1 hxc)) hgr
  refine ⟨(m1 * x) ^ d * r1 % (p * q), Nat.mod_lt _ hN0, ?_, ?_⟩
  · rw [← Nat.gcd_rec, Nat.gcd_comm]; exact hc
  · refine ⟨((m1 * (r1 ^ e % (p * q)) % (p * q) : Nat) : Int),
      blindedMessage_nat m1 r1 e (p * q) hN0 he, ?_⟩
    rw [blindedMessage_nat m2 _ e (p * q) hN0 he]
    congr 2
    have h1 : ((m1 * x) ^ d * r1 % (p * q)) ^ e ≡ ((m1 * x) ^ d * r1) ^ e [MOD p * q] :=
      (Nat.mod_modEq _ _).pow e
    have h2 : ((m1 * x) ^ d * r1) ^ e = (m1 * x) ^ (e * d) * r1 ^ e := by
      rw [mul_pow, ← pow_mul, mul_comm d e]
    have h3 : ((m1 * x) ^ d * r1) ^ e ≡ m1 * x * r1 ^ e [MOD p * q] := by
      rw [h2]; exact (hrsa (m1 * x)).mul_right _
    have h4 : m2 * (((m1 * x) ^ d * r1 % (p * q)) ^ e % (p * q)) ≡
        m2 * (m1 * x * r1 ^ e) [MOD p * q] :=
      (((Nat.mod_modEq _ _).trans h1).trans h3).mul_left m2
    have h5 : m2 * (m1 * x * r1 ^ e) = m2 * x * (m1 * r1 ^ e) := by ring
    have h6 : m2 * x * (m1 * r1 ^ e) ≡ 1 * (m1 * r1 ^ e) [MOD p * q] := hmx.mul_right _
    have h7 : m1 * r1 ^ e ≡ m1 * (r1 ^ e % (p * q)) [MOD p * q] :=
      ((Nat.mod_modEq _ _).mul_left m1).symm
    rw [h5] at h4
    rw [one_mul] at h6
    exact (h4.trans h6).trans h7

/-- The theorem at the key `N = 3 * 11`, `e = 3`, `d = 7`, tokens 4 and 5 and blinding
factor 2. -/
theorem blinded_token_fits_every_token_witness :
    ∃ r2 : Nat, r2 < 3 * 11 ∧ Nat.gcd r2 (3 * 11) = 1 ∧
      ∃ blinded : Int,
        blindedMessage ((4 : Nat) : Int) ((2 : Nat) : Int) ((3 : Nat) : Int)
          ((3 * 11 : Nat) : Int) = some blinded ∧
        blindedMessage ((5 : Nat) : Int) (r2 : Int) ((3 : Nat) : Int)
          ((3 * 11 : Nat) : Int) = some blinded :=
  blinded_token_fits_every_token 3 11 3 7 4 5 2 (by norm_num) (by norm_num) (by decide)
    (by decide) (by decide) (by decide) (by decide) (by decide) (by decide) (by decide)

/-! ## Theorems: the sampler of the blinding factor (C16) -/

theorem byteHex_toList : ∀ b : Fin 256,
    (byteHex b).toList = [Nat.digitChar (b / 16), Nat.digitChar (b % 16)] := by decide

theorem hexDigitValue_digitChar : ∀ d : Fin 16, hexDigitValue (Nat.digitChar d) = some d.val := by
  decide

theorem isJsWhiteSpace_digitChar : ∀ d : Fin 16, isJsWhiteSpace (Nat.digitChar d) = false := by
  decide

/-- Reading the two hexadecimal digits of a byte multiplies the value read so far by 256 and
adds the byte. -/
theorem hexStep_byteHex (a b : Nat) (hb : b < 256) :
    (byteHex b).toList.foldl hexStep (some a) = some (256 * a + b) := by
  have h1 := byteHex_toList ⟨b, hb⟩
  have h2 := hexDigitValue_digitChar ⟨b / 16, by omega⟩
  have h3 := hexDigitValue_digitChar ⟨b % 16, by omega⟩
  simp only at h1 h2 h3
  rw [h1]
  simp only [List.foldl, hexStep, h2, h3]
  congr 1
  omega

/-- The hexadecimal text of a list of bytes reads as their big-endian number. -/
theorem foldl_hexStep_bytes (bytes : List Nat) :
    ∀ a : Nat, (∀ b ∈ bytes, b < 256) →
      (bytes.map (fun b => (byteHex b).toList)).flatten.foldl hexStep (some a) =
        some (bytes.foldl (fun acc b => 256 * acc + b) a) := by
  induction bytes with
  | nil => intro a _; rfl
  | cons b rest ih =>
    intro a h
    simp only [List.map_cons, List.flatten_cons, List.foldl_append, List.foldl_cons]
    rw [hexStep_byteHex a b (h b (List.mem_cons_self _ _))]
    exact ih _ (fun c hc => h c (List.mem_cons_of_mem _ hc))

/-- The hexadecimal text of bytes ends in no white space. -/
theorem hex_text_no_trailing_space (bytes : List Nat) (h : ∀ b ∈ bytes, b < 256) :
    (((bytes.map (fun b => (byteHex b).toList)).flatten.reverse.dropWhile
      isJsWhiteSpace).reverse) = (bytes.map (fun b => (byteHex b).toList)).flatten := by
  have hall : ∀ c ∈ (bytes.map (fun b => (byteHex b).toList)).flatten,
      isJsWhiteSpace c = false := by
    intro c hc
    rw [List.mem_flatten] at hc
    obtain ⟨l, hl, hcl⟩ := hc
    rw [List.mem_map] at hl
    obtain ⟨b, hb, rfl⟩ := hl
    have h1 := byteHex_toList ⟨b, h b hb⟩
    simp only at h1
    rw [h1] at hcl
    simp only [List.mem_cons, List.mem_singleton, List.not_mem_nil, or_false] at hcl
    rcases hcl with rfl | rfl
    · exact isJsWhiteSpace_digitChar ⟨b / 16, by have := h b hb; omega⟩
    · exact isJsWhiteSpace_digitChar ⟨b % 16, by omega⟩
  generalize (bytes.map (fun b => (byteHex b).toList)).flatten = cs at hall
  have : cs.reverse.dropWhile isJsWhiteSpace = cs.reverse := by
    cases hr : cs.reverse with
    | nil => rfl
    | cons c rest =>
      have hc : c ∈ cs := by
        rw [← List.mem_reverse, hr]; exact List.mem_cons_self _ _
      simp [List.dropWhile, hall c hc]
  rw [this, List.reverse_reverse]

/-- The value of `randomBigInt`: the big-endian number of the draw, reduced by `% max`. -/
theorem randomBigInt_eq (bytes : List Nat) (max : Int) (h : IsRandomDraw bytes)
    (hmax : max ≠ 0) :
    randomBigInt bytes max = some (Int.tmod (bigEndian bytes : Int) max) := by
  obtain ⟨hlen, hb⟩ := h
  have hparse : parseBigIntHex (String.join (bytes.map byteHex)) = some (bigEndian bytes) := by
    unfold parseBigIntHex
    have hdata : (String.join (bytes.map byteHex)).toList =
        (bytes.map (fun b => (byteHex b).toList)).flatten := by
      show (String.join (bytes.map byteHex)).data = _
      rw [String.data_join, List.map_map]
      rfl
    simp only [hdata, hex_text_no_trailing_space bytes hb]
    have hne : (bytes.map (fun b => (byteHex b).toList)).flatten.isEmpty = false := by
      cases bytes with
      | nil => simp at hlen
      | cons b rest =>
        have h1 := byteHex_toList ⟨b, hb b (List.mem_cons_self _ _)⟩
        simp only at h1
        simp only [List.map_cons, List.flatten_cons, h1]
        rfl
    rw [hne]
    simp only [Bool.false_eq_true, if_false]
    exact foldl_hexStep_bytes bytes 0 hb
  unfold randomBigInt
  simp only [hparse, if_neg hmax]

/-- Bytes denote a number below `256 ^ length`, whatever was read before. -/
theorem foldl_bytes_lt (bytes : List Nat) :
    ∀ a : Nat, (∀ b ∈ bytes, b < 256) →
      bytes.foldl (fun acc b => 256 * acc + b) a < (a + 1) * 256 ^ bytes.length := by
  induction bytes with
  | nil => intro a _; simp
  | cons b rest ih =>
    intro a h
    have hb := h b (List.mem_cons_self _ _)
    have := ih (256 * a + b) (fun c hc => h c (List.mem_cons_of_mem _ hc))
    simp only [List.foldl_cons, List.length_cons]
    calc _ < (256 * a + b + 1) * 256 ^ rest.length := this
      _ ≤ (256 * (a + 1)) * 256 ^ rest.length := Nat.mul_le_mul_right _ (by omega)
      _ = (a + 1) * 256 ^ (rest.length + 1) := by ring

/-- A draw of 32 bytes denotes a number below `2 ^ 256`. -/
theorem bigEndian_lt (bytes : List Nat) (h : IsRandomDraw bytes) : bigEndian bytes < 2 ^ 256 := by
  have := foldl_bytes_lt bytes 0 h.2
  rw [h.1] at this
  simpa [bigEndian] using this

theorem bytesOf_length (k : Nat) : ∀ v : Nat, (bytesOf k v).length = k := by
  induction k with
  | zero => intro v; rfl
  | succ k ih => intro v; simp [bytesOf, ih]

theorem bytesOf_lt (k : Nat) : ∀ v : Nat, ∀ b ∈ bytesOf k v, b < 256 := by
  induction k with
  | zero => intro v b hb; simp [bytesOf] at hb
  | succ k ih =>
    intro v b hb
    simp only [bytesOf, List.mem_append, List.mem_singleton] at hb
    rcases hb with hb | rfl
    · exact ih _ b hb
    · omega

theorem bigEndian_bytesOf (k : Nat) : ∀ v : Nat, bigEndian (bytesOf k v) = v % 256 ^ k := by
  induction k with
  | zero => intro v; simp [bytesOf, bigEndian, Nat.mod_one]
  | succ k ih =>
    intro v
    have h := ih (v / 256)
    unfold bigEndian at h ⊢
    simp only [bytesOf, List.foldl_append, List.foldl_cons, List.foldl_nil, h]
    rw [pow_succ, mul_comm (256 ^ k) 256, Nat.mod_mul]
    omega

/-- For every modulus `max ≥ 1`, every draw of `randomBigInt(max)` yields a `v` with
`0 ≤ v < max` and `v < 2 ^ 256`, and every `v` with `0 ≤ v < max` and `v < 2 ^ 256` is
produced by some draw of the 32 bytes. -/
theorem randomBigInt_range_and_cover (max : Int) (hmax : 1 ≤ max) :
    (∀ bytes : List Nat, IsRandomDraw bytes →
      ∃ v : Int, randomBigInt bytes max = some v ∧ 0 ≤ v ∧ v < max ∧ v < 2 ^ 256) ∧
    (∀ v : Int, 0 ≤ v → v < max → v < 2 ^ 256 →
      ∃ bytes : List Nat, IsRandomDraw bytes ∧ randomBigInt bytes max = some v) := by
  have hmax0 : max ≠ 0 := by omega
  constructor
  · intro bytes h
    have hlt := bigEndian_lt bytes h
    have hnn : (0 : Int) ≤ (bigEndian bytes : Int) := Int.ofNat_nonneg _
    refine ⟨_, randomBigInt_eq bytes max h hmax0, ?_, ?_, ?_⟩
    · rw [Int.tmod_eq_emod hnn (by omega)]
      exact Int.emod_nonneg _ hmax0
    · rw [Int.tmod_eq_emod hnn (by omega)]
      exact Int.emod_lt_of_pos _ (by omega)
    · rw [Int.tmod_eq_emod hnn (by omega)]
      have h1 : (bigEndian bytes : Int) % max ≤ (bigEndian bytes : Int) := by
        obtain ⟨m, rfl⟩ := Int.eq_ofNat_of_zero_le (le_trans zero_le_one hmax)
        rw [← Int.ofNat_emod]
        exact_mod_cast Nat.mod_le _ _
      have h2 : ((bigEndian bytes : Nat) : Int) < ((2 ^ 256 : Nat) : Int) := by
        exact_mod_cast hlt
      have h3 : ((2 ^ 256 : Nat) : Int) = (2 : Int) ^ 256 := by norm_num
      omega
  · intro v hv0 hvm hv
    obtain ⟨n, rfl⟩ := Int.eq_ofNat_of_zero_le hv0
    have hn : n < 2 ^ 256 := by exact_mod_cast hv
    have hdraw : IsRandomDraw (bytesOf 32 n) := ⟨bytesOf_length 32 n, bytesOf_lt 32 n⟩
    refine ⟨bytesOf 32 n, hdraw, ?_⟩
    rw [randomBigInt_eq _ max hdraw hmax0, bigEndian_bytesOf]
    have h1 : n % 256 ^ 32 = n := Nat.mod_eq_of_lt (by
      have : (256 : Nat) ^ 32 = 2 ^ 256 := by norm_num
      omega)
    rw [h1, Int.tmod_eq_emod (Int.ofNat_nonneg _) (by omega), Int.emod_eq_of_lt hv0 hvm]

/-- C16. With the modulus of the Census key, which is above `2 ^ 256`, no draw of the 32
random bytes makes `randomBigInt` return `2 ^ 256`, a value of the interval `[0, modulus)`:
the sampler does not cover the interval. -/
theorem randomBigInt_never_returns_two_pow_256 :
    (0 : Int) ≤ 2 ^ 256 ∧ (2 : Int) ^ 256 < CENSUS_PUBLIC_KEY.N ∧
      ¬ ∃ bytes : List Nat,
        IsRandomDraw bytes ∧ randomBigInt bytes CENSUS_PUBLIC_KEY.N = some (2 ^ 256) := by
  refine ⟨by norm_num, by decide, ?_⟩
  rintro ⟨bytes, hdraw, hv⟩
  obtain ⟨v, h1, _, _, h4⟩ :=
    (randomBigInt_range_and_cover CENSUS_PUBLIC_KEY.N (by decide)).1 bytes hdraw
  rw [hv] at h1
  have : (2 : Int) ^ 256 = v := Option.some.inj h1
  omega

/-! ## Theorems: what the blinded token hides (C15) -/

set_option exponentiation.threshold 1024

/-- For a modulus up to `2 ^ 256` the number `r2` of `blinded_token_fits_every_token` is a
blinding factor that `createBlindedToken` draws: some draw of the 32 random bytes makes
`randomBigInt(N)` return it. -/
theorem blinded_token_fits_every_token_of_small_modulus (p q e d m1 m2 r1 : Nat)
    (hp : p.Prime) (hq : q.Prime) (hpq : p ≠ q)
    (hed : e * d ≡ 1 [MOD Nat.lcm (p - 1) (q - 1)]) (hsmall : p * q ≤ 2 ^ 256)
    (hm1 : m1 < p * q) (hg1 : Nat.gcd m1 (p * q) = 1)
    (hm2 : m2 < p * q) (hg2 : Nat.gcd m2 (p * q) = 1)
    (hr1 : r1 < p * q) (hgr : Nat.gcd r1 (p * q) = 1) :
    ∃ (bytes : List Nat) (r2 : Nat), IsRandomDraw bytes ∧
      randomBigInt bytes ((p * q : Nat) : Int) = some (r2 : Int) ∧
      Nat.gcd r2 (p * q) = 1 ∧
      ∃ blinded : Int,
        blindedMessage (m1 : Int) (r1 : Int) (e : Int) ((p * q : Nat) : Int) = some blinded ∧
        blindedMessage (m2 : Int) (r2 : Int) (e : Int) ((p * q : Nat) : Int) = some blinded := by
  obtain ⟨r2, hr2, hg, hb⟩ :=
    blinded_token_fits_every_token p q e d m1 m2 r1 hp hq hpq hed hm1 hg1 hm2 hg2 hr1 hgr
  have hN : 1 < p * q := by
    have := hp.two_le; have := hq.two_le; nlinarith
  have hlt : ((r2 : Nat) : Int) < 2 ^ 256 := by
    have : r2 < 2 ^ 256 := by omega
    exact_mod_cast this
  obtain ⟨bytes, hdraw, hv⟩ :=
    (randomBigInt_range_and_cover ((p * q : Nat) : Int) (by omega)).2 (r2 : Int)
      (Int.ofNat_nonneg _) (by exact_mod_cast hr2) hlt
  exact ⟨bytes, r2, hdraw, hv, hg, hb⟩

/-- The prime `2 ^ 127 - 1`, by the Lucas-Lehmer test. -/
theorem sampleLargeP_prime : sampleLargeP.Prime := by
  show (mersenne 127).Prime
  exact lucas_lehmer_sufficiency _ (by norm_num) (by norm_num)

/-- The prime `2 ^ 521 - 1`, by the Lucas-Lehmer test. -/
theorem sampleLargeQ_prime : sampleLargeQ.Prime := by
  show (mersenne 521).Prime
  exact lucas_lehmer_sufficiency _ (by norm_num) (by norm_num)

/-- For an RSA key the blinded message of a token coprime to `N` determines the blinding
factor in `[0, N)`. -/
theorem blinding_factor_unique (p q e d m r r' : Nat) (hp : p.Prime) (hq : q.Prime)
    (hpq : p ≠ q) (hed : e * d ≡ 1 [MOD Nat.lcm (p - 1) (q - 1)])
    (hg : Nat.gcd m (p * q) = 1) (hr : r < p * q) (hr' : r' < p * q)
    (h : m * (r ^ e % (p * q)) % (p * q) = m * (r' ^ e % (p * q)) % (p * q)) : r = r' := by
  obtain ⟨_, _, hrsa⟩ := rsa_exponents p q e d hp hq hpq hed
  have h1 : m * r ^ e ≡ m * r' ^ e [MOD p * q] :=
    (((Nat.mod_modEq _ _).mul_left m).symm.trans h).trans ((Nat.mod_modEq _ _).mul_left m)
  have hg' : Nat.gcd (p * q) m = 1 := by rw [Nat.gcd_comm]; exact hg
  have h2 : r ^ e ≡ r' ^ e [MOD p * q] := Nat.ModEq.cancel_left_of_coprime hg' h1
  have h3 : r ^ (e * d) ≡ r' ^ (e * d) [MOD p * q] := by
    rw [pow_mul, pow_mul]; exact h2.pow d
  have h4 : r ≡ r' [MOD p * q] := ((hrsa r).symm.trans h3).trans (hrsa r')
  rw [Nat.ModEq, Nat.mod_eq_of_lt hr, Nat.mod_eq_of_lt hr'] at h4
  exact h4

/-- C15. With the RSA key `N = (2 ^ 127 - 1) * (2 ^ 521 - 1)`, `e = 65537`, the tokens 3 and
5 (in range and coprime to `N`) and the blinding factor 7 (coprime to `N`, and drawn by
`createBlindedToken` for some 32 random bytes): the blinded message of the token 3 is
computed, and no draw of the 32 random bytes gives `createBlindedToken` a blinding factor
`randomBigInt(N)` with which the token 5 has that blinded message. The blinded token the
authority sees is not consistent with the token 5. -/
theorem large_key_blinded_token_fits_one_token_only :
    sampleLargeP.Prime ∧ sampleLargeQ.Prime ∧ sampleLargeP ≠ sampleLargeQ ∧
    65537 * sampleLargeD ≡ 1 [MOD Nat.lcm (sampleLargeP - 1) (sampleLargeQ - 1)] ∧
    3 < sampleLargeP * sampleLargeQ ∧ Nat.gcd 3 (sampleLargeP * sampleLargeQ) = 1 ∧
    5 < sampleLargeP * sampleLargeQ ∧ Nat.gcd 5 (sampleLargeP * sampleLargeQ) = 1 ∧
    Nat.gcd 7 (sampleLargeP * sampleLargeQ) = 1 ∧
    (∃ bytes : List Nat, IsRandomDraw bytes ∧
      randomBigInt bytes ((sampleLargeP * sampleLargeQ : Nat) : Int) = some 7) ∧
    (∃ blinded : Int,
      blindedMessage 3 7 65537 ((sampleLargeP * sampleLargeQ : Nat) : Int) = some blinded) ∧
    ¬ ∃ (bytes : List Nat) (r2 : Int), IsRandomDraw bytes ∧
        randomBigInt bytes ((sampleLargeP * sampleLargeQ : Nat) : Int) = some r2 ∧
        blindedMessage 5 r2 65537 ((sampleLargeP * sampleLargeQ : Nat) : Int) =
          blindedMessage 3 7 65537 ((sampleLargeP * sampleLargeQ : Nat) : Int) := by
  refine ⟨sampleLargeP_prime, sampleLargeQ_prime, by decide, by decide, by decide, by decide,
    by decide, by decide, by decide, ⟨List.replicate 31 0 ++ [7], by decide, by decide⟩,
    ⟨_, blindedMessage_nat 3 7 65537 _ (by decide) (by decide)⟩, ?_⟩
  rintro ⟨bytes, r2, hdraw, hr2, hb⟩
  obtain ⟨v, h1, h2, h3, h4⟩ :=
    (randomBigInt_range_and_cover ((sampleLargeP * sampleLargeQ : Nat) : Int)
      (by decide)).1 bytes hdraw
  rw [hr2] at h1
  obtain rfl : r2 = v := Option.some.inj h1
  obtain ⟨n, rfl⟩ := Int.eq_ofNat_of_zero_le h2
  have hn : n < sampleLargeP * sampleLargeQ := by exact_mod_cast h3
  have hstar : blindedMessage ((5 : Nat) : Int) ((sampleLargeR : Nat) : Int) ((65537 : Nat) : Int)
      ((sampleLargeP * sampleLargeQ : Nat) : Int) =
      blindedMessage 3 7 65537 ((sampleLargeP * sampleLargeQ : Nat) : Int) := by decide
  have hb' : blindedMessage ((5 : Nat) : Int) (n : Int) ((65537 : Nat) : Int)
      ((sampleLargeP * sampleLargeQ : Nat) : Int) =
      blindedMessage ((5 : Nat) : Int) ((sampleLargeR : Nat) : Int) ((65537 : Nat) : Int)
      ((sampleLargeP * sampleLargeQ : Nat) : Int) := hb.trans hstar.symm
  rw [blindedMessage_nat 5 n 65537 _ (by decide) (by decide),
    blindedMessage_nat 5 sampleLargeR 65537 _ (by decide) (by decide)] at hb'
  have hb2 := Int.ofNat.inj (Option.some.inj hb')
  have heq := blinding_factor_unique sampleLargeP sampleLargeQ 65537 sampleLargeD 5 n
    sampleLargeR sampleLargeP_prime sampleLargeQ_prime (by decide) (by decide) (by decide) hn
    (by decide) hb2
  have hbig : (2 : Int) ^ 256 ≤ (sampleLargeR : Int) := by decide
  rw [heq] at h4
  omega

set_option exponentiation.threshold 256

/-! ## Theorems: closing twice (C12) -/

/-- Every close-election request is answered with a record of the current `votesDB`,
whatever was closed before. -/
theorem closeElectionRoute_always_publishes (now : String) (st : UrnState)
    (body : CloseElectionBody) :
    (closeElectionRoute now st body).1 = st ∧
      ∃ record, (closeElectionRoute now st body).2.published = some record ∧
        record.totalVotes = st.votesDB.length ∧ record.timestampClosed = now :=
  ⟨rfl, _, rfl, rfl, rfl⟩

/-- C12. Two close-election requests for the election `PLEBISCITO_2026`, one after the other:
the first succeeds, and the second is answered with status 200 and a second record (with
its own `timestampClosed`) instead of being rejected. -/
theorem second_close_election_publishes_again :
    (closeElectionRoute "2026-03-08T21:00:00.000Z" UrnState.empty
        ⟨some "PLEBISCITO_2026"⟩).2.status = 200 ∧
      (closeElectionRoute "2026-03-08T21:05:00.000Z"
        (closeElectionRoute "2026-03-08T21:00:00.000Z" UrnState.empty
          ⟨some "PLEBISCITO_2026"⟩).1 ⟨some "PLEBISCITO_2026"⟩).2.status = 200 ∧
      ((closeElectionRoute "2026-03-08T21:05:00.000Z"
        (closeElectionRoute "2026-03-08T21:00:00.000Z" UrnState.empty
          ⟨some "PLEBISCITO_2026"⟩).1 ⟨some "PLEBISCITO_2026"⟩).2.published.map
            (fun record => (record.electionId, record.timestampClosed))) =
        some ("PLEBISCITO_2026", "2026-03-08T21:05:00.000Z") := by
  refine ⟨rfl, rfl, rfl⟩

/-! ## Theorems: requests that fail half-way (C13, C14) -/

/-- C13. From the empty Urn, the submit-vote request with the number 1 as `ballotTokenHex`
(and signature `"1"`) passes the signature check, burns the token, and then fails with
status 500 when the token is hashed: `usedTokensDB` has one more element and `votesDB` has
no record, so burned tokens and vote records no longer agree in number. -/
theorem submitVote_of_number_token_burns_without_record :
    submitVote CENSUS_PUBLIC_KEY 0 UrnState.empty
        ⟨.prim (.str "A"), .prim (.num "1"), .prim (.str "1")⟩ =
      (⟨[.prim (.num "1")], []⟩, .internalError) ∧
    UrnResponse.status .internalError = 500 := by
  decide

/-- C14. From the empty registry, the authorize-ballot request with the number 7 as `voterId`
signs the blinded token, adds 7 to `votedRegistry`, and then fails with status 500 in the
log line: the voter is registered although no blind signature was returned. -/
theorem authorizeBallot_of_number_voter_registers_without_signature :
    (authorizeBallot CENSUS_KEY [] ⟨.prim (.str "1"), .prim (.num "7")⟩).votedRegistry =
        [.prim (.num "7")] ∧
      (authorizeBallot CENSUS_KEY [] ⟨.prim (.str "1"), .prim (.num "7")⟩).response.status = 500 ∧
      (authorizeBallot CENSUS_KEY [] ⟨.prim (.str "1"), .prim (.num "7")⟩).issued = false ∧
      setHas (authorizeBallot CENSUS_KEY [] ⟨.prim (.str "1"), .prim (.num "7")⟩).votedRegistry
        (.prim (.num "7")) = true := by
  decide

/-! ## Theorems: the tally counts (C11) -/

theorem lookup_objectUpsert (o : JsObject) (key k : String) (v : TallyVal) :
    (objectUpsert o key v).lookup k = if k = key then some v else o.lookup k := by
  induction o with
  | nil =>
    by_cases h : k = key
    · simp [objectUpsert, List.lookup, h]
    · have h2 : (k == key) = false := by simpa using h
      simp [objectUpsert, List.lookup, h, h2]
  | cons kv rest ih =>
    obtain ⟨k0, w⟩ := kv
    unfold objectUpsert
    by_cases hk : k0 = key
    · subst hk
      rw [if_pos rfl]
      by_cases h : k = k0
      · simp [List.lookup, h]
      · have h2 : (k == k0) = false := by simpa using h
        simp [List.lookup, h, h2]
    · rw [if_neg hk]
      by_cases h0 : k = k0
      · subst h0
        have : ¬ k = key := hk
        simp [List.lookup, this]
      · have h2 : (k == k0) = false := by simpa using h0
        simp only [List.lookup, h2, ih]

/-- The tally loop counts: started from an object that holds for every key the number
`c key` (no property when it is zero), it ends with `c key` plus the number of votes for
`key`, as long as no option is an `Object.prototype` key. -/
theorem tally_foldl_lookup (votes : List VoteRecord) :
    ∀ (o : JsObject) (c : String → Nat),
      (∀ k, o.lookup k = if c k = 0 then none else some (.num (c k))) →
      (∀ v ∈ votes, isPrototypeKey v.eleccion.toStr = false) →
      ∀ k, (votes.foldl (fun tally vote =>
          objectSet tally vote.eleccion.toStr (tallyIncrement tally vote.eleccion.toStr)) o).lookup k
        = if c k + votes.countP (fun v => v.eleccion.toStr = k) = 0 then none
          else some (.num (c k + votes.countP (fun v => v.eleccion.toStr = k))) := by
  induction votes with
  | nil => intro o c h _ k; simpa using h k
  | cons v rest ih =>
    intro o c h hsafe k
    have hv : isPrototypeKey v.eleccion.toStr = false := hsafe v (by simp)
    have hnone : inheritedText v.eleccion.toStr = none := by
      unfold isPrototypeKey at hv
      cases hi : inheritedText v.eleccion.toStr with
      | none => rfl
      | some t => rw [hi] at hv; simp at hv
    have hkey : v.eleccion.toStr ≠ "__proto__" := by
      intro hk; rw [hk, inheritedText_proto] at hnone; simp at hnone
    have hinc : tallyIncrement o v.eleccion.toStr = .num (c v.eleccion.toStr + 1) := by
      unfold tallyIncrement
      rw [h v.eleccion.toStr]
      by_cases hc : c v.eleccion.toStr = 0
      · simp [hc, hnone]
      · simp [hc]
    have hstep : ∀ k', (objectSet o v.eleccion.toStr (tallyIncrement o v.eleccion.toStr)).lookup k'
        = if (c k' + if v.eleccion.toStr = k' then 1 else 0) = 0 then none
          else some (.num (c k' + if v.eleccion.toStr = k' then 1 else 0)) := by
      intro k'
      unfold objectSet
      rw [if_neg hkey, hinc, lookup_objectUpsert]
      by_cases hk' : k' = v.eleccion.toStr
      · subst hk'; simp
      · have hk2 : ¬ v.eleccion.toStr = k' := fun e => hk' e.symm
        simp only [hk', hk2, if_false, Nat.add_zero]
        exact h k'
    have := ih _ (fun k' => c k' + if v.eleccion.toStr = k' then 1 else 0) hstep
      (fun w hw => hsafe w (List.mem_cons_of_mem _ hw)) k
    simp only [List.foldl_cons]
    rw [this]
    have hcount : (v :: rest).countP (fun v => v.eleccion.toStr = k) =
        rest.countP (fun v => v.eleccion.toStr = k) + if v.eleccion.toStr = k then 1 else 0 := by
      rw [List.countP_cons]
      simp
    rw [hcount]
    have e : c k + (if v.eleccion.toStr = k then 1 else 0) +
        rest.countP (fun v => v.eleccion.toStr = k) =
        c k + (rest.countP (fun v => v.eleccion.toStr = k) +
          if v.eleccion.toStr = k then 1 else 0) := by omega
    rw [e]

/-- For votes whose options are no `Object.prototype` keys, `closeElection` counts: `results`
holds for every option the number of records with that option (read as a property key) and
no property for an option without votes, `totalVotes` is the number of records, and the
values of `results` are numbers that sum to `totalVotes`. -/
theorem closeElection_counts_plain_options (votes : List VoteRecord) (eid now : String)
    (hsafe : ∀ v ∈ votes, isPrototypeKey v.eleccion.toStr = false) :
    (∀ o : String, (closeElection votes eid now).results.lookup o =
      if votes.countP (fun v => v.eleccion.toStr = o) = 0 then none
      else some (.num (votes.countP (fun v => v.eleccion.toStr = o)))) ∧
    (closeElection votes eid now).totalVotes = votes.length ∧
    tallySum (closeElection votes eid now).results = .num votes.length := by
  refine ⟨?_, rfl, ?_⟩
  · intro o
    have := tally_foldl_lookup votes [] (fun _ => 0) (fun k => by simp [List.lookup]) hsafe o
    simpa [closeElection, tallyVotes] using this
  · obtain ⟨h1, h2⟩ := tallyVotes_numbers votes hsafe
    have := tallySum_of_allNumbers (tallyVotes votes) h1
    rw [h2] at this
    exact this

/-- C11. For the single vote record with option `toString`, `results` holds for `toString`
the text of the inherited method followed by `1`, not the count 1, and the values of
`results` do not sum to `totalVotes`; the votes A, B, A of the scenario are counted as
the claim says. -/
theorem closeElection_miscounts_prototype_option :
    (closeElection [⟨"r1", .str "toString", none, 0⟩] "PLEBISCITO_2026" "t").results =
        [("toString", .str "function toString() \x7b [native code] \x7d1")] ∧
      (closeElection [⟨"r1", .str "toString", none, 0⟩] "PLEBISCITO_2026" "t").totalVotes = 1 ∧
      tallySum (closeElection [⟨"r1", .str "toString", none, 0⟩] "PLEBISCITO_2026" "t").results ≠
        .num 1 ∧
      (closeElection [⟨"r1", .str "A", none, 0⟩, ⟨"r2", .str "B", none, 0⟩,
          ⟨"r3", .str "A", none, 0⟩] "PLEBISCITO_2026" "t").results =
        [("A", .num 2), ("B", .num 1)] := by
  decide

/-! ## Theorems: a chain built by `addBlock` (C20) -/

/-- In a chain whose first block has index `start` and whose indices go up by one, the block
at position `i` has index `start + i`. -/
theorem index_of_chain (blocks : List AuditBlock) :
    ∀ start : Nat, (∀ b, blocks.head? = some b → b.index = start) →
      blocks.Chain' (fun a b => b.index = a.index + 1 ∧ b.previousHash = a.hash) →
      ∀ b ∈ blocks, b.index < start + blocks.length ∧
        (blocks.getLast? = some b → b.index + 1 = start + blocks.length) := by
  induction blocks with
  | nil => intro start _ _ b hb; simp at hb
  | cons a rest ih =>
    intro start hhead hchain b hb
    have ha : a.index = start := hhead a rfl
    have hrest := ih (start + 1)
      (fun c hc => by
        have := List.Chain'.rel_head? hchain hc
        omega)
      hchain.tail
    rcases List.mem_cons.mp hb with rfl | hb
    · refine ⟨by simp; omega, ?_⟩
      intro hlast
      cases rest with
      | nil => simp; omega
      | cons c more =>
        have hmem : b ∈ c :: more := by
          have h1 : (c :: more).getLast? = some b := by
            rw [← hlast]; simp [List.getLast?_cons_cons]
          exact List.mem_of_getLast?_eq_some h1
        have h1 : (c :: more).getLast? = some b := by
          rw [← hlast]; simp [List.getLast?_cons_cons]
        have := (hrest b hmem).2 h1
        simp only [List.length_cons] at this ⊢
        omega
    · refine ⟨by have := (hrest b hb).1; simp only [List.length_cons]; omega, ?_⟩
      intro hlast
      have h1 : rest.getLast? = some b := by
        cases rest with
        | nil => simp at hb
        | cons c more => rw [← hlast]; simp [List.getLast?_cons_cons]
      have := (hrest b hb).2 h1
      simp only [List.length_cons]
      omega

/-- Putting a block whose index is above every stored index appends it. -/
theorem storePut_of_top (blocks : List AuditBlock) (block : AuditBlock)
    (h : ∀ b ∈ blocks, b.index < block.index) : storePut blocks block = blocks ++ [block] := by
  unfold storePut
  have h1 : blocks.filter (fun b => b.index < block.index) = blocks :=
    List.filter_eq_self.mpr (fun b hb => by simpa using h b hb)
  have h2 : blocks.filter (fun b => block.index < b.index) = [] :=
    List.filter_eq_nil_iff.mpr (fun b hb => by have := h b hb; simp; omega)
  rw [h1, h2, List.append_nil]

/-- An `addBlock` call that returns appends its block to the store and keeps the store a
chain: the first block has index 0 and the genesis `previousHash`, every later block follows
the one before it, and every block carries the hash of its other properties. -/
theorem addBlock_keeps_chain (blocks : List AuditBlock) (call : AddBlockCall)
    (stored : List AuditBlock) (block : AuditBlock)
    (hhead : ∀ b, blocks.head? = some b →
      b.index = 0 ∧ b.previousHash = String.mk (List.replicate 64 '0'))
    (hchain : blocks.Chain' (fun a b => b.index = a.index + 1 ∧ b.previousHash = a.hash))
    (hhash : ∀ b ∈ blocks, b.hash = hashBlock b)
    (hadd : addBlock blocks call = some (stored, block)) :
    stored = blocks ++ [block] ∧
      (∀ b, stored.head? = some b →
        b.index = 0 ∧ b.previousHash = String.mk (List.replicate 64 '0')) ∧
      stored.Chain' (fun a b => b.index = a.index + 1 ∧ b.previousHash = a.hash) ∧
      (∀ b ∈ stored, b.hash = hashBlock b) := by
  have hidx := index_of_chain blocks 0 (fun b hb => (hhead b hb).1) hchain
  unfold addBlock at hadd
  simp only at hadd
  split at hadd
  · exact absurd hadd (by simp)
  · rename_i shadow hshadow
    split at hadd
    · exact absurd hadd (by simp)
    · rename_i signature hsig
      simp only [Option.some.injEq, Prod.mk.injEq] at hadd
      obtain ⟨hstored, hblock⟩ := hadd
      have hbi : block.index = blocks.length := by
        rw [← hblock]
        cases hl : getLastBlock blocks with
        | none =>
          have : blocks = [] := by simpa [getLastBlock] using hl
          simp [this]
        | some last =>
          have hmem : last ∈ blocks := List.mem_of_getLast?_eq_some hl
          have := (hidx last hmem).2 hl
          simp only
          omega
      have hbp : block.previousHash =
          match blocks.getLast? with
          | some b => b.hash
          | none => String.mk (List.replicate 64 '0') := by
        rw [← hblock]; rfl
      have hbh : block.hash = hashBlock block := by
        rw [← hblock]; rfl
      have happ : stored = blocks ++ [block] := by
        rw [← hstored, hblock]
        exact storePut_of_top blocks block (fun b hb => by have := (hidx b hb).1; omega)
      refine ⟨happ, ?_, ?_, ?_⟩
      · intro b hb
        rw [happ] at hb
        cases blocks with
        | nil =>
          simp only [List.nil_append, List.head?_cons, Option.some.injEq] at hb
          subst hb
          exact ⟨by simpa using hbi, by simpa using hbp⟩
        | cons a rest =>
          simp only [List.cons_append, List.head?_cons, Option.some.injEq] at hb
          exact hhead b (by simp [hb])
      · rw [happ, List.chain'_append]
        refine ⟨hchain, List.chain'_singleton _, ?_⟩
        intro x hx y hy
        simp only [List.head?_cons, Option.mem_def, Option.some.injEq] at hy
        subst hy
        have hx2 : blocks.getLast? = some x := hx
        have hmem : x ∈ blocks := List.mem_of_getLast?_eq_some hx2
        have := (hidx x hmem).2 hx2
        refine ⟨by omega, ?_⟩
        rw [hbp, hx2]
      · intro b hb
        rw [happ] at hb
        rcases List.mem_append.mp hb with hb | hb
        · exact hhash b hb
        · simp only [List.mem_singleton] at hb
          subst hb
          exact hbh

/-- Successive `addBlock` calls keep the store a chain. -/
theorem addBlocks_keeps_chain (calls : List AddBlockCall) :
    ∀ blocks : List AuditBlock,
      (∀ b, blocks.head? = some b →
        b.index = 0 ∧ b.previousHash = String.mk (List.replicate 64 '0')) →
      blocks.Chain' (fun a b => b.index = a.index + 1 ∧ b.previousHash = a.hash) →
      (∀ b ∈ blocks, b.hash = hashBlock b) →
      (∀ b, (addBlocks blocks calls).head? = some b →
        b.index = 0 ∧ b.previousHash = String.mk (List.replicate 64 '0')) ∧
      (addBlocks blocks calls).Chain'
        (fun a b => b.index = a.index + 1 ∧ b.previousHash = a.hash) ∧
      (∀ b ∈ addBlocks blocks calls, b.hash = hashBlock b) := by
  induction calls with
  | nil => intro blocks h1 h2 h3; exact ⟨h1, h2, h3⟩
  | cons call rest ih =>
    intro blocks h1 h2 h3
    unfold addBlocks
    cases hadd : addBlock blocks call with
    | none => exact ih blocks h1 h2 h3
    | some out =>
      obtain ⟨stored, block⟩ := out
      obtain ⟨_, k1, k2, k3⟩ := addBlock_keeps_chain blocks call stored block h1 h2 h3 hadd
      exact ih stored k1 k2 k3

/-- On blocks that follow one another and carry their own hashes the loop of `verifyChain`
pushes no error. -/
theorem verifyChainLoop_of_chain (rest : List AuditBlock) :
    ∀ (i : Nat) (previous : AuditBlock),
      (previous :: rest).Chain' (fun a b => b.index = a.index + 1 ∧ b.previousHash = a.hash) →
      (∀ b ∈ rest, b.hash = hashBlock b) → verifyChainLoop i previous rest = [] := by
  induction rest with
  | nil => intro i previous _ _; rfl
  | cons current more ih =>
    intro i previous hchain hhash
    have hrel := (List.chain'_cons.mp hchain).1
    have hcur := hhash current (List.mem_cons_self _ _)
    unfold verifyChainLoop
    rw [if_neg (by simp [hrel.2]), if_neg (by simp [← hcur])]
    simp only [List.nil_append]
    exact ih (i + 1) current (List.chain'_cons.mp hchain).2
      (fun b hb => hhash b (List.mem_cons_of_mem _ hb))

/-- C20. For every sequence of `addBlock` calls on an initially empty store (any actions,
payloads, key ids and timestamps, with or without `previousState`; a call that throws
stores nothing): block 0 of the resulting chain has index 0 and 64 zeros as `previousHash`,
every later block has the index of the block before it plus one and its hash as
`previousHash`, every block's `hash` is the hash of its properties without `hash`, and
`verifyChain` returns `valid = true` with an empty `errors` list. -/
theorem addBlock_chain_verifies (calls : List AddBlockCall) :
    (∀ b, (addBlocks [] calls).head? = some b →
      b.index = 0 ∧ b.previousHash = String.mk (List.replicate 64 '0')) ∧
    (addBlocks [] calls).Chain' (fun a b => b.index = a.index + 1 ∧ b.previousHash = a.hash) ∧
    (∀ b ∈ addBlocks [] calls, b.hash = hashBlock b) ∧
    verifyChain (addBlocks [] calls) = ⟨true, (addBlocks [] calls).length, []⟩ := by
  obtain ⟨h1, h2, h3⟩ := addBlocks_keeps_chain calls [] (fun b hb => by simp at hb)
    List.chain'_nil (fun b hb => by simp at hb)
  refine ⟨h1, h2, h3, ?_⟩
  cases hb : addBlocks [] calls with
  | nil => rfl
  | cons first rest =>
    rw [hb] at h2 h3
    unfold verifyChain
    simp only
    rw [verifyChainLoop_of_chain rest 1 first h2
      (fun b hb2 => h3 b (List.mem_cons_of_mem _ hb2))]
    rfl

/-- The theorem for the three sample calls, of which two store a block. -/
theorem addBlock_chain_verifies_witness :
    ((∀ b, (addBlocks [] sampleAddBlockCalls).head? = some b →
        b.index = 0 ∧ b.previousHash = String.mk (List.replicate 64 '0')) ∧
      (addBlocks [] sampleAddBlockCalls).Chain'
        (fun a b => b.index = a.index + 1 ∧ b.previousHash = a.hash) ∧
      (∀ b ∈ addBlocks [] sampleAddBlockCalls, b.hash = hashBlock b) ∧
      verifyChain (addBlocks [] sampleAddBlockCalls) =
        ⟨true, (addBlocks [] sampleAddBlockCalls).length, []⟩) ∧
    (addBlocks [] sampleAddBlockCalls).length = 2 :=
  ⟨addBlock_chain_verifies sampleAddBlockCalls, by decide⟩

/-! ## Theorems: edits made directly in the store (C21, C22) -/

/-- The first block enters `verifyChain` through its `hash` only: replacing it by any block
with the same `hash` changes nothing in the result. -/
theorem verifyChain_reads_first_hash_only (first edited : AuditBlock)
    (rest : List AuditBlock) (h : edited.hash = first.hash) :
    verifyChain (edited :: rest) = verifyChain (first :: rest) := by
  cases rest with
  | nil => rfl
  | cons current more =>
    simp only [verifyChain, verifyChainLoop, h, List.length_cons]

/-- A block at a position after the first whose `hash` is not the hash of its other
properties is reported: the loop pushes `HASH_MISMATCH` with its position. -/
theorem verifyChainLoop_reports_mismatch (rest : List AuditBlock) :
    ∀ (start : Nat) (previous : AuditBlock) (j : Nat) (b : AuditBlock),
      rest[j]? = some b → b.hash ≠ hashBlock b →
      ChainError.hashMismatch (start + j) ∈ verifyChainLoop start previous rest := by
  induction rest with
  | nil => intro start previous j b hb _; simp at hb
  | cons current more ih =>
    intro start previous j b hb hne
    unfold verifyChainLoop
    cases j with
    | zero =>
      simp only [List.getElem?_cons_zero, Option.some.injEq] at hb
      subst hb
      simp [hne]
    | succ j =>
      simp only [List.getElem?_cons_succ] at hb
      have := ih (start + 1) current j b hb hne
      rw [show start + (j + 1) = start + 1 + j by omega]
      simp [this]

/-- Past the first position an edit that leaves `hash` as it was and changes the hash of the
other properties makes `verifyChain` return `valid = false` with a `HASH_MISMATCH` for that
position. -/
theorem verifyChain_detects_edit_after_first (blocks : List AuditBlock) (i : Nat)
    (b : AuditBlock) (hi : 1 ≤ i) (hb : blocks[i]? = some b) (hne : b.hash ≠ hashBlock b) :
    (verifyChain blocks).valid = false ∧
      ChainError.hashMismatch i ∈ (verifyChain blocks).errors := by
  cases blocks with
  | nil => simp at hb
  | cons first rest =>
    obtain ⟨j, rfl⟩ : ∃ j, i = j + 1 := ⟨i - 1, by omega⟩
    simp only [List.getElem?_cons_succ] at hb
    have hmem := verifyChainLoop_reports_mismatch rest 1 first j b hb hne
    rw [show 1 + j = j + 1 by omega] at hmem
    refine ⟨?_, hmem⟩
    simp only [verifyChain]
    cases hl : verifyChainLoop 1 first rest with
    | nil => rw [hl] at hmem; simp at hmem
    | cons e es => rfl

/-- C21. A chain of one block built by `addBlock`, with the `payloadHash` of its block
replaced in the store by another hash, still verifies: `verifyChain` returns `valid = true`
and no `HASH_MISMATCH`; likewise the first block of the chain of two blocks with its
`timestamp` replaced. -/
theorem edited_first_block_goes_undetected :
    editStored (fun b => b.withPayloadHash (hashData (.prim (.str "other")))) 0
        (addBlocks [] (sampleAddBlockCalls.take 1)) ≠
      addBlocks [] (sampleAddBlockCalls.take 1) ∧
    verifyChain
        (editStored (fun b => b.withPayloadHash (hashData (.prim (.str "other")))) 0
          (addBlocks [] (sampleAddBlockCalls.take 1))) = ⟨true, 1, []⟩ ∧
    editStored (fun b => b.withTimestamp 5) 0 (addBlocks [] sampleAddBlockCalls) ≠
      addBlocks [] sampleAddBlockCalls ∧
    verifyChain (editStored (fun b => b.withTimestamp 5) 0 (addBlocks [] sampleAddBlockCalls)) =
      ⟨true, 2, []⟩ := by
  decide

/-- C22. After `markBlocksAsSynced` on the pending blocks of the chain of two blocks built by
`addBlock`, the stored blocks carry the property `synced` that `addBlock` did not give
them, the second block no longer hashes to its stored `hash`, and `verifyChain` returns
`valid = false` with a `HASH_MISMATCH` at position 1. -/
theorem synced_chain_fails_verification :
    verifyChain (addBlocks [] sampleAddBlockCalls) = ⟨true, 2, []⟩ ∧
    (markBlocksAsSynced (addBlocks [] sampleAddBlockCalls)
        (pendingBlocks (addBlocks [] sampleAddBlockCalls))).map (fun b => b.synced) =
      [some true, some true] ∧
    (markBlocksAsSynced (addBlocks [] sampleAddBlockCalls)
        (pendingBlocks (addBlocks [] sampleAddBlockCalls))).map
          (fun b => decide (b.hash = hashBlock b)) = [false, false] ∧
    verifyChain (markBlocksAsSynced (addBlocks [] sampleAddBlockCalls)
        (pendingBlocks (addBlocks [] sampleAddBlockCalls))) =
      ⟨false, 2, [.hashMismatch 1]⟩ := by
  decide

/-! ## Theorems: the transparency server (C23, C24, C25) -/

/-- What `POST /sync` does with one block: it is accepted, and its record appended, exactly
when its key is not registered, or is registered, not revoked, and either has no public key
or verifies the signature; otherwise it is rejected and the stores stay as they are. -/
theorem syncBlock_cases (ecdsaVerify : JsVal → String → JsVal → Bool) (now : Nat)
    (st : AuditServer) (block : JsRecord) :
    (((publicKeysGet st.publicKeysDB (block.get "keyId")).all (fun r =>
        decide (r.status ≠ "REVOKED") &&
          (!r.public_key_jwk.truthy ||
            CryptoValidator.verifySignature ecdsaVerify (payloadToVerify block)
              (block.get "signature") r.public_key_jwk)) = true) ∧
      syncBlock ecdsaVerify now st block =
        (⟨st.publicKeysDB, st.auditBlocksDB ++ [storedRecord now block]⟩,
          ⟨block.get "index", .accepted⟩)) ∨
    (((publicKeysGet st.publicKeysDB (block.get "keyId")).all (fun r =>
        decide (r.status ≠ "REVOKED") &&
          (!r.public_key_jwk.truthy ||
            CryptoValidator.verifySignature ecdsaVerify (payloadToVerify block)
              (block.get "signature") r.public_key_jwk)) = false) ∧
      ∃ reason, syncBlock ecdsaVerify now st block =
        (st, ⟨block.get "index", .rejected reason⟩)) := by
  unfold syncBlock
  cases hk : publicKeysGet st.publicKeysDB (block.get "keyId") with
  | none => left; simp
  | some r =>
    by_cases hrev : r.status = "REVOKED"
    · right; simp [hrev]
    · by_cases hj : r.public_key_jwk.truthy = true
      · cases hv : CryptoValidator.verifySignature ecdsaVerify (payloadToVerify block)
            (block.get "signature") r.public_key_jwk with
        | true => left; simp [hrev, hj, hv]
        | false => right; simp [hrev, hj, hv]
      · left
        have hj2 : r.public_key_jwk.truthy = false := by simpa using hj
        simp [hrev, hj2]

/-- C23 (as stated, refuted). A block whose `keyId` has no registered public key, with a
signature that verifies against nothing, is answered `ACCEPTED` and appended to
`auditBlocksDB`. -/
theorem sync_accepts_block_of_unregistered_key :
    publicKeysGet [] (JsRecord.get [("index", .prim (.num "0")), ("keyId", .prim (.str "k9")),
        ("previousHash", .prim (.str "00")), ("hash", .prim (.str "aa")),
        ("signature", .arr [.num "1"])] "keyId") = none ∧
    (syncBlock (fun _ _ _ => false) 5 ⟨[], []⟩
        [("index", .prim (.num "0")), ("keyId", .prim (.str "k9")),
          ("previousHash", .prim (.str "00")), ("hash", .prim (.str "aa")),
          ("signature", .arr [.num "1"])]).2.status = .accepted ∧
    (syncBlock (fun _ _ _ => false) 5 ⟨[], []⟩
        [("index", .prim (.num "0")), ("keyId", .prim (.str "k9")),
          ("previousHash", .prim (.str "00")), ("hash", .prim (.str "aa")),
          ("signature", .arr [.num "1"])]).1.auditBlocksDB.length = 1 := by
  decide

/-- C23 (amended). For every block whose `keyId` has a registered key: when the key is
`REVOKED`, or has a public key against which the signature fails ECDSA verification, the
block gets status `REJECTED` and `auditBlocksDB` and `publicKeysDB` stay as they are. -/
theorem sync_rejects_revoked_key_and_failed_signature
    (ecdsaVerify : JsVal → String → JsVal → Bool) (now : Nat) (st : AuditServer)
    (block : JsRecord) (r : KeyRecord)
    (hkey : publicKeysGet st.publicKeysDB (block.get "keyId") = some r)
    (hbad : r.status = "REVOKED" ∨
      (r.public_key_jwk.truthy = true ∧
        CryptoValidator.verifySignature ecdsaVerify (payloadToVerify block)
          (block.get "signature") r.public_key_jwk = false)) :
    (∃ reason, (syncBlock ecdsaVerify now st block).2 =
        ⟨block.get "index", .rejected reason⟩) ∧
      (syncBlock ecdsaVerify now st block).1 = st := by
  rcases syncBlock_cases ecdsaVerify now st block with ⟨hall, _⟩ | ⟨_, reason, h⟩
  · exfalso
    rw [hkey] at hall
    simp only [Option.all_some, Bool.and_eq_true, Bool.or_eq_true, decide_eq_true_eq,
      Bool.not_eq_true'] at hall
    rcases hbad with hrev | ⟨hj, hv⟩
    · exact hall.1 hrev
    · rcases hall.2 with h1 | h1
      · rw [hj] at h1; exact absurd h1 (by simp)
      · rw [hv] at h1; exact absurd h1 (by simp)
  · rw [h]
    exact ⟨⟨reason, rfl⟩, rfl⟩

/-- The theorem for a block of the registered key `k1`, active, whose signature does not
verify. -/
theorem sync_rejects_revoked_key_and_failed_signature_witness :
    (∃ reason, (syncBlock (fun _ _ _ => false) 5
        ⟨[⟨.prim (.str "k1"), .obj [("kty", .str "EC")], "ACTIVE", 1⟩], []⟩
        [("index", .prim (.num "0")), ("keyId", .prim (.str "k1")),
          ("hash", .prim (.str "aa")), ("signature", .arr [.num "1"])]).2 =
        ⟨JsRecord.get [("index", .prim (.num "0")), ("keyId", .prim (.str "k1")),
          ("hash", .prim (.str "aa")), ("signature", .arr [.num "1"])] "index",
          .rejected reason⟩) ∧
      (syncBlock (fun _ _ _ => false) 5
        ⟨[⟨.prim (.str "k1"), .obj [("kty", .str "EC")], "ACTIVE", 1⟩], []⟩
        [("index", .prim (.num "0")), ("keyId", .prim (.str "k1")),
          ("hash", .prim (.str "aa")), ("signature", .arr [.num "1"])]).1 =
        ⟨[⟨.prim (.str "k1"), .obj [("kty", .str "EC")], "ACTIVE", 1⟩], []⟩ :=
  sync_rejects_revoked_key_and_failed_signature (fun _ _ _ => false) 5
    ⟨[⟨.prim (.str "k1"), .obj [("kty", .str "EC")], "ACTIVE", 1⟩], []⟩
    [("index", .prim (.num "0")), ("keyId", .prim (.str "k1")),
      ("hash", .prim (.str "aa")), ("signature", .arr [.num "1"])]
    ⟨.prim (.str "k1"), .obj [("kty", .str "EC")], "ACTIVE", 1⟩ (by decide)
    (Or.inr ⟨by decide, by decide⟩)

/-- On records of the shape `POST /sync` stores, `CryptoValidator.verifyChain` reads
`undefined` for `previousHash` and for `hash`, so its loop pushes no error. -/
theorem serverVerifyChainLoop_of_stored (rest : List (Nat × JsRecord)) :
    ∀ (i : Nat) (previous : Nat × JsRecord),
      CryptoValidator.verifyChainLoop i (storedRecord previous.1 previous.2)
        (rest.map (fun p => storedRecord p.1 p.2)) = [] := by
  induction rest with
  | nil => intro i previous; rfl
  | cons current more ih =>
    intro i previous
    simp only [List.map_cons, CryptoValidator.verifyChainLoop]
    rw [ih (i + 1) current]
    simp [storedRecord, JsRecord.get, List.lookup, JsVal.strictEquals]

/-- Whatever blocks `POST /sync` stored, with whatever hashes, the verification that
`GET /chain` publishes is `valid = true` with no error. -/
theorem getChain_of_stored_never_reports (publicKeysDB : List KeyRecord)
    (received : List (Nat × JsRecord)) :
    (getChain ⟨publicKeysDB, received.map (fun p => storedRecord p.1 p.2)⟩).2 =
      ⟨true, received.length, []⟩ := by
  cases received with
  | nil => rfl
  | cons first rest =>
    simp only [getChain, CryptoValidator.verifyChain, List.map_cons,
      serverVerifyChainLoop_of_stored rest 1 first, List.length_cons, List.length_map]
    rfl

/-- C24. Two blocks are synchronised, the second with `previousHash` `zz` while the first
has `hash` `aa`: both are stored, the previous hash stored for the second differs from the
block hash stored for the first, and the verification of `GET /chain` is `valid = true`
with no `CHAIN_BREAK`. -/
theorem getChain_misses_broken_link :
    (getChain (syncBlocks (fun _ _ _ => false) 5 ⟨[], []⟩
        [[("index", .prim (.num "0")), ("keyId", .prim (.str "k9")),
            ("previousHash", .prim (.str "00")), ("hash", .prim (.str "aa")),
            ("signature", .arr [.num "1"])],
          [("index", .prim (.num "1")), ("keyId", .prim (.str "k9")),
            ("previousHash", .prim (.str "zz")), ("hash", .prim (.str "bb")),
            ("signature", .arr [.num "1"])]]).1).1.map
        (fun record => (record.get "block_hash", record.get "previous_hash")) =
      [(.prim (.str "aa"), .prim (.str "00")), (.prim (.str "bb"), .prim (.str "zz"))] ∧
    (getChain (syncBlocks (fun _ _ _ => false) 5 ⟨[], []⟩
        [[("index", .prim (.num "0")), ("keyId", .prim (.str "k9")),
            ("previousHash", .prim (.str "00")), ("hash", .prim (.str "aa")),
            ("signature", .arr [.num "1"])],
          [("index", .prim (.num "1")), ("keyId", .prim (.str "k9")),
            ("previousHash", .prim (.str "zz")), ("hash", .prim (.str "bb")),
            ("signature", .arr [.num "1"])]]).1).2 = ⟨true, 2, []⟩ := by
  decide

theorem intercalateGo_append (s : String) (l : List String) :
    ∀ (acc x : String), String.intercalate.go acc s (l ++ [x]) =
      String.intercalate.go acc s l ++ s ++ x := by
  induction l with
  | nil => intro acc x; simp [String.intercalate.go]
  | cons a rest ih => intro acc x; simp [String.intercalate.go, ih]

/-- Joining with one more member appends the separator and the member. -/
theorem intercalate_append_one (s : String) (l : List String) (x : String) (h : l ≠ []) :
    s.intercalate (l ++ [x]) = s.intercalate l ++ s ++ x := by
  cases l with
  | nil => exact absurd rfl h
  | cons a rest => simp [String.intercalate, intercalateGo_append]

/-- An object text with two more members is a longer text. -/
theorem jsonObject_length_lt (l : List String) (x y : String) (h : l ≠ []) :
    (jsonObject l).length < (jsonObject (l ++ [x, y])).length := by
  have h1 : l ++ [x, y] = (l ++ [x]) ++ [y] := by simp
  unfold jsonObject
  rw [h1, intercalate_append_one _ _ y (by simp), intercalate_append_one _ _ x h]
  simp only [String.length_append]
  have hc : ",".length = 1 := rfl
  omega

/-- A value that is not `undefined` has the same JSON text before and after the transport as
JSON. -/
theorem jsonField_overJson (key : String) (v : JsVal) :
    (if v = .prim .undefined then none else jsonField key v.overJson) = jsonField key v := by
  cases v with
  | prim p =>
    by_cases hp : p = .undefined
    · subst hp; simp [jsonField, JsVal.jsonStringify]
    · have : ¬ (JsVal.prim p = .prim .undefined) := by simpa using hp
      rw [if_neg this]; rfl
  | arr items =>
    rw [if_neg (by simp)]
    simp only [jsonField, JsVal.overJson, JsVal.jsonStringify, List.map_map]
    have : (JsPrim.json ∘ fun p => if p = JsPrim.undefined then JsPrim.null else p) =
        JsPrim.json := by
      funext p
      by_cases hp : p = .undefined
      · subst hp; simp [JsPrim.json]
      · simp [hp]
    rw [this]
  | obj props =>
    rw [if_neg (by simp)]
    simp only [jsonField, JsVal.overJson, JsVal.jsonStringify]
    have : (props.filter (fun kv => kv.2 != JsPrim.undefined)).filterMap jsonMember =
        props.filterMap jsonMember := by
      induction props with
      | nil => rfl
      | cons kv rest ih =>
        by_cases hkv : kv.2 = .undefined
        · simp [List.filter, hkv, jsonMember, ih]
        · have : (kv.2 != JsPrim.undefined) = true := by simpa using hkv
          rw [List.filter_cons, if_pos this, List.filterMap_cons, List.filterMap_cons, ih]
    rw [this]

theorem jsonField_undefined (key : String) : jsonField key (.prim .undefined) = none := rfl

/-- The transport as JSON does not change the text the server makes of the payload. -/
theorem jsonStringify_payload_overJson (o : JsRecord) :
    (payloadToVerify o.overJson).jsonStringify = (payloadToVerify o).jsonStringify := by
  unfold JsRecord.jsonStringify payloadToVerify JsRecord.overJson
  congr 1
  induction o with
  | nil => rfl
  | cons kv rest ih =>
    obtain ⟨k, v⟩ := kv
    by_cases hv : v = .prim .undefined
    · subst hv
      rw [List.filterMap_cons]
      simp only [if_true]
      rw [ih, List.filter_cons]
      split
      · rw [List.filterMap_cons, jsonField_undefined]
      · rfl
    · have hf := jsonField_overJson k v
      rw [if_neg hv] at hf
      rw [List.filterMap_cons]
      simp only [hv, if_false]
      rw [List.filter_cons, List.filter_cons]
      split
      · rw [List.filterMap_cons, List.filterMap_cons, ih, hf]
      · exact ih

/-- The text the server verifies is the signed text without its last two members,
`evidenceVault` and `iv`. -/
theorem serverPayloadString_eq (b : AuditBlock) :
    ∃ members : List String, members ≠ [] ∧
      serverPayloadString b = jsonObject members ∧
      blockString b.toBlockData = jsonObject (members ++
        [jsonQuote "evidenceVault" ++ ":" ++ jsonBytesOrNull b.evidenceVault,
          jsonQuote "iv" ++ ":" ++ jsonBytesOrNull b.iv]) := by
  refine ⟨[jsonQuote "index" ++ ":" ++ toString b.index,
      jsonQuote "timestamp" ++ ":" ++ toString b.timestamp] ++
    (jsonField "action" b.action).toList ++ (jsonField "keyId" b.keyId).toList ++
    [jsonQuote "payloadHash" ++ ":" ++ jsonQuote b.payloadHash,
      jsonQuote "previousHash" ++ ":" ++ jsonQuote b.previousHash], by simp, ?_, ?_⟩
  · unfold serverPayloadString
    rw [jsonStringify_payload_overJson]
    have hp : payloadToVerify (sanitizedBlock b) =
        [("index", .prim (.num (toString b.index))),
          ("timestamp", .prim (.num (toString b.timestamp))),
          ("action", b.action), ("keyId", b.keyId),
          ("payloadHash", .prim (.str b.payloadHash)),
          ("previousHash", .prim (.str b.previousHash))] := by
      simp [payloadToVerify, sanitizedBlock, List.filter]
    rw [hp]
    unfold JsRecord.jsonStringify
    congr 1
    cases ha : jsonField "action" b.action <;> cases hk : jsonField "keyId" b.keyId <;>
      simp [List.filterMap, ha, hk] <;> rfl
  · unfold blockString blockDataMembers
    congr 1
    simp

/-- For every block, the text the server passes to signature verification differs from the
text `addBlock` signed. -/
theorem serverPayloadString_ne_blockString (b : AuditBlock) :
    serverPayloadString b ≠ blockString b.toBlockData := by
  obtain ⟨members, hne, h1, h2⟩ := serverPayloadString_eq b
  intro h
  have := jsonObject_length_lt members
    (jsonQuote "evidenceVault" ++ ":" ++ jsonBytesOrNull b.evidenceVault)
    (jsonQuote "iv" ++ ":" ++ jsonBytesOrNull b.iv) hne
  rw [← h1, ← h2, h] at this
  exact lt_irrefl _ this

/-- A block of a registered key with a public key is rejected whenever the signature scheme
accepts a signature on the signed text only: the server verifies another text. -/
theorem sync_rejects_what_was_signed (ecdsaVerify : JsVal → String → JsVal → Bool) (now : Nat)
    (st : AuditServer) (b : AuditBlock) (r : KeyRecord)
    (hkey : publicKeysGet st.publicKeysDB (JsRecord.get (sanitizedBlock b).overJson "keyId") =
      some r)
    (hjwk : r.public_key_jwk.truthy = true)
    (hsound : ∀ text signature, text ≠ blockString b.toBlockData →
      ecdsaVerify r.public_key_jwk text signature = false) :
    ∃ reason, syncBlock ecdsaVerify now st (sanitizedBlock b).overJson =
      (st, ⟨JsRecord.get (sanitizedBlock b).overJson "index", .rejected reason⟩) := by
  rcases syncBlock_cases ecdsaVerify now st (sanitizedBlock b).overJson with
    ⟨hall, _⟩ | ⟨_, reason, h⟩
  · exfalso
    rw [hkey] at hall
    simp only [Option.all_some, Bool.and_eq_true, Bool.or_eq_true, decide_eq_true_eq,
      Bool.not_eq_true'] at hall
    rcases hall.2 with h1 | h1
    · rw [hjwk] at h1; exact absurd h1 (by simp)
    · have := hsound (serverPayloadString b)
        (JsRecord.get (sanitizedBlock b).overJson "signature")
        (serverPayloadString_ne_blockString b)
      unfold CryptoValidator.verifySignature at h1
      unfold serverPayloadString at this
      rw [this] at h1
      exact absurd h1 (by simp)
  · exact ⟨reason, h⟩

/-- C25. For the two blocks of the sample chain, sent as `synchronize` sends them to a server
where their key `k1` is registered and active: the text the server passes to signature
verification is not the text `addBlock` signed (it lacks `evidenceVault` and `iv`), so with
a signature check that accepts exactly the signed texts both blocks are rejected and
nothing is stored. -/
theorem correctly_signed_block_is_rejected :
    (addBlocks [] sampleAddBlockCalls).map
        (fun b => decide (serverPayloadString b = blockString b.toBlockData)) =
      [false, false] ∧
    (syncBlocks
        (fun _ text _ =>
          (addBlocks [] sampleAddBlockCalls).any (fun b => text == blockString b.toBlockData))
        5 ⟨[⟨.prim (.str "k1"), .obj [("kty", .str "EC")], "ACTIVE", 1⟩], []⟩
        ((addBlocks [] sampleAddBlockCalls).map (fun b => (sanitizedBlock b).overJson))).2.map
          (fun result => decide (result.status = .accepted)) = [false, false] ∧
    (syncBlocks
        (fun _ text _ =>
          (addBlocks [] sampleAddBlockCalls).any (fun b => text == blockString b.toBlockData))
        5 ⟨[⟨.prim (.str "k1"), .obj [("kty", .str "EC")], "ACTIVE", 1⟩], []⟩
        ((addBlocks [] sampleAddBlockCalls).map
          (fun b => (sanitizedBlock b).overJson))).1.auditBlocksDB = [] := by
  decide

/-! ## Theorems: the order of the votes (C26) -/

theorem tallyIncrement_eq (o : JsObject) (key : String) :
    tallyIncrement o key = tallyIncrementOf key (o.lookup key) := by
  unfold tallyIncrement tallyIncrementOf
  rfl

theorem lookup_objectSet (o : JsObject) (key k : String) (v : TallyVal) :
    (objectSet o key v).lookup k =
      if k = key ∧ key ≠ "__proto__" then some v else o.lookup k := by
  unfold objectSet
  by_cases hp : key = "__proto__"
  · simp [hp]
  · rw [if_neg hp, lookup_objectUpsert]
    by_cases hk : k = key <;> simp [hk, hp]

/-- What the tally loop leaves under each key, seen through `lookup`: a vote changes the
entry of its own option only, and by a function of that entry. -/
theorem lookup_tally_foldl (votes : List VoteRecord) :
    ∀ o : JsObject,
      (fun k => (votes.foldl (fun tally vote =>
        objectSet tally vote.eleccion.toStr (tallyIncrement tally vote.eleccion.toStr))
          o).lookup k) =
      votes.foldl (fun (own : String → Option TallyVal) vote => fun k =>
        if k = vote.eleccion.toStr ∧ vote.eleccion.toStr ≠ "__proto__" then
          some (tallyIncrementOf vote.eleccion.toStr (own vote.eleccion.toStr))
        else own k) (fun k => o.lookup k) := by
  induction votes with
  | nil => intro o; rfl
  | cons v rest ih =>
    intro o
    simp only [List.foldl_cons]
    rw [ih]
    congr 1
    funext k
    rw [lookup_objectSet, tallyIncrement_eq]

/-- The value `results` holds for an option does not depend on the order of the votes. -/
theorem tallyVotes_lookup_perm (votes permuted : List VoteRecord) (h : votes.Perm permuted)
    (k : String) : (tallyVotes votes).lookup k = (tallyVotes permuted).lookup k := by
  have h1 := lookup_tally_foldl votes []
  have h2 := lookup_tally_foldl permuted []
  have hperm := List.Perm.foldl_eq' (f := fun (own : String → Option TallyVal)
      (vote : VoteRecord) => fun k =>
        if k = vote.eleccion.toStr ∧ vote.eleccion.toStr ≠ "__proto__" then
          some (tallyIncrementOf vote.eleccion.toStr (own vote.eleccion.toStr))
        else own k) h
    (by
      intro x _ y _ z
      funext k
      by_cases hxy : x.eleccion.toStr = y.eleccion.toStr
      · simp only [hxy]
      · have hyx : ¬ y.eleccion.toStr = x.eleccion.toStr := fun e => hxy e.symm
        by_cases hkx : k = x.eleccion.toStr
        · subst hkx
          simp [hxy, hyx]
        · by_cases hky : k = y.eleccion.toStr
          · subst hky
            simp [hxy, hyx]
          · simp [hkx, hky, hxy, hyx])
    (fun k => ([] : JsObject).lookup k)
  have := congrFun (h1.trans (hperm.trans h2.symm)) k
  exact this

theorem keys_objectUpsert (o : JsObject) (key : String) (v : TallyVal) :
    (objectUpsert o key v).map Prod.fst =
      if key ∈ o.map Prod.fst then o.map Prod.fst else o.map Prod.fst ++ [key] := by
  induction o with
  | nil => simp [objectUpsert]
  | cons kv rest ih =>
    obtain ⟨k, w⟩ := kv
    unfold objectUpsert
    by_cases hk : k = key
    · subst hk; simp
    · have hk2 : ¬ key = k := fun e => hk e.symm
      rw [if_neg hk]
      simp only [List.map_cons, ih, List.mem_cons, hk2, false_or]
      split <;> simp

/-- The own properties of the tally object are created in the order of `optionOrder`, each
once. -/
theorem keys_tally_foldl (votes : List VoteRecord) :
    ∀ o : JsObject, (o.map Prod.fst).Nodup →
      ((votes.foldl (fun tally vote =>
        objectSet tally vote.eleccion.toStr (tallyIncrement tally vote.eleccion.toStr))
          o).map Prod.fst =
        votes.foldl (fun keys vote =>
          if vote.eleccion.toStr = "__proto__" ∨ vote.eleccion.toStr ∈ keys then keys
          else keys ++ [vote.eleccion.toStr]) (o.map Prod.fst)) ∧
      ((votes.foldl (fun tally vote =>
        objectSet tally vote.eleccion.toStr (tallyIncrement tally vote.eleccion.toStr))
          o).map Prod.fst).Nodup := by
  induction votes with
  | nil => intro o h; exact ⟨rfl, h⟩
  | cons v rest ih =>
    intro o h
    simp only [List.foldl_cons]
    have hkeys : (objectSet o v.eleccion.toStr (tallyIncrement o v.eleccion.toStr)).map Prod.fst =
        if v.eleccion.toStr = "__proto__" ∨ v.eleccion.toStr ∈ o.map Prod.fst then
          o.map Prod.fst
        else o.map Prod.fst ++ [v.eleccion.toStr] := by
      unfold objectSet
      by_cases hp : v.eleccion.toStr = "__proto__"
      · simp [hp]
      · rw [if_neg hp, keys_objectUpsert]
        simp only [hp, false_or]
    have hnodup : ((objectSet o v.eleccion.toStr
        (tallyIncrement o v.eleccion.toStr)).map Prod.fst).Nodup := by
      rw [hkeys]
      split
      · exact h
      · rename_i hnot
        rw [not_or] at hnot
        rw [List.nodup_append]
        refine ⟨h, List.nodup_singleton _, ?_⟩
        intro a ha hb
        simp only [List.mem_singleton] at hb
        subst hb
        exact hnot.2 ha
    obtain ⟨h1, h2⟩ := ih _ hnodup
    exact ⟨by rw [h1, hkeys], h2⟩

theorem tallyVotes_keys (votes : List VoteRecord) :
    (tallyVotes votes).map Prod.fst = optionOrder votes ∧
      ((tallyVotes votes).map Prod.fst).Nodup := by
  have := keys_tally_foldl votes [] List.nodup_nil
  exact this

/-- Two objects with the same keys in the same order, each key once, and the same value
under every key are the same object. -/
theorem jsObject_ext (o : JsObject) :
    ∀ o2 : JsObject, o.map Prod.fst = o2.map Prod.fst → (o.map Prod.fst).Nodup →
      (∀ k, o.lookup k = o2.lookup k) → o = o2 := by
  induction o with
  | nil =>
    intro o2 hk _ _
    cases o2 with
    | nil => rfl
    | cons a b => simp at hk
  | cons kv rest ih =>
    intro o2 hk hn hl
    cases o2 with
    | nil => simp at hk
    | cons kv2 rest2 =>
      obtain ⟨k, w⟩ := kv
      obtain ⟨k2, w2⟩ := kv2
      simp only [List.map_cons, List.cons.injEq] at hk
      obtain ⟨hk1, hk2⟩ := hk
      subst hk1
      have hw : w = w2 := by
        have := hl k
        simpa [List.lookup] using this
      subst hw
      simp only [List.map_cons, List.nodup_cons] at hn
      have hrest : rest = rest2 := by
        apply ih rest2 hk2 hn.2
        intro k'
        by_cases hkk : k' = k
        · subst hkk
          have h1 : rest.lookup k' = none := by
            rw [List.lookup_eq_none_iff]
            intro p hp
            simp only [bne_iff_ne, ne_eq]
            intro hpk
            exact hn.1 (List.mem_map.mpr ⟨p, hp, hpk.symm⟩)
          have h2 : rest2.lookup k' = none := by
            rw [List.lookup_eq_none_iff]
            intro p hp
            simp only [bne_iff_ne, ne_eq]
            intro hpk
            apply hn.1
            rw [hk2]
            exact List.mem_map.mpr ⟨p, hp, hpk.symm⟩
          rw [h1, h2]
        · have := hl k'
          have hb : (k' == k) = false := by simpa using hkk
          simpa [List.lookup, hb] using this
      rw [hrest]

/-- C26 (as stated, refuted). The votes A, B and the same votes in the order B, A: the Merkle
root is the same, but `results` lists its options in the order of their first vote, so the
text hashed into `actaHash` is not the same and neither is `actaHash`. -/
theorem actaHash_depends_on_vote_order :
    List.Perm [(⟨"r1", .str "A", none, 0⟩ : VoteRecord), ⟨"r2", .str "B", none, 0⟩]
      [⟨"r2", .str "B", none, 0⟩, ⟨"r1", .str "A", none, 0⟩] ∧
    (closeElection [⟨"r1", .str "A", none, 0⟩, ⟨"r2", .str "B", none, 0⟩]
        "PLEBISCITO_2026" "t").merkleRoot =
      (closeElection [⟨"r2", .str "B", none, 0⟩, ⟨"r1", .str "A", none, 0⟩]
        "PLEBISCITO_2026" "t").merkleRoot ∧
    actaJson "PLEBISCITO_2026" 2
        (closeElection [⟨"r1", .str "A", none, 0⟩, ⟨"r2", .str "B", none, 0⟩]
          "PLEBISCITO_2026" "t").results
        (closeElection [⟨"r1", .str "A", none, 0⟩, ⟨"r2", .str "B", none, 0⟩]
          "PLEBISCITO_2026" "t").merkleRoot ≠
      actaJson "PLEBISCITO_2026" 2
        (closeElection [⟨"r2", .str "B", none, 0⟩, ⟨"r1", .str "A", none, 0⟩]
          "PLEBISCITO_2026" "t").results
        (closeElection [⟨"r2", .str "B", none, 0⟩, ⟨"r1", .str "A", none, 0⟩]
          "PLEBISCITO_2026" "t").merkleRoot ∧
    (closeElection [⟨"r1", .str "A", none, 0⟩, ⟨"r2", .str "B", none, 0⟩]
        "PLEBISCITO_2026" "t").actaHash ≠
      (closeElection [⟨"r2", .str "B", none, 0⟩, ⟨"r1", .str "A", none, 0⟩]
        "PLEBISCITO_2026" "t").actaHash := by
  decide

/-- C26 (amended). For every list of vote records, every permutation of it and every
`electionId`: the two public records have the same `totalVotes`, `merkleRoot` and
`allReceipts`, and their `results` hold the same value for every option name; when moreover
the options are first voted in the same order in both lists, the two records are the same
altogether, `actaHash` and the text hashed into it included. -/
theorem closeElection_perm (votes permuted : List VoteRecord) (eid now : String)
    (h : votes.Perm permuted) :
    (closeElection votes eid now).totalVotes = (closeElection permuted eid now).totalVotes ∧
    (closeElection votes eid now).merkleRoot = (closeElection permuted eid now).merkleRoot ∧
    (closeElection votes eid now).allReceipts = (closeElection permuted eid now).allReceipts ∧
    (∀ o : String, (closeElection votes eid now).results.lookup o =
      (closeElection permuted eid now).results.lookup o) ∧
    (optionOrder votes = optionOrder permuted →
      closeElection votes eid now = closeElection permuted eid now) := by
  have htree : buildMerkleTree (votes.map VoteRecord.hash_recibo) =
      buildMerkleTree (permuted.map VoteRecord.hash_recibo) :=
    buildMerkleTree_eq_of_perm _ _ (h.map _)
  have hlook := tallyVotes_lookup_perm votes permuted h
  refine ⟨h.length_eq, ?_, ?_, hlook, ?_⟩
  · simp only [closeElection, htree]
  · simp only [closeElection, htree]
  · intro horder
    have htally : tallyVotes votes = tallyVotes permuted := by
      apply jsObject_ext _ _ _ (tallyVotes_keys votes).2 hlook
      rw [(tallyVotes_keys votes).1, (tallyVotes_keys permuted).1, horder]
    simp only [closeElection, htree, htally, h.length_eq]

/-- The theorem for the votes A, A, B and their permutation A, B, A. -/
theorem closeElection_perm_witness :
    (closeElection [⟨"r1", .str "A", none, 0⟩, ⟨"r2", .str "A", none, 0⟩,
        ⟨"r3", .str "B", none, 0⟩] "E" "t").totalVotes =
      (closeElection [⟨"r1", .str "A", none, 0⟩, ⟨"r3", .str "B", none, 0⟩,
        ⟨"r2", .str "A", none, 0⟩] "E" "t").totalVotes ∧
    (closeElection [⟨"r1", .str "A", none, 0⟩, ⟨"r2", .str "A", none, 0⟩,
        ⟨"r3", .str "B", none, 0⟩] "E" "t").merkleRoot =
      (closeElection [⟨"r1", .str "A", none, 0⟩, ⟨"r3", .str "B", none, 0⟩,
        ⟨"r2", .str "A", none, 0⟩] "E" "t").merkleRoot ∧
    (closeElection [⟨"r1", .str "A", none, 0⟩, ⟨"r2", .str "A", none, 0⟩,
        ⟨"r3", .str "B", none, 0⟩] "E" "t").allReceipts =
      (closeElection [⟨"r1", .str "A", none, 0⟩, ⟨"r3", .str "B", none, 0⟩,
        ⟨"r2", .str "A", none, 0⟩] "E" "t").allReceipts ∧
    (∀ o : String, (closeElection [⟨"r1", .str "A", none, 0⟩, ⟨"r2", .str "A", none, 0⟩,
        ⟨"r3", .str "B", none, 0⟩] "E" "t").results.lookup o =
      (closeElection [⟨"r1", .str "A", none, 0⟩, ⟨"r3", .str "B", none, 0⟩,
        ⟨"r2", .str "A", none, 0⟩] "E" "t").results.lookup o) ∧
    (optionOrder [⟨"r1", .str "A", none, 0⟩, ⟨"r2", .str "A", none, 0⟩,
        ⟨"r3", .str "B", none, 0⟩] =
      optionOrder [⟨"r1", .str "A", none, 0⟩, ⟨"r3", .str "B", none, 0⟩,
        ⟨"r2", .str "A", none, 0⟩] →
      closeElection [⟨"r1", .str "A", none, 0⟩, ⟨"r2", .str "A", none, 0⟩,
          ⟨"r3", .str "B", none, 0⟩] "E" "t" =
        closeElection [⟨"r1", .str "A", none, 0⟩, ⟨"r3", .str "B", none, 0⟩,
          ⟨"r2", .str "A", none, 0⟩] "E" "t") :=
  closeElection_perm _ _ "E" "t" (by decide)

/-! ## Theorems: the default key (C27) -/

/-- C27. With the default key of the Census and the Urn, the token 2 and the blinding factor
5 (coprime to `N`): the blinded message, the blind signature and the unblinded signature `s`
are all computed, and `modPow(s, e, N)` is not 2. With the blinding factor 1 through the
handlers: the Census signs the blinded token `2`, and the Urn answers the vote with token
`2` and that signature with status 403. -/
theorem default_key_round_trip_fails :
    Int.gcd 5 CENSUS_KEY.N = 1 ∧
    ((blindedMessage 2 5 CENSUS_KEY.e CENSUS_KEY.N).bind (fun mPrime =>
      (modPow mPrime CENSUS_KEY.d CENSUS_KEY.N).bind (fun sPrime =>
        (unblindedSignature sPrime 5 2 CENSUS_KEY.N).bind (fun s =>
          modPow s CENSUS_PUBLIC_KEY.e CENSUS_PUBLIC_KEY.N)))).isSome = true ∧
    (blindedMessage 2 5 CENSUS_KEY.e CENSUS_KEY.N).bind (fun mPrime =>
      (modPow mPrime CENSUS_KEY.d CENSUS_KEY.N).bind (fun sPrime =>
        (unblindedSignature sPrime 5 2 CENSUS_KEY.N).bind (fun s =>
          modPow s CENSUS_PUBLIC_KEY.e CENSUS_PUBLIC_KEY.N))) ≠ some 2 ∧
    (authorizeBallot CENSUS_KEY [] ⟨.prim (.str "2"), .prim (.str "V1")⟩).response =
      .ok "7f35de171ffab6c8d509ab065bafc9b07e23426b2e840d3a47b6b6dc70860b62599b508010a51e46dfadd95a0d6838c1bab457ebd3548384b5e4946ac8a5bae40" ∧
    submitVote CENSUS_PUBLIC_KEY 0 UrnState.empty
        ⟨.prim (.str "A"), .prim (.str "2"),
          .prim (.str "7f35de171ffab6c8d509ab065bafc9b07e23426b2e840d3a47b6b6dc70860b62599b508010a51e46dfadd95a0d6838c1bab457ebd3548384b5e4946ac8a5bae40")⟩ =
      (UrnState.empty, .invalidSignature) := by
  decide

/-! ## Theorems: ballots made without the authority (C28) -/

theorem toDigitsCore_append (fuel : Nat) :
    ∀ (n : Nat) (ds : List Char),
      Nat.toDigitsCore 16 fuel n ds = Nat.toDigitsCore 16 fuel n [] ++ ds := by
  induction fuel with
  | zero => intro n ds; simp [Nat.toDigitsCore]
  | succ f ih =>
    intro n ds
    simp only [Nat.toDigitsCore]
    split
    · simp
    · rw [ih (n / 16) (Nat.digitChar (n % 16) :: ds), ih (n / 16) [Nat.digitChar (n % 16)]]
      simp

/-- The hexadecimal digits of `n` end in the digit of `n % 16`, and what comes before reads
as `n / 16`. -/
theorem toDigitsCore_spec (fuel : Nat) :
    ∀ n : Nat, n < fuel →
      ∃ pre : List Char, Nat.toDigitsCore 16 fuel n [] = pre ++ [Nat.digitChar (n % 16)] ∧
        pre.foldl hexStep (some 0) = some (n / 16) := by
  induction fuel with
  | zero => intro n h; omega
  | succ f ih =>
    intro n h
    simp only [Nat.toDigitsCore]
    by_cases h0 : n / 16 = 0
    · rw [if_pos h0]
      exact ⟨[], rfl, by rw [h0]; rfl⟩
    · rw [if_neg h0, toDigitsCore_append]
      obtain ⟨pre, hpre, hval⟩ := ih (n / 16) (by omega)
      refine ⟨Nat.toDigitsCore 16 f (n / 16) [], rfl, ?_⟩
      rw [hpre, List.foldl_append, hval]
      have hd := hexDigitValue_digitChar ⟨n / 16 % 16, by omega⟩
      simp only at hd
      simp only [List.foldl, hexStep, hd]
      congr 1
      omega

/-- Reading back the hexadecimal text of a number gives the number:
`BigInt('0x' + n.toString(16)) = n`. -/
theorem parseBigIntHex_toDigits (n : Nat) :
    parseBigIntHex (String.mk (Nat.toDigits 16 n)) = some n := by
  obtain ⟨pre, hpre, hval⟩ := toDigitsCore_spec (n + 1) n (by omega)
  unfold parseBigIntHex Nat.toDigits
  simp only [hpre]
  show (if ((pre ++ [Nat.digitChar (n % 16)]).reverse.dropWhile
      isJsWhiteSpace).reverse.isEmpty = true then none
    else ((pre ++ [Nat.digitChar (n % 16)]).reverse.dropWhile
      isJsWhiteSpace).reverse.foldl hexStep (some 0)) = some n
  have hws := isJsWhiteSpace_digitChar ⟨n % 16, by omega⟩
  simp only at hws
  have hdrop : ((pre ++ [Nat.digitChar (n % 16)]).reverse.dropWhile isJsWhiteSpace).reverse =
      pre ++ [Nat.digitChar (n % 16)] := by
    simp [List.dropWhile, hws]
  rw [hdrop]
  have hne : (pre ++ [Nat.digitChar (n % 16)]).isEmpty = false := by
    cases pre <;> rfl
  rw [hne]
  simp only [Bool.false_eq_true, if_false]
  rw [List.foldl_append, hval]
  have hd := hexDigitValue_digitChar ⟨n % 16, by omega⟩
  simp only at hd
  simp only [List.foldl, hexStep, hd]
  congr 1
  omega

theorem modPowLoop_nonneg (fuel : Nat) :
    ∀ (result base exp mod : Int), 0 ≤ result → 0 ≤ base →
      0 ≤ modPowLoop fuel result base exp mod := by
  induction fuel with
  | zero => intro result base exp mod h _; simpa [modPowLoop] using h
  | succ f ih =>
    intro result base exp mod hr hb
    unfold modPowLoop
    split
    · apply ih
      · split
        · exact Int.tmod_nonneg _ (mul_nonneg hr hb)
        · exact hr
      · exact Int.tmod_nonneg _ (mul_nonneg hb hb)
    · exact hr

/-- For a base that is not negative and a modulus that is not zero, `modPow` returns a value
that is not negative. -/
theorem modPow_nonneg (base exp mod : Int) (hb : 0 ≤ base) (hm : mod ≠ 0) :
    ∃ v : Int, modPow base exp mod = some v ∧ 0 ≤ v := by
  unfold modPow
  rw [if_neg hm]
  simp only
  split
  · exact ⟨0, rfl, le_refl _⟩
  · exact ⟨_, rfl, modPowLoop_nonneg _ _ _ _ _ (by norm_num) (Int.tmod_nonneg _ hb)⟩

/-- C28 (as stated, refuted). The request with signature `1` and token `1 = modPow(1, e, N)`
and an empty `voteContent` is answered with status 400 and not accepted, although the token
is not burned. -/
theorem forged_ballot_without_content_is_400 :
    modPow 1 CENSUS_PUBLIC_KEY.e CENSUS_PUBLIC_KEY.N = some 1 ∧
    submitVote CENSUS_PUBLIC_KEY 0 UrnState.empty
        ⟨.prim (.str ""), .prim (.str (bigIntToHex 1)), .prim (.str (bigIntToHex 1))⟩ =
      (UrnState.empty, .badRequest) ∧
    UrnResponse.status .badRequest = 400 := by
  decide

/-- C28 (amended). For every public key (`N > 1`, `e`), every integer `s ≥ 0` and every truthy
`voteContent`: `t = modPow(s, e, N)` is computed, and the submit-vote request with that
`voteContent`, `censusSignatureHex = hex(s)` and `ballotTokenHex = hex(t)` is accepted
whenever that token string is not yet burned: the token is burned, one record is appended
and the receipt returned. No private exponent and no issuance enter. -/
theorem forged_ballot_is_accepted (key : PublicKey) (now : Nat) (st : UrnState) (vc : JsVal)
    (s : Int) (hN : 1 < key.N) (hs : 0 ≤ s) (hvc : vc.truthy = true) :
    ∃ t : Int, modPow s key.e key.N = some t ∧
      (setHas st.usedTokensDB (.prim (.str (bigIntToHex t))) = false →
        ∃ (json : String) (eleccion : JsPrim),
          vc.jsonStringify = some json ∧ eleccionOf vc = some eleccion ∧
          submitVote key now st
              ⟨vc, .prim (.str (bigIntToHex t)), .prim (.str (bigIntToHex s))⟩ =
            (⟨setAdd st.usedTokensDB (.prim (.str (bigIntToHex t))),
              st.votesDB ++
                [⟨sha256 json, eleccion, some (substring0 (sha256 (bigIntToHex t)) 16), now⟩]⟩,
              .ok (sha256 json) (st.votesDB.length + 1))) := by
  obtain ⟨t, ht, ht0⟩ := modPow_nonneg s key.e key.N hs (by omega)
  refine ⟨t, ht, ?_⟩
  intro hfresh
  obtain ⟨tn, rfl⟩ := Int.eq_ofNat_of_zero_le ht0
  obtain ⟨sn, rfl⟩ := Int.eq_ofNat_of_zero_le hs
  have hhex : ∀ n : Nat, bigIntToHex (n : Int) = String.mk (Nat.toDigits 16 n) := by
    intro n
    unfold bigIntToHex
    rw [if_neg (by omega)]
    simp
  have hpt : parseBigIntHex (bigIntToHex (tn : Int)) = some tn := by
    rw [hhex]; exact parseBigIntHex_toDigits tn
  have hps : parseBigIntHex (bigIntToHex (sn : Int)) = some sn := by
    rw [hhex]; exact parseBigIntHex_toDigits sn
  obtain ⟨json, eleccion, hj, he, hsub⟩ := submitVote_of_well_formed key now st vc
    (bigIntToHex (tn : Int)) (bigIntToHex (sn : Int)) tn sn (by omega) hvc hpt hps hfresh
  refine ⟨json, eleccion, hj, he, ?_⟩
  rw [hsub, if_pos ht]

/-- The theorem for the default public key, the signature 2 and the vote `A`. -/
theorem forged_ballot_is_accepted_witness :
    ∃ t : Int, modPow 2 CENSUS_PUBLIC_KEY.e CENSUS_PUBLIC_KEY.N = some t ∧
      (setHas UrnState.empty.usedTokensDB (.prim (.str (bigIntToHex t))) = false →
        ∃ (json : String) (eleccion : JsPrim),
          (JsVal.prim (.str "A")).jsonStringify = some json ∧
          eleccionOf (.prim (.str "A")) = some eleccion ∧
          submitVote CENSUS_PUBLIC_KEY 7 UrnState.empty
              ⟨.prim (.str "A"), .prim (.str (bigIntToHex t)), .prim (.str (bigIntToHex 2))⟩ =
            (⟨setAdd UrnState.empty.usedTokensDB (.prim (.str (bigIntToHex t))),
              UrnState.empty.votesDB ++
                [⟨sha256 json, eleccion, some (substring0 (sha256 (bigIntToHex t)) 16), 7⟩]⟩,
              .ok (sha256 json) (UrnState.empty.votesDB.length + 1))) :=
  forged_ballot_is_accepted CENSUS_PUBLIC_KEY 7 UrnState.empty (.prim (.str "A")) 2
    (by decide) (by decide) (by decide)

/-! ## Theorems: the tally is not bound to the receipts (C29) -/

/-- C29. For every public record `R` for which `verifyElectionResults` returns `valid = true`
and every results map whose values are numbers with the sum `R.totalVotes`: `R` with its
`results` replaced by that map still yields `valid = true`; and the `actaHash` field is not
read, since replacing it by anything leaves the whole verification as it is. -/
theorem replaced_results_still_valid (r : PublicRecord) (results : JsObject)
    (hvalid : (verifyElectionResults r).valid = true)
    (hnum : allNumbers results = true) (hsum : numberSum results = r.totalVotes) :
    (verifyElectionResults (r.withResults results)).valid = true ∧
      ∀ actaHash : String,
        verifyElectionResults (r.withActaHash actaHash) = verifyElectionResults r ∧
        verifyElectionResults ((r.withResults results).withActaHash actaHash) =
          verifyElectionResults (r.withResults results) := by
  have hsumv : tallySum results = .num r.totalVotes := by
    rw [tallySum_of_allNumbers results hnum, hsum]
  refine ⟨?_, fun actaHash => ⟨rfl, rfl⟩⟩
  simp only [verifyElectionResults, PublicRecord.withResults, Bool.and_eq_true,
    decide_eq_true_eq] at hvalid ⊢
  exact ⟨⟨hvalid.1.1, hvalid.1.2⟩, hsumv⟩

/-- The theorem for the record of the votes A, A, B with the counts of A and B swapped. -/
theorem replaced_results_still_valid_witness :
    (closeElection [⟨sha256 "a", .str "A", none, 0⟩, ⟨sha256 "b", .str "A", none, 0⟩,
        ⟨sha256 "c", .str "B", none, 0⟩] "E" "t").results = [("A", .num 2), ("B", .num 1)] ∧
    ((verifyElectionResults ((closeElection [⟨sha256 "a", .str "A", none, 0⟩,
        ⟨sha256 "b", .str "A", none, 0⟩, ⟨sha256 "c", .str "B", none, 0⟩] "E" "t").withResults
          [("A", .num 1), ("B", .num 2)])).valid = true ∧
      ∀ actaHash : String,
        verifyElectionResults ((closeElection [⟨sha256 "a", .str "A", none, 0⟩,
            ⟨sha256 "b", .str "A", none, 0⟩, ⟨sha256 "c", .str "B", none, 0⟩] "E"
              "t").withActaHash actaHash) =
          verifyElectionResults (closeElection [⟨sha256 "a", .str "A", none, 0⟩,
            ⟨sha256 "b", .str "A", none, 0⟩, ⟨sha256 "c", .str "B", none, 0⟩] "E" "t") ∧
        verifyElectionResults (((closeElection [⟨sha256 "a", .str "A", none, 0⟩,
            ⟨sha256 "b", .str "A", none, 0⟩, ⟨sha256 "c", .str "B", none, 0⟩] "E"
              "t").withResults [("A", .num 1), ("B", .num 2)]).withActaHash actaHash) =
          verifyElectionResults ((closeElection [⟨sha256 "a", .str "A", none, 0⟩,
            ⟨sha256 "b", .str "A", none, 0⟩, ⟨sha256 "c", .str "B", none, 0⟩] "E"
              "t").withResults [("A", .num 1), ("B", .num 2)])) :=
  ⟨by decide,
    replaced_results_still_valid _ [("A", .num 1), ("B", .num 2)] (by decide) (by decide)
      (by decide)⟩

/-! ## Theorems: inclusion proofs for a power of two of leaves (C30) -/

/-- A node of the next level is the hash of the pair below it. -/
theorem nextLevel_getElem (cur : List String) :
    ∀ (j : Nat) (a b : String), cur[2 * j]? = some a → cur[2 * j + 1]? = some b →
      (nextLevel cur)[j]? = some (sha256 (a ++ b)) := by
  induction cur using nextLevel.induct with
  | case1 => intro j a b ha _; simp at ha
  | case2 c =>
    intro j a b ha hb
    cases j with
    | zero => simp at hb
    | succ j =>
      rw [show 2 * (j + 1) = 2 * j + 1 + 1 by omega] at ha
      simp at ha
  | case3 c d more ih =>
    intro j a b ha hb
    cases j with
    | zero =>
      simp only [Nat.mul_zero, List.getElem?_cons_zero, Option.some.injEq, Nat.zero_add,
        List.getElem?_cons_succ] at ha hb
      subst ha; subst hb
      simp [nextLevel]
    | succ j =>
      rw [show 2 * (j + 1) = 2 * j + 1 + 1 by omega] at ha
      rw [show 2 * (j + 1) + 1 = 2 * j + 1 + 1 + 1 by omega] at hb
      simp only [List.getElem?_cons_succ] at ha hb
      simp only [nextLevel, List.getElem?_cons_succ]
      exact ih j a b ha hb

theorem foldProof_cons (cur : String) (entry : ProofStep) (rest : List ProofStep) :
    foldProof cur (entry :: rest) =
      foldProof (match entry.position with
        | .left => sha256 (entry.hash ++ cur)
        | .right => sha256 (cur ++ entry.hash)) rest := rfl

/-- On a level of `2 ^ k` nodes, the proof for the node at position `i` has `k` entries and
folds to the root of the levels above. -/
theorem proofLoop_power_of_two (k : Nat) :
    ∀ (cur : List String) (fuel i : Nat) (x : String),
      cur.length = 2 ^ k → cur.length ≤ fuel → cur[i]? = some x →
      (proofLoop (cur :: merkleLevels fuel cur).dropLast i).length = k ∧
        some (foldProof x (proofLoop (cur :: merkleLevels fuel cur).dropLast i)) =
          rootFrom fuel cur := by
  induction k with
  | zero =>
    intro cur fuel i x hlen hfuel hx
    have hshort : ¬ cur.length > 1 := by rw [hlen]; simp
    have hlevels : merkleLevels fuel cur = [] := by
      cases fuel with
      | zero => rfl
      | succ f => simp [merkleLevels, hshort]
    rw [hlevels, rootFrom_of_short fuel cur hshort]
    match cur, hlen with
    | [y], _ =>
      cases i with
      | zero =>
        simp only [List.getElem?_cons_zero, Option.some.injEq] at hx
        subst hx
        exact ⟨rfl, rfl⟩
      | succ i => simp at hx
  | succ k ih =>
    intro cur fuel i x hlen hfuel hx
    have hpos : 0 < 2 ^ k := Nat.two_pow_pos k
    have hpow : 2 ^ (k + 1) = 2 * 2 ^ k := by rw [pow_succ]; ring
    have hlong : cur.length > 1 := by rw [hlen, hpow]; omega
    obtain ⟨f, rfl⟩ : ∃ f, fuel = f + 1 := ⟨fuel - 1, by omega⟩
    have hlevels : merkleLevels (f + 1) cur =
        nextLevel cur :: merkleLevels f (nextLevel cur) := by
      simp [merkleLevels, hlong]
    have hnl : (nextLevel cur).length = 2 ^ k := by
      rw [nextLevel_length, hlen, hpow]; omega
    have hi : i < cur.length := by
      by_contra hge
      rw [List.getElem?_eq_none (by omega)] at hx
      exact absurd hx (by simp)
    rw [hlevels, rootFrom_step f cur hlong]
    have hdrop : (cur :: nextLevel cur :: merkleLevels f (nextLevel cur)).dropLast =
        cur :: (nextLevel cur :: merkleLevels f (nextLevel cur)).dropLast := rfl
    rw [hdrop]
    simp only [proofLoop]
    by_cases hodd : i % 2 = 1
    · -- a right node: the sibling is on the left
      have hi0 : i - 1 < cur.length := by omega
      obtain ⟨y, hy⟩ : ∃ y, cur[i - 1]? = some y :=
        ⟨cur[i - 1], List.getElem?_eq_getElem hi0⟩
      have hsib : cur.get? (if i % 2 = 1 then i - 1 else i + 1) = some y := by
        rw [if_pos hodd, List.get?_eq_getElem?]; exact hy
      have hnext := nextLevel_getElem cur (i / 2) y x
        (by rw [show 2 * (i / 2) = i - 1 by omega]; exact hy)
        (by rw [show 2 * (i / 2) + 1 = i by omega]; exact hx)
      obtain ⟨h1, h2⟩ := ih (nextLevel cur) f (i / 2) _ hnl (by omega) hnext
      rw [hsib]
      simp only [hodd, if_true, List.singleton_append, List.length_cons, foldProof_cons]
      exact ⟨by omega, h2⟩
    · -- a left node: the sibling is on the right
      have hev : i % 2 = 0 := by omega
      have hi1 : i + 1 < cur.length := by omega
      obtain ⟨y, hy⟩ : ∃ y, cur[i + 1]? = some y :=
        ⟨cur[i + 1], List.getElem?_eq_getElem hi1⟩
      have hsib : cur.get? (if i % 2 = 1 then i - 1 else i + 1) = some y := by
        rw [if_neg hodd, List.get?_eq_getElem?]; exact hy
      have hnext := nextLevel_getElem cur (i / 2) x y
        (by rw [show 2 * (i / 2) = i by omega]; exact hx)
        (by rw [show 2 * (i / 2) + 1 = i + 1 by omega]; exact hy)
      obtain ⟨h1, h2⟩ := ih (nextLevel cur) f (i / 2) _ hnl (by omega) hnext
      rw [hsib]
      simp only [hodd, if_false, List.singleton_append, List.length_cons, foldProof_cons]
      exact ⟨by omega, h2⟩

/-- The tree of `buildMerkleTree` for a list that is not empty. -/
theorem buildMerkleTree_tree (leaves : List String) (h : leaves ≠ []) :
    (buildMerkleTree leaves).tree =
      jsSort leaves :: merkleLevels (jsSort leaves).length (jsSort leaves) := by
  unfold buildMerkleTree
  have : ¬ leaves.length = 0 := by
    intro h0; exact h (List.length_eq_zero.mp h0)
  rw [if_neg this]

/-- The function `getMerkleProof` returns `null` exactly for a hash that is not among the
leaves. -/
theorem getMerkleProof_eq_none_iff (h : String) (leaves : List String) :
    getMerkleProof h leaves = none ↔ h ∉ leaves := by
  unfold getMerkleProof
  simp only
  rw [← (jsSort_perm leaves).mem_iff, ← List.indexOf_eq_length]
  split <;> simp_all

/-- C30. When the number of leaves is `2 ^ k`, then for every leaf `h` of the list,
`getMerkleProof(h, leaves)` returns a proof of exactly `k` entries, and folding them from
`cur = h` (`sha256(entry.hash + cur)` for position `left`, `sha256(cur + entry.hash)` for
position `right`) yields `buildMerkleTree(leaves).root`; and `getMerkleProof` returns `null`
exactly when `h` is not among the leaves. -/
theorem power_of_two_inclusion_proof_reaches_root (leaves : List String) (k : Nat)
    (hlen : leaves.length = 2 ^ k) (h : String) :
    (h ∈ leaves →
      ∃ proof : List ProofStep, getMerkleProof h leaves = some proof ∧ proof.length = k ∧
        some (foldProof h proof) = (buildMerkleTree leaves).root) ∧
    (getMerkleProof h leaves = none ↔ h ∉ leaves) := by
  refine ⟨?_, getMerkleProof_eq_none_iff h leaves⟩
  intro hmem
  have hne : leaves ≠ [] := by
    intro h0; rw [h0] at hmem; simp at hmem
  have hsorted : h ∈ jsSort leaves := (jsSort_perm leaves).mem_iff.mpr hmem
  have hidx : (jsSort leaves)[List.indexOf h (jsSort leaves)]? = some h := by
    rw [← List.get?_eq_getElem?]; exact List.indexOf_get? hsorted
  have hlt : List.indexOf h (jsSort leaves) < (jsSort leaves).length :=
    List.indexOf_lt_length.mpr hsorted
  obtain ⟨h1, h2⟩ := proofLoop_power_of_two k (jsSort leaves) (jsSort leaves).length
    (List.indexOf h (jsSort leaves)) h (by rw [jsSort_length, hlen]) (le_refl _) hidx
  refine ⟨proofLoop (buildMerkleTree leaves).tree.dropLast (List.indexOf h (jsSort leaves)),
    ?_, ?_, ?_⟩
  · unfold getMerkleProof
    simp only
    rw [if_neg (by omega)]
  · rw [buildMerkleTree_tree leaves hne]; exact h1
  · rw [buildMerkleTree_tree leaves hne, buildMerkleTree_root leaves hne]; exact h2

/-- The theorem for the four leaves `sha256('a')`, .., `sha256('d')` and the leaf
`sha256('c')`. -/
theorem power_of_two_inclusion_proof_reaches_root_witness :
    (sha256 "c" ∈ [sha256 "a", sha256 "b", sha256 "c", sha256 "d"] →
      ∃ proof : List ProofStep,
        getMerkleProof (sha256 "c") [sha256 "a", sha256 "b", sha256 "c", sha256 "d"] =
          some proof ∧ proof.length = 2 ∧
        some (foldProof (sha256 "c") proof) =
          (buildMerkleTree [sha256 "a", sha256 "b", sha256 "c", sha256 "d"]).root) ∧
    (getMerkleProof (sha256 "c") [sha256 "a", sha256 "b", sha256 "c", sha256 "d"] = none ↔
      sha256 "c" ∉ [sha256 "a", sha256 "b", sha256 "c", sha256 "d"]) :=
  power_of_two_inclusion_proof_reaches_root [sha256 "a", sha256 "b", sha256 "c", sha256 "d"]
    2 (by decide) (sha256 "c")

end Elishama
